import Mathlib

/-!
# Count adjustment and interpolation of the n-gram estimator
(lm/builder/adjust_counts.cc, lm/builder/interpolate.cc)

A shallow embedding of `StatCollector`, `CollapseStream`, `AdjustCounts::Run` and
of the `Callback` of `Interpolate::Run`, followed by theorems about them.

Conventions of the embedding.

* Word ids and counts are natural numbers.  A `uint64_t` counter that only grows
  by `++` is an unbounded natural: it cannot wrap in a run of fewer than `2 ^ 64`
  steps.  The running sums `lower_counts`, to which whole counts are added, are
  computed modulo `2 ^ 64`.
* The special word ids `kUNK`, `kBOS` (declared in a header that is not part of
  the sources at hand) are parameters of every definition that uses them.
* Pointers into a block or into a record are record / word indices.
* The `float` and `double` operations of `CalculateDiscounts` are computed with
  rounding to nearest (section "Floating point").  The values handled by
  `Callback::Enter`, which no branch reads, are exact rationals; `log10` and the
  hash function are parameters.
-/

namespace lm.builder

/-- Word identifier (`WordIndex`). -/
abbrev WordIndex := Nat

/-- An n-gram record with the count payload: `order` word ids and `Count()`. -/
structure NGram where
  words : List WordIndex
  count : Nat
deriving DecidableEq

/-- Number of words of the record, `NGram::Order()`. -/
def NGram.Order (g : NGram) : Nat := g.words.length

/-! ## StatCollector -/

/-- Per-order statistics, `StatCollector::OrderStat`: `n[5]`, `count`, `count_pruned`. -/
structure OrderStat where
  n : List Nat
  count : Nat
  count_pruned : Nat
deriving DecidableEq

/-- The zeroed statistics written by the `memset` of the constructor. -/
def OrderStat.zero : OrderStat := ⟨List.replicate 5 0, 0, 0⟩

/-- Body shared by `Add` and `AddFull` on the selected `OrderStat`:
`++count; if (!pruned) ++count_pruned; if (count < 5) ++n[count];`. -/
def OrderStat.bump (stat : OrderStat) (count : Nat) (pruned : Bool) : OrderStat :=
  { n := if count < 5 then stat.n.set count (stat.n.getD count 0 + 1) else stat.n
    count := stat.count + 1
    count_pruned := if pruned then stat.count_pruned else stat.count_pruned + 1 }

/-- The collector is its vector `orders_`; `full_` is `orders_.back()`. -/
abbrev StatCollector := List OrderStat

/-- Constructor `StatCollector(order, ...)`: `order` zeroed entries. -/
def StatCollector.init (order : Nat) : StatCollector := List.replicate order OrderStat.zero

/-- Method `StatCollector::Add(order_minus_1, count, pruned)`. -/
def StatCollector.Add (orders_ : StatCollector) (order_minus_1 : Nat) (count : Nat)
    (pruned : Bool) : StatCollector :=
  orders_.set order_minus_1 ((orders_.getD order_minus_1 OrderStat.zero).bump count pruned)

/-- Method `StatCollector::AddFull(count, pruned)`: the same on `orders_.back()`. -/
def StatCollector.AddFull (orders_ : StatCollector) (count : Nat) (pruned : Bool) :
    StatCollector :=
  StatCollector.Add orders_ (orders_.length - 1) count pruned

/-- One call made on a collector: `Add` or `AddFull` with its arguments. -/
inductive StatCall where
  | add (order_minus_1 : Nat) (count : Nat) (pruned : Bool)
  | addFull (count : Nat) (pruned : Bool)
deriving DecidableEq

/-- Effect of one call. -/
def StatCall.apply (orders_ : StatCollector) : StatCall → StatCollector
  | .add i c p => StatCollector.Add orders_ i c p
  | .addFull c p => StatCollector.AddFull orders_ c p

/-- Effect of a sequence of calls, first call first. -/
def StatCollector.run (orders_ : StatCollector) (calls : List StatCall) : StatCollector :=
  calls.foldl StatCall.apply orders_

/-- The order index a call addresses in a collector of `order` entries. -/
def StatCall.target (order : Nat) : StatCall → Nat
  | .add i _ _ => i
  | .addFull _ _ => order - 1

/-- The count argument of a call. -/
def StatCall.cnt : StatCall → Nat
  | .add _ c _ => c
  | .addFull c _ => c

/-- The pruned flag of a call. -/
def StatCall.isPruned : StatCall → Bool
  | .add _ _ p => p
  | .addFull _ p => p

/-! ## Floating point

A finite floating-point value is a pair `m * 2 ^ e` of integers.  Every cast and
every arithmetic operation of the source computes the exact result and rounds it to
the nearest value of its type, ties to even: `float` is binary32 (24 bits, least
exponent `-149`), `double` is binary64 (53 bits, least exponent `-1074`).  The
operands of `CalculateDiscounts` come from 64-bit counters, so no operation
overflows and no infinity or NaN arises.  Zero is `0 * 2 ^ 0`. -/

/-- A finite floating-point value `m * 2 ^ e`. -/
structure FloatValue where
  m : Int
  e : Int
deriving DecidableEq

/-- The number a floating-point value stands for. -/
def FloatValue.toRat (a : FloatValue) : Rat := (a.m : Rat) * (2 : Rat) ^ a.e

/-- Comparison `a < b` of two floating-point values, on a common exponent. -/
def FloatValue.lt (a b : FloatValue) : Bool :=
  decide (a.m * 2 ^ (a.e - min a.e b.e).toNat < b.m * 2 ^ (b.e - min a.e b.e).toNat)

/-- Number of halvings that bring `n` below 2: `⌊log2 n⌋` for `0 < n < 2 ^ fuel`. -/
def log2Floor : Nat → Nat → Nat
  | 0, _ => 0
  | fuel + 1, n => if n < 2 then 0 else log2Floor fuel (n / 2) + 1

/-- Search for the exponent of the last place of the magnitude `num / den * 2 ^ e`
with `p` bits: from `k` upwards, the first exponent with
`num / den * 2 ^ e / 2 ^ k < 2 ^ p`. -/
def quantum (p num den : Nat) (e : Int) : Nat → Int → Int
  | 0, k => k
  | fuel + 1, k =>
    if 2 ^ p * den * 2 ^ (k - e).toNat ≤ num * 2 ^ (e - k).toNat then
      quantum p num den e fuel (k + 1)
    else k

/-- Nearest integer to `a / b`, ties to even. -/
def roundHalfEven (a b : Nat) : Nat :=
  if 2 * (a % b) < b then a / b
  else if b < 2 * (a % b) then a / b + 1
  else if a / b % 2 = 0 then a / b else a / b + 1

/-- The value `num / den * 2 ^ e` rounded to `p` bits with least exponent `emin`.
The exponent of the last place is the least `k ≥ emin` with
`|num| / den * 2 ^ e / 2 ^ k < 2 ^ p`; the search for it starts at
`e + ⌊log2 |num|⌋ - ⌊log2 den⌋ - p - 1`, which is one or two below it, or at `emin`. -/
def roundTo (p : Nat) (emin : Int) (num : Int) (den : Nat) (e : Int) : FloatValue :=
  let k := quantum p num.natAbs den e 3
    (max emin (e + log2Floor 4096 num.natAbs - log2Floor 4096 den - p - 1))
  let q := roundHalfEven (num.natAbs * 2 ^ (e - k).toNat) (den * 2 ^ (k - e).toNat)
  if q = 0 then ⟨0, 0⟩ else ⟨if num < 0 then -(q : Int) else q, k⟩

/-- Rounding to `float`. -/
def roundFloat (num : Int) (den : Nat) (e : Int) : FloatValue :=
  roundTo 24 (-149) num den e

/-- Rounding to `double`. -/
def roundDouble (num : Int) (den : Nat) (e : Int) : FloatValue :=
  roundTo 53 (-1074) num den e

/-- Cast `static_cast<float>(n)` of an unsigned integer. -/
def FloatValue.ofNat32 (n : Nat) : FloatValue := roundFloat n 1 0

/-- Conversion of an unsigned integer to `double`. -/
def FloatValue.ofNat64 (n : Nat) : FloatValue := roundDouble n 1 0

/-- Cast `static_cast<float>(d)` of a `double`. -/
def FloatValue.toFloat (d : FloatValue) : FloatValue := roundFloat d.m 1 d.e

/-- Product of two `float`s. -/
def FloatValue.mul32 (a b : FloatValue) : FloatValue := roundFloat (a.m * b.m) 1 (a.e + b.e)

/-- Quotient of two `float`s, for a divisor that is not zero. -/
def FloatValue.div32 (a b : FloatValue) : FloatValue :=
  roundFloat (a.m * b.m.sign) b.m.natAbs (a.e - b.e)

/-- Difference of two `float`s. -/
def FloatValue.sub32 (a b : FloatValue) : FloatValue :=
  roundFloat (a.m * 2 ^ (a.e - min a.e b.e).toNat - b.m * 2 ^ (b.e - min a.e b.e).toNat) 1
    (min a.e b.e)

/-- Product of two `double`s. -/
def FloatValue.mul64 (a b : FloatValue) : FloatValue := roundDouble (a.m * b.m) 1 (a.e + b.e)

/-- Sum of two `double`s. -/
def FloatValue.add64 (a b : FloatValue) : FloatValue :=
  roundDouble (a.m * 2 ^ (a.e - min a.e b.e).toNat + b.m * 2 ^ (b.e - min a.e b.e).toNat) 1
    (min a.e b.e)

/-! ## CalculateDiscounts -/

/-- The two `UTIL_THROW_IF` sites of `CalculateDiscounts`; both throw
`BadDiscountException`.  `order` is the `i+1` of the message, `j` the count class. -/
inductive BadDiscountException where
  | notObserved (order : Nat) (j : Nat)
  | outOfRange (order : Nat) (j : Nat) (amount : FloatValue)
deriving DecidableEq

/-- Discount parameters of one order: `amount[0..3]`. -/
structure Discount where
  amount : List FloatValue
deriving DecidableEq

/-- What `CalculateDiscounts` leaves in `counts_`, `counts_pruned_`, `discounts_`. -/
structure DiscountOutput where
  counts : List Nat
  counts_pruned : List Nat
  discounts : List Discount
deriving DecidableEq

/-- First inner loop: `for j in 1..3: UTIL_THROW_IF(s.n[j] == 0, ...)`, run over the
remaining values of `j`. -/
def checkObserved (i : Nat) (s : OrderStat) : List Nat → Except BadDiscountException Unit
  | [] => .ok ()
  | j :: js =>
    if s.n.getD j 0 = 0 then .error (.notObserved (i + 1) j) else checkObserved i s js

/-- The `float y = static_cast<float>(s.n[1]) / static_cast<float>(s.n[1] + 2.0 * s.n[2])`:
the sum is computed in `double`, the quotient in `float`. -/
def discountY (s : OrderStat) : FloatValue :=
  (FloatValue.ofNat32 (s.n.getD 1 0)).div32
    (((FloatValue.ofNat64 (s.n.getD 1 0)).add64
      ((FloatValue.mk 1 1).mul64 (FloatValue.ofNat64 (s.n.getD 2 0)))).toFloat)

/-- The expression assigned to `amount[j]`, evaluated in `float` from left to right:
`float(j) - float(j + 1) * y * float(n[j+1]) / float(n[j])`. -/
def discountAmount (s : OrderStat) (j : Nat) : FloatValue :=
  (FloatValue.ofNat32 j).sub32
    ((((FloatValue.ofNat32 (j + 1)).mul32 (discountY s)).mul32
      (FloatValue.ofNat32 (s.n.getD (j + 1) 0))).div32 (FloatValue.ofNat32 (s.n.getD j 0)))

/-- Second inner loop: assign `amount[j]` and throw when it is `< 0.0` or `> j`. -/
def fillAmounts (i : Nat) (s : OrderStat) :
    List Nat → List FloatValue → Except BadDiscountException (List FloatValue)
  | [], amount => .ok amount
  | j :: js, amount =>
    let a := discountAmount s j
    if a.lt ⟨0, 0⟩ || (FloatValue.ofNat32 j).lt a then .error (.outOfRange (i + 1) j a)
    else fillAmounts i s js (amount.set j a)

/-- Body of the outer loop for order index `i`. -/
def calcOrder (i : Nat) (s : OrderStat) : Except BadDiscountException Discount :=
  match checkObserved i s [1, 2, 3] with
  | .error e => .error e
  | .ok _ =>
    match fillAmounts i s [1, 2, 3] [⟨0, 0⟩, ⟨0, 0⟩, ⟨0, 0⟩, ⟨0, 0⟩] with
    | .error e => .error e
    | .ok amount => .ok ⟨amount⟩

/-- Outer loop of `CalculateDiscounts` from index `i` on, `out` being what has
been written so far. -/
def calcFrom : Nat → List OrderStat → DiscountOutput →
    Except BadDiscountException DiscountOutput
  | _, [], out => .ok out
  | i, s :: rest, out =>
    match calcOrder i s with
    | .error e => .error e
    | .ok d =>
      calcFrom (i + 1) rest
        ⟨out.counts ++ [s.count], out.counts_pruned ++ [s.count_pruned], out.discounts ++ [d]⟩

/-- Method `StatCollector::CalculateDiscounts`. -/
def StatCollector.CalculateDiscounts (orders_ : StatCollector) :
    Except BadDiscountException DiscountOutput :=
  calcFrom 0 orders_ ⟨[], [], []⟩

/-! ## CollapseStream

A block is the list of the records of its valid region, so that
`ValidSize() = (number of records) * TotalSize()`.  A pointer `p` into the
current block is the record index `(p - block_base) / TotalSize()`; `copy_from_`
may be one record before `current_`, hence an integer. -/

/-- Record stored in memory that was never written: all zero. -/
instance : Inhabited NGram := ⟨⟨[], 0⟩⟩

/-- One block of the chain: the records of its valid region. -/
abbrev Block := List NGram

/-- Size in bytes of the valid region of a block, `ValidSize()`, for records of
`TotalSize` bytes. -/
def ValidSize (TotalSize : Nat) (b : Block) : Nat := b.length * TotalSize

/-- Test of `operator++` selecting the record to delete:
`begin()[1] == kBOS || (threshold[Order-1] && Count() <= threshold[Order-1])`. -/
def isDeleted (kBOS : WordIndex) (counts_threshold_ : List Nat) (order : Nat) (g : NGram) :
    Bool :=
  g.words.getD 1 0 == kBOS ||
    (counts_threshold_.getD (order - 1) 0 != 0 && g.count ≤ counts_threshold_.getD (order - 1) 0)

/-- Test of `UpdateCopyFromForPruning` that stops the backward walk:
`begin()[1] != kBOS && (!threshold[Order-1] || Count() > threshold[Order-1])`. -/
def isKept (kBOS : WordIndex) (counts_threshold_ : List Nat) (order : Nat) (g : NGram) :
    Bool :=
  g.words.getD 1 0 != kBOS &&
    (counts_threshold_.getD (order - 1) 0 == 0 || g.count > counts_threshold_.getD (order - 1) 0)

/-- Loop of `UpdateCopyFromForPruning` entered with `copy_from_ = c - 1`:
`for (; copy_from_ >= current_; copy_from_ -= TotalSize) if (kept) break;`. -/
def scanBack (kBOS : WordIndex) (counts_threshold_ : List Nat) (order : Nat) (block : Block)
    (current_ : Nat) : Nat → Int
  | 0 => -1
  | k + 1 =>
    if current_ ≤ k then
      if isKept kBOS counts_threshold_ order (block.getD k default) then (k : Int)
      else scanBack kBOS counts_threshold_ order block current_ k
    else (k : Int)

/-- Method `CollapseStream::UpdateCopyFromForPruning`: step `copy_from_` one record
back, then walk back to the last kept record that is not before `current_`. -/
def UpdateCopyFromForPruning (kBOS : WordIndex) (counts_threshold_ : List Nat) (order : Nat)
    (block : Block) (current_ : Nat) (copy_from_ : Int) : Int :=
  match copy_from_ - 1 with
  | Int.ofNat k => scanBack kBOS counts_threshold_ order block current_ (k + 1)
  | Int.negSucc k => Int.negSucc k

/-- State of a `CollapseStream`.  `released` are the blocks the link has already
passed on, `block_` the block under the cursor (`none`: poison, the stream is
over), `pending` the blocks still to come. -/
structure CollapseStream where
  order : Nat
  counts_threshold_ : List Nat
  released : List Block
  block_ : Option Block
  current_ : Nat
  copy_from_ : Int
  pending : List Block
deriving DecidableEq

/-- Method `CollapseStream::StartBlock` with `block_` at block `b`: skip blocks
without valid bytes, rebase `current_`, set `copy_from_` to the end of the block
and update it. -/
def StartBlock (kBOS : WordIndex) (order : Nat) (counts_threshold_ : List Nat)
    (current_ : Nat) (copy_from_ : Int) : List Block → Block → List Block → CollapseStream
  | released, b, [] =>
    if b.length ≠ 0 then
      ⟨order, counts_threshold_, released, some b, 0,
        UpdateCopyFromForPruning kBOS counts_threshold_ order b 0 b.length, []⟩
    else ⟨order, counts_threshold_, released ++ [b], none, current_, copy_from_, []⟩
  | released, b, p :: ps =>
    if b.length ≠ 0 then
      ⟨order, counts_threshold_, released, some b, 0,
        UpdateCopyFromForPruning kBOS counts_threshold_ order b 0 b.length, p :: ps⟩
    else StartBlock kBOS order counts_threshold_ current_ copy_from_ (released ++ [b]) p ps

/-- Advance of the link followed by `StartBlock`: `++block_; StartBlock();`,
`done` being the block that is passed on. -/
def nextBlock (kBOS : WordIndex) (order : Nat) (counts_threshold_ : List Nat)
    (current_ : Nat) (copy_from_ : Int) (released : List Block) (done : Block) :
    List Block → CollapseStream
  | [] => ⟨order, counts_threshold_, released ++ [done], none, current_, copy_from_, []⟩
  | p :: ps =>
    StartBlock kBOS order counts_threshold_ current_ copy_from_ (released ++ [done]) p ps

/-- Constructor `CollapseStream(position, counts_threshold)` over the blocks the
chain will deliver; `order` is `NGram::OrderFromSize(EntrySize())`. -/
def CollapseStream.init (kBOS : WordIndex) (order : Nat) (counts_threshold_ : List Nat) :
    List Block → CollapseStream
  | [] => ⟨order, counts_threshold_, [], none, 0, 0, []⟩
  | b :: bs => StartBlock kBOS order counts_threshold_ 0 0 [] b bs

/-- Conversion `operator bool`. -/
def CollapseStream.valid (cs : CollapseStream) : Bool := cs.block_.isSome

/-- Dereference `operator*`: the record under `current_`. -/
def CollapseStream.deref (cs : CollapseStream) : NGram :=
  (cs.block_.getD []).getD cs.current_ default

/-- Method `CollapseStream::operator++`. -/
def CollapseStream.next (kBOS : WordIndex) (cs : CollapseStream) : CollapseStream :=
  match cs.block_ with
  | none => cs
  | some b =>
    let del := isDeleted kBOS cs.counts_threshold_ cs.order (b.getD cs.current_ default)
      && decide ((cs.current_ : Int) < cs.copy_from_)
    let b1 := if del then b.set cs.current_ (b.getD cs.copy_from_.toNat default) else b
    let cf1 := if del then
        UpdateCopyFromForPruning kBOS cs.counts_threshold_ cs.order b1 cs.current_ cs.copy_from_
      else cs.copy_from_
    let cur1 := cs.current_ + 1
    if cur1 = b.length then
      nextBlock kBOS cs.order cs.counts_threshold_ cur1 cf1 cs.released
        (b1.take (cf1 + 1).toNat) cs.pending
    else { cs with block_ := some b1, current_ := cur1, copy_from_ := cf1 }

/-- The cursor advanced `k` times. -/
def CollapseStream.advance (kBOS : WordIndex) : Nat → CollapseStream → CollapseStream
  | 0, cs => cs
  | k + 1, cs => CollapseStream.advance kBOS k (cs.next kBOS)

/-- Records seen by a consumer running `for (; full; ++full) use(*full)`, for at
most `fuel` rounds. -/
def CollapseStream.yield (kBOS : WordIndex) : Nat → CollapseStream → List NGram
  | 0, _ => []
  | fuel + 1, cs =>
    if cs.valid then cs.deref :: CollapseStream.yield kBOS fuel (cs.next kBOS) else []

/-- Total number of records in a list of blocks. -/
def totalRecords (blocks : List Block) : Nat := (blocks.map List.length).sum

/-! ## AdjustCounts::Run

`streams[i]` is the output stream of order `i + 1`.  The pointer `lower_valid`
is stored as the number of streams up to and including the one it points to:
`lower_valid = streams.begin() + (n - 1)`, so that `n = 0` is the position just
before `streams.begin()` reached by the close-out loop when `same = 0`. -/

/-- An output stream of a lower order.  `written` are the records the cursor has
moved past (they are what the next stage receives), `cur` the record under the
cursor.  `dropped` is a ghost field that no operation reads: the records that
were closed as pruned, whose slot is reused by the next record of the order. -/
structure NGramStream where
  order : Nat
  written : List NGram
  cur : NGram
  dropped : List NGram
deriving DecidableEq

/-- Advance `++stream`: pass the current record on; the cursor lands on a slot that
has not been written yet. -/
def NGramStream.next (s : NGramStream) : NGramStream :=
  { s with written := s.written ++ [s.cur], cur := ⟨List.replicate s.order 0, 0⟩ }

/-- Stream left where it is with its record closed as pruned (ghost bookkeeping only). -/
def NGramStream.abandon (s : NGramStream) : NGramStream :=
  { s with dropped := s.dropped ++ [s.cur] }

instance : Inhabited NGramStream := ⟨⟨0, [], default, []⟩⟩

/-- State of `streams.Init(positions, n)`: stream `i` has order `i + 1`. -/
def NGramStreams.Init (n : Nat) : List NGramStream :=
  (List.range n).map fun i => ⟨i + 1, [], ⟨List.replicate (i + 1) 0, 0⟩, []⟩

/-- Number of trailing words two records share, as counted by the loop of
`FindDifference` on the reversed word sequences (`cur` of `full`, `pre` of
`lower_last`): it stops at the first difference or when `lower_last` is used up. -/
def matchBack : List WordIndex → List WordIndex → Nat
  | c :: cs, p :: ps => if p = c then matchBack cs ps + 1 else 0
  | _, _ => 0

/-- Function `FindDifference(full, lower_last)`: index in `full` of the last word
that is different. -/
def FindDifference (full lower_last : NGram) : Int :=
  (full.words.length : Int) - 1 - matchBack full.words.reverse lower_last.words.reverse

/-- Local state of `Run` in the general case. -/
structure RunState where
  streams : List NGramStream
  lower_valid : Nat
  lower_counts : List Nat
  stats : StatCollector
deriving DecidableEq

/-- Body of the close-out loop for `lower_valid = &streams[i]`. -/
def closeBody (counts_threshold_ : List Nat) (i : Nat) (st : RunState) : RunState :=
  let s := st.streams.getD i default
  let order := s.order
  let realCount := st.lower_counts.getD (order - 1) 0
  if order = 1 ∨ counts_threshold_.getD (order - 1) 0 = 0
      ∨ realCount > counts_threshold_.getD (order - 1) 0 then
    { st with stats := st.stats.Add i s.cur.count false, streams := st.streams.set i s.next }
  else
    { st with stats := st.stats.Add i s.cur.count true, streams := st.streams.set i s.abandon }

/-- Close-out loop `for (; lower_valid >= &streams[same]; --lower_valid)`, by
recursion on the position of `lower_valid`. -/
def closeLoop (counts_threshold_ : List Nat) (same : Nat) : Nat → RunState → RunState
  | 0, st => { st with lower_valid := 0 }
  | lv + 1, st =>
    if same ≤ lv then closeLoop counts_threshold_ same lv (closeBody counts_threshold_ lv st)
    else { st with lower_valid := lv + 1 }

/-- Loop over `lower_counts` from index `i`:
`if (i >= same) lower_counts[i] = 0; lower_counts[i] += full->Count();`.
The entries are `uint64_t`: the addition wraps, and an entry that was just zeroed
receives the count itself. -/
def updateLowerCounts (same : Nat) (count : Nat) : Nat → List Nat → List Nat
  | _, [] => []
  | i, c :: cs =>
    (if i ≥ same then count else (c + count) % 2 ^ 64)
      :: updateLowerCounts same count (i + 1) cs

/-- Body of the opening loop: `++lower_valid; copy(bos, full_end, begin());
Count() = count`. -/
def openAt (full : NGram) (bos : Nat) (count : Nat) (st : RunState) : RunState :=
  let s := st.streams.getD st.lower_valid default
  { st with
    lower_valid := st.lower_valid + 1
    streams := st.streams.set st.lower_valid { s with cur := ⟨full.words.drop bos, count⟩ } }

/-- Opening loop `for (bos = different; bos > full->begin() && *bos != kBOS; --bos)`;
returns the final `bos`. -/
def openLoop (kBOS : WordIndex) (full : NGram) : Nat → RunState → Nat × RunState
  | 0, st => (0, st)
  | b + 1, st =>
    if full.words.getD (b + 1) 0 ≠ kBOS then openLoop kBOS full b (openAt full (b + 1) 1 st)
    else (b + 1, st)

/-- Body of the main loop of `Run` for the record `full` under the cursor. -/
def runBody (kBOS : WordIndex) (counts_threshold_ : List Nat) (full : NGram)
    (st : RunState) : RunState :=
  let different := FindDifference full (st.streams.getD (st.lower_valid - 1) default).cur
  let same := ((full.words.length : Int) - 1 - different).toNat
  let st1 : RunState :=
    if same ≠ 0 then
      let s := st.streams.getD (same - 1) default
      { st with streams := st.streams.set (same - 1)
                  { s with cur := { s.cur with count := s.cur.count + 1 } } }
    else st
  let st2 := closeLoop counts_threshold_ same st1.lower_valid st1
  let st3 := { st2 with
    lower_counts := updateLowerCounts same full.count 0 st2.lower_counts }
  let r := openLoop kBOS full different.toNat st3
  if r.1 ≠ 0 then
    openAt full r.1 full.count r.2
  else
    let t := counts_threshold_.getD (full.Order - 1) 0
    let pruned : Bool := if t ≠ 0 then decide (full.count ≤ t) else false
    { r.2 with stats := r.2.stats.AddFull full.count pruned }

/-- Main loop `for (; full; ++full)`, for at most `fuel` rounds. -/
def mainLoop (kBOS : WordIndex) (counts_threshold_ : List Nat) :
    Nat → CollapseStream → RunState → CollapseStream × RunState
  | 0, full, st => (full, st)
  | fuel + 1, full, st =>
    if full.valid then
      mainLoop kBOS counts_threshold_ fuel (full.next kBOS)
        (runBody kBOS counts_threshold_ full.deref st)
    else (full, st)

/-- Body of the final loop "Output everything valid" for `s = &streams[i]`. -/
def flushBody (counts_threshold_ : List Nat) (st : RunState) (i : Nat) : RunState :=
  let s := st.streams.getD i default
  let t := counts_threshold_.getD (s.order - 1) 0
  let pruned : Bool := if t ≠ 0 then decide (s.cur.count ≤ t) else false
  { st with
    stats := st.stats.Add i s.cur.count pruned
    streams := st.streams.set i (if pruned then s.abandon else s.next) }

/-- Final loop `for (s = streams.begin(); s <= lower_valid; ++s)`. -/
def flushLoop (counts_threshold_ : List Nat) (st : RunState) : RunState :=
  (List.range st.lower_valid).foldl (flushBody counts_threshold_) st

/-- Initialisation of the general case: `<unk>` is written with count 0 and
entered in the statistics, `<s>` is left under the cursor of `streams[0]` with
count 0, and `lower_counts` is zeroed. -/
def runInit (kUNK kBOS : WordIndex) (order : Nat) : RunState :=
  let streams := NGramStreams.Init (order - 1)
  let s0 := streams.getD 0 default
  let s0a := { s0 with cur := ⟨s0.cur.words.set 0 kUNK, 0⟩ }
  let stats := (StatCollector.init order).Add 0 0 false
  let s0b := s0a.next
  let s0c := { s0b with cur := ⟨s0b.cur.words.set 0 kBOS, 0⟩ }
  { streams := streams.set 0 s0c, lower_valid := 1,
    lower_counts := List.replicate order 0, stats := stats }

/-- Everything `Run` does in the general case before `CalculateDiscounts`:
the final state of the highest-order stream and of the local variables. -/
def runCore (kUNK kBOS : WordIndex) (counts_threshold_ : List Nat) (order : Nat)
    (blocks : List Block) : CollapseStream × RunState :=
  let full := CollapseStream.init kBOS order counts_threshold_ blocks
  let r := mainLoop kBOS counts_threshold_ (totalRecords blocks) full
    (runInit kUNK kBOS order)
  (r.1, flushLoop counts_threshold_ r.2)

/-- What a finished `Run` leaves behind: the records of every lower-order stream,
the blocks of the highest-order stream, and the members `counts_`,
`counts_pruned_`, `discounts_`. -/
structure RunOutput where
  lower : List (List NGram)
  highest : List Block
  counts : List Nat
  counts_pruned : List Nat
  discounts : List Discount
deriving DecidableEq

/-- Method `AdjustCounts::Run(positions)` for `order = positions.size()`, the last
position delivering `blocks`. -/
def Run (kUNK kBOS : WordIndex) (counts_threshold_ : List Nat) (order : Nat)
    (blocks : List Block) : Except BadDiscountException RunOutput :=
  if order = 1 then
    let stats := blocks.flatten.foldl (fun st g => StatCollector.AddFull st g.count false)
      (StatCollector.init order)
    match stats.CalculateDiscounts with
    | .error e => .error e
    | .ok d => .ok ⟨[], blocks, d.counts, d.counts_pruned, d.discounts⟩
  else
    let r := runCore kUNK kBOS counts_threshold_ order blocks
    match r.2.stats.CalculateDiscounts with
    | .error e => .error e
    | .ok d =>
      .ok ⟨r.2.streams.map NGramStream.written, r.1.released, d.counts, d.counts_pruned,
        d.discounts⟩

/-! ## Predicates used by the theorems -/

/-- Every entry of the collector has its five counters. -/
def StatCollector.WF (orders_ : StatCollector) : Prop := ∀ s ∈ orders_, s.n.length = 5

/-- An order on which `CalculateDiscounts` throws: one of `n[1], n[2], n[3]` is zero,
or some computed discount `amount[j]`, `j` in `1..3`, lies outside `[0, j]`. -/
def OrderStat.unusable (s : OrderStat) : Prop :=
  (s.n.getD 1 0 = 0 ∨ s.n.getD 2 0 = 0 ∨ s.n.getD 3 0 = 0) ∨
    ∃ j, 1 ≤ j ∧ j ≤ 3 ∧
      ((discountAmount s j).toRat < 0 ∨ (discountAmount s j).toRat > (j : Rat))

/-- The discount of count class `j` in exact arithmetic, as the specification words
it: `j - (j + 1) * y * n[j+1] / n[j]` with `y = n[1] / (n[1] + 2 n[2])`. -/
def exactDiscount (s : OrderStat) (j : Nat) : Rat :=
  (j : Rat) - ((j + 1 : Nat) : Rat)
    * ((s.n.getD 1 0 : Rat) / ((s.n.getD 1 0 : Rat) + 2 * (s.n.getD 2 0 : Rat)))
    * (s.n.getD (j + 1) 0 : Rat) / (s.n.getD j 0 : Rat)

/-- Invariant of the compaction of one block.  The memory `b` of the block splits
into `A` (slots the cursor has passed, all kept records), `M` (the slots from
`current_` to `copy_from_`, ending in a kept record) and `T` (slots behind
`copy_from_`, dead); the kept records of `A ++ M` are those of the block `orig` as
it was delivered. -/
def BlockInv (keep : NGram → Bool) (orig b : Block) (cur : Nat) (cf : Int) : Prop :=
  ∃ A M T : List NGram, b = A ++ M ++ T ∧ ((A.length : Int) + M.length = cf + 1) ∧
    (M ≠ [] → A.length = cur) ∧ (M = [] → A.length ≤ cur) ∧ (∀ g ∈ A, keep g = true) ∧
    (∀ h : M ≠ [], keep (M.getLast h) = true) ∧
    List.Perm (A ++ M.filter keep) (orig.filter keep) ∧ b.length = orig.length

/-- Records the cursor of a `CollapseStream` has still to visit. -/
def CollapseStream.remaining (cs : CollapseStream) : List NGram :=
  match cs.block_ with
  | none => []
  | some b => b.drop cs.current_ ++ cs.pending.flatten

/-- A stream is in a regular position: the cursor is inside its block, and after
the poison nothing is pending. -/
def CollapseStream.Regular (cs : CollapseStream) : Prop :=
  match cs.block_ with
  | none => cs.pending = []
  | some b => cs.current_ < b.length

/-- Number of `++` still to come before the stream is exhausted. -/
def CollapseStream.todo (cs : CollapseStream) : Nat :=
  match cs.block_ with
  | none => 0
  | some b => (b.length - cs.current_) + totalRecords cs.pending

/-- Invariant of a `CollapseStream` reading `blocks`: the released blocks are the
compacted forms of a prefix of `blocks`, the current block satisfies `BlockInv`, and
the blocks behind it are untouched. -/
def CollapseInv (kBOS : WordIndex) (thr : List Nat) (order : Nat) (blocks : List Block)
    (cs : CollapseStream) : Prop :=
  cs.order = order ∧ cs.counts_threshold_ = thr ∧
  match cs.block_ with
  | none =>
    cs.pending = [] ∧
      List.Forall₂ (fun out orig => List.Perm out (orig.filter (isKept kBOS thr order)))
        cs.released blocks
  | some b =>
    ∃ done orig, blocks = done ++ orig :: cs.pending ∧
      List.Forall₂ (fun out orig => List.Perm out (orig.filter (isKept kBOS thr order)))
        cs.released done ∧
      BlockInv (isKept kBOS thr order) orig b cs.current_ cs.copy_from_ ∧
      cs.current_ < b.length

/-- The value of `same` computed by the loop body for the record `full` in state `st`. -/
def sameAt (st : RunState) (full : NGram) : Nat :=
  ((full.words.length : Int) - 1
    - FindDifference full (st.streams.getD (st.lower_valid - 1) default).cur).toNat

/-- State after the statement `if (same) ++streams[same - 1]->Count();`. -/
def afterIncrement (same : Nat) (st : RunState) : RunState :=
  if same ≠ 0 then
    let s := st.streams.getD (same - 1) default
    { st with streams := st.streams.set (same - 1)
                { s with cur := { s.cur with count := s.cur.count + 1 } } }
  else st

/-- State after the close-out loop and the update of `lower_counts`. -/
def afterClose (counts_threshold_ : List Nat) (full : NGram) (st : RunState) : RunState :=
  let st2 := closeLoop counts_threshold_ (sameAt st full)
    (afterIncrement (sameAt st full) st).lower_valid (afterIncrement (sameAt st full) st)
  { st2 with lower_counts := updateLowerCounts (sameAt st full) full.count 0 st2.lower_counts }

/-- The rest of the loop body: the opening loop and the branch on `bos`. -/
def openPhase (kBOS : WordIndex) (counts_threshold_ : List Nat) (full : NGram) (bos : Nat)
    (st3 : RunState) : RunState :=
  if (openLoop kBOS full bos st3).1 ≠ 0 then
    openAt full (openLoop kBOS full bos st3).1 full.count (openLoop kBOS full bos st3).2
  else
    { (openLoop kBOS full bos st3).2 with
      stats := (openLoop kBOS full bos st3).2.stats.AddFull full.count
        (if counts_threshold_.getD (full.Order - 1) 0 ≠ 0 then
          decide (full.count ≤ counts_threshold_.getD (full.Order - 1) 0) else false) }

/-- What the close-out loop does to one stream: pass its record on or abandon it. -/
def closeStream (counts_threshold_ lower_counts : List Nat) (s : NGramStream) : NGramStream :=
  if s.order = 1 ∨ counts_threshold_.getD (s.order - 1) 0 = 0
      ∨ lower_counts.getD (s.order - 1) 0 > counts_threshold_.getD (s.order - 1) 0 then s.next
  else s.abandon

/-- Shape of the local state of `Run` for `order = N`: `N - 1` lower streams, stream
`i` of order `i + 1`, and `N` entries in `lower_counts` and in the statistics. -/
def RunState.Shape (N : Nat) (st : RunState) : Prop :=
  st.streams.length = N - 1 ∧ (∀ i, i < N - 1 → (st.streams.getD i default).order = i + 1) ∧
    st.lower_counts.length = N ∧ st.stats.length = N

/-- The records `ys`, read one after the other from state `st`, all share at least
`k` trailing words with the open records: the open record of order `k` stays open. -/
def staysOpen (kBOS : WordIndex) (counts_threshold_ : List Nat) (k : Nat) :
    RunState → List NGram → Prop
  | _, [] => True
  | st, y :: ys =>
    k ≤ sameAt st y ∧ staysOpen kBOS counts_threshold_ k (runBody kBOS counts_threshold_ y st) ys

/-- Two states differ at most in the records under the cursors of the streams and in
`lower_valid`: what was written or dropped, the orders, the statistics and
`lower_counts` agree. -/
def SameLogs (st st1 : RunState) : Prop :=
  st1.streams.length = st.streams.length ∧
    (∀ i, (st1.streams.getD i default).written = (st.streams.getD i default).written ∧
      (st1.streams.getD i default).dropped = (st.streams.getD i default).dropped ∧
      (st1.streams.getD i default).order = (st.streams.getD i default).order) ∧
    st1.stats = st.stats ∧ st1.lower_counts = st.lower_counts

/-- Bookkeeping invariant of the lower orders: `count_pruned` is the number of records
written to the stream, `count` the number of records written or dropped. -/
def CountInv (N : Nat) (st : RunState) : Prop :=
  ∀ i, i < N - 1 →
    (st.stats.getD i OrderStat.zero).count_pruned = (st.streams.getD i default).written.length ∧
    (st.stats.getD i OrderStat.zero).count =
      (st.streams.getD i default).written.length + (st.streams.getD i default).dropped.length

/-- The trigram `(a, b, c)` with count `k`, for the concrete runs below. -/
def trig (a b c k : Nat) : NGram := ⟨[a, b, c], k⟩

/-- Nine trigrams in suffix order, in two blocks, for the concrete runs below. -/
def sample : List Block :=
  [[trig 30 20 10 3, trig 30 20 11 1, trig 31 20 11 2, trig 30 21 11 3],
   [trig 30 20 12 1, trig 31 20 12 2, trig 32 20 12 3, trig 30 21 12 1, trig 30 22 12 2]]

/-- What `Run` returns on `sample` with thresholds `[0, 1, 0]`, `kUNK = 0`, `kBOS = 1`;
a discount `⟨m, e⟩` is the `float` `m * 2 ^ e`. -/
def sampleOut : RunOutput :=
  { lower := [[⟨[0], 0⟩, ⟨[1], 0⟩, ⟨[10], 1⟩, ⟨[11], 2⟩, ⟨[12], 3⟩],
              [⟨[20, 10], 1⟩, ⟨[20, 11], 2⟩, ⟨[21, 11], 1⟩, ⟨[20, 12], 3⟩]]
    highest := sample
    counts := [5, 6, 9]
    counts_pruned := [5, 4, 9]
    discounts :=
      [⟨[⟨0, 0⟩, ⟨11184810, -25⟩, ⟨8388608, -23⟩, ⟨12582912, -22⟩]⟩,
       ⟨[⟨0, 0⟩, ⟨11184810, -24⟩, ⟨0, 0⟩, ⟨12582912, -22⟩]⟩,
       ⟨[⟨0, 0⟩, ⟨11184810, -25⟩, ⟨8388608, -23⟩, ⟨12582912, -22⟩]⟩] }

/-- The bigram `(a, b)` with count `k`, for the concrete runs below. -/
def big (a b k : Nat) : NGram := ⟨[a, b], k⟩

/-- Six bigrams in suffix order, in two blocks. -/
def sample2 : List Block :=
  [[big 20 11 1, big 21 11 2, big 20 12 3], [big 21 12 1, big 22 12 2, big 20 13 3]]

/-- What `Run` returns on `sample2` with thresholds `[1, 0]`, `kUNK = 0`, `kBOS = 1`. -/
def sample2Out : RunOutput :=
  { lower := [[⟨[0], 0⟩, ⟨[1], 0⟩, ⟨[11], 2⟩, ⟨[12], 3⟩]]
    highest := sample2
    counts := [5, 6]
    counts_pruned := [4, 6]
    discounts :=
      [⟨[⟨0, 0⟩, ⟨11184810, -25⟩, ⟨8388608, -23⟩, ⟨12582912, -22⟩]⟩,
       ⟨[⟨0, 0⟩, ⟨11184810, -25⟩, ⟨8388608, -23⟩, ⟨12582912, -22⟩]⟩] }

/-! ## Suffix order and continuation counts -/

/-- Lexicographic "less than" on word sequences. -/
def lexLess : List WordIndex → List WordIndex → Bool
  | [], [] => false
  | [], _ :: _ => true
  | _ :: _, [] => false
  | a :: as, b :: bs => decide (a < b) || (decide (a = b) && lexLess as bs)

/-- Modelled from the spec: the comparator of the external sort that delivers the
highest-order stream (its header, lm/builder/sort.hh, is not among the sources at
hand).  "Suffix order: n-grams are compared by reversed word sequence": `l` comes
strictly before `r`. -/
def SuffixOrder (l r : NGram) : Bool := lexLess l.words.reverse r.words.reverse

/-- The last `j` words of a record. -/
def suffixOf (j : Nat) (g : NGram) : List WordIndex := g.words.drop (g.words.length - j)

/-- The `(k+1)`-word suffixes of the records of `input` that end with the `k` words `w`,
one entry per record. -/
def extensions (k : Nat) (w : List WordIndex) (input : List NGram) : List (List WordIndex) :=
  (input.map (suffixOf (k + 1))).filter fun s => decide (s.drop 1 = w)

/-- Continuation count: the number of distinct `(k+1)`-word suffixes of records of
`input` that end with the `k` words `w`. -/
def continuationCount (k : Nat) (w : List WordIndex) (input : List NGram) : Nat :=
  (extensions k w input).dedup.length

/-- The hypotheses on the highest-order input of C3: records of `N` words, in suffix
order (no record comes before an earlier one), pairwise distinct word sequences, and
the begin-of-sentence id nowhere behind the first word. -/
def CleanInput (kBOS : WordIndex) (N : Nat) (input : List NGram) : Prop :=
  (∀ x ∈ input, x.words.length = N) ∧
    input.Pairwise (fun a b => SuffixOrder b a = false) ∧
    input.Pairwise (fun a b => a.words ≠ b.words) ∧
    ∀ x ∈ input, kBOS ∉ x.words.drop 1

/-- Invariant of the main loop on a clean input with all thresholds zero, after the
records `pre ++ [l]`: every lower order is open, the open record of order `j` is the
`j`-word suffix of `l` with its continuation count over the records read so far, and
every record already written (the two seeded unigrams apart) carries its continuation
count over the whole input. -/
def ContInv (N : Nat) (input pre : List NGram) (l : NGram) (st : RunState) : Prop :=
  st.Shape N ∧ st.lower_valid = N - 1 ∧
    (∀ j, 1 ≤ j → j < N →
      (st.streams.getD (j - 1) default).cur
        = ⟨suffixOf j l, continuationCount j (suffixOf j l) (pre ++ [l])⟩) ∧
    (∀ j, 1 ≤ j → j < N →
      ∀ rec ∈ ((st.streams.getD (j - 1) default).written).drop (if j = 1 then 2 else 0),
        rec.count = continuationCount j rec.words input) ∧
    2 ≤ (st.streams.getD 0 default).written.length

/-! ## Predicates for the position of the kept records -/

/-- Relation between a compacted block `out` and the delivered block `orig`: every
slot of `out` that held a kept record in `orig` still holds that record. -/
def InPlace (keep : NGram → Bool) (out orig : Block) : Prop :=
  out.length ≤ orig.length ∧
    ∀ i, i < out.length → keep (orig.getD i default) = true →
      out.getD i default = orig.getD i default

/-- Invariant of the block under the cursor for `InPlace`: the slots from `cur` on are
as delivered, and no slot that held a kept record has been overwritten. -/
def PlaceInv (keep : NGram → Bool) (orig b : Block) (cur : Nat) : Prop :=
  b.length = orig.length ∧ b.drop cur = orig.drop cur ∧
    ∀ i, keep (orig.getD i default) = true → b.getD i default = orig.getD i default

/-- Invariant of a `CollapseStream` reading `blocks`, for `InPlace`. -/
def CollapsePlaceInv (kBOS : WordIndex) (thr : List Nat) (order : Nat) (blocks : List Block)
    (cs : CollapseStream) : Prop :=
  cs.order = order ∧ cs.counts_threshold_ = thr ∧
  match cs.block_ with
  | none =>
    cs.pending = [] ∧ List.Forall₂ (InPlace (isKept kBOS thr order)) cs.released blocks
  | some b =>
    ∃ done orig, blocks = done ++ orig :: cs.pending ∧
      List.Forall₂ (InPlace (isKept kBOS thr order)) cs.released done ∧
      PlaceInv (isKept kBOS thr order) orig b cs.current_ ∧
      cs.current_ < b.length

/-! ## Predicates for the cursor of the open records -/

/-- Invariant of the main loop of `Run` for `order = N`: `lower_valid` points into
`streams`, and the record under the cursor of every open stream `i` has `i + 1`
words. -/
def OpenInv (N : Nat) (st : RunState) : Prop :=
  st.Shape N ∧ 1 ≤ st.lower_valid ∧ st.lower_valid ≤ N - 1 ∧
    ∀ i, i < st.lower_valid → (st.streams.getD i default).cur.words.length = i + 1

/-- The records of `sample` preceded by the sentence-start trigram `(1, 1, 10)` with
count 2 and followed by `(30, 20, 13)`, in suffix order, in two blocks. -/
def sample3 : List Block :=
  [[trig 1 1 10 2, trig 30 20 10 3, trig 30 20 11 1, trig 31 20 11 2, trig 30 21 11 3],
   [trig 30 20 12 1, trig 31 20 12 2, trig 32 20 12 3, trig 30 21 12 1, trig 30 22 12 2,
    trig 30 20 13 1]]

/-- What `Run` returns on `sample3` with thresholds `[0, 2, 0]`, `kUNK = 0`, `kBOS = 1`. -/
def sample3Out : RunOutput :=
  { lower := [[⟨[0], 0⟩, ⟨[1], 0⟩, ⟨[10], 2⟩, ⟨[11], 2⟩, ⟨[12], 3⟩, ⟨[13], 1⟩],
              [⟨[20, 10], 1⟩, ⟨[20, 11], 2⟩, ⟨[21, 11], 1⟩, ⟨[20, 12], 3⟩]]
    highest :=
      [[trig 30 21 11 3, trig 30 20 10 3, trig 30 20 11 1, trig 31 20 11 2],
       [trig 30 20 12 1, trig 31 20 12 2, trig 32 20 12 3, trig 30 21 12 1, trig 30 22 12 2,
        trig 30 20 13 1]]
    counts := [6, 8, 10]
    counts_pruned := [6, 4, 10]
    discounts :=
      [⟨[⟨0, 0⟩, ⟨13421772, -26⟩, ⟨14260634, -23⟩, ⟨12582912, -22⟩]⟩,
       ⟨[⟨0, 0⟩, ⟨9320675, -24⟩, ⟨9786709, -23⟩, ⟨12582912, -22⟩]⟩,
       ⟨[⟨0, 0⟩, ⟨13421772, -25⟩, ⟨13421772, -24⟩, ⟨12582912, -22⟩]⟩] }

/-! ## Interpolate

Floats are read as exact rationals; the library function `log10` and the hash
function `util::MurmurHashNative` are parameters, and so are the word ids `kUNK`
and `kEOS`. -/

/-- Modelled from the spec: the payload of a record before interpolation, the
uninterpolated probability and the gamma weight. -/
structure Uninterpolated where
  prob : Rat
  gamma : Rat
deriving DecidableEq

/-- Modelled from the spec: the payload of a record after interpolation, written over
the same storage: log10 probability and log10 backoff. -/
structure ProbBackoff where
  prob : Rat
  backoff : Rat
deriving DecidableEq

/-- Modelled from the spec: an entry of a backoff stream, a `(context-hash, weight)`
pair. In an order without pruning the stream holds bare weights; they are entries
whose `hash_value` is never read. -/
structure HashGamma where
  hash_value : Nat
  gamma : Rat
deriving DecidableEq

/-- Modelled from the spec: the bytes of a 32-bit word id as laid out in the record,
lowest byte first. -/
def wordBytes (w : WordIndex) : List Nat :=
  [w % 256, w / 256 % 256, w / 65536 % 256, w / 16777216 % 256]

/-- The byte range `(gram.begin(), gram.Order())` handed to `MurmurHashNative`: it
starts at the first word and its length in bytes is the number of words. -/
def hashedBytes (words : List WordIndex) : List Nat :=
  ((words.map wordBytes).flatten).take words.length

/-- Members of `Callback`: the backoff streams (what is still to be read of each),
`probs_` and `count_thresholds_`. -/
structure Callback where
  backoffs_ : List (List HashGamma)
  probs_ : List Rat
  count_thresholds_ : List Nat
deriving DecidableEq

/-- Constructor `Callback(uniform_prob, backoffs, count_thresholds)`. -/
def Callback.init (uniform_prob : Rat) (backoffs : List (List HashGamma))
    (count_thresholds : List Nat) : Callback :=
  { backoffs_ := backoffs
    probs_ := (List.replicate (backoffs.length + 2) 0).set 0 uniform_prob
    count_thresholds_ := count_thresholds }

/-- The value `pay.uninterp.prob + pay.uninterp.gamma * probs_[order_minus_1]` computed
first by `Enter`. -/
def Callback.interpolated (cb : Callback) (order_minus_1 : Nat) (pay : Uninterpolated) : Rat :=
  pay.prob + pay.gamma * cb.probs_.getD order_minus_1 0

/-- Method `Callback::Enter(order_minus_1, gram)`: the callback after the call and the
payload written to the record. -/
def Callback.Enter (kUNK kEOS : WordIndex) (log10 : Rat → Rat)
    (MurmurHashNative : List Nat → Nat) (cb : Callback) (order_minus_1 : Nat)
    (words : List WordIndex) (pay : Uninterpolated) : Callback × ProbBackoff :=
  let complete_prob := pay.prob + pay.gamma * cb.probs_.getD order_minus_1 0
  let cb1 := { cb with probs_ := cb.probs_.set (order_minus_1 + 1) complete_prob }
  let prob := log10 complete_prob
  if order_minus_1 < cb.backoffs_.length ∧ words.getLastD 0 ≠ kUNK
      ∧ words.getLastD 0 ≠ kEOS then
    match cb.backoffs_.getD order_minus_1 [] with
    | [] => (cb1, ⟨prob, 0⟩)
    | hashed_backoff :: rest =>
      if cb.count_thresholds_.getD (order_minus_1 + 1) 0 > 0 then
        if MurmurHashNative (hashedBytes words) = hashed_backoff.hash_value then
          ({ cb1 with backoffs_ := cb.backoffs_.set order_minus_1 rest },
            ⟨prob, log10 hashed_backoff.gamma⟩)
        else (cb1, ⟨prob, 0⟩)
      else
        ({ cb1 with backoffs_ := cb.backoffs_.set order_minus_1 rest },
          ⟨prob, log10 hashed_backoff.gamma⟩)
  else (cb1, ⟨prob, 0⟩)

/-- One call of `Enter` made by the traversal: the order, the words and the payload of
the record entered. -/
structure EnterCall where
  order_minus_1 : Nat
  words : List WordIndex
  pay : Uninterpolated
deriving DecidableEq

/-- The calls of `Enter` in `calls`, first call first: the callback after them and
the payloads written, in the order of the calls. -/
def Callback.enterAll (kUNK kEOS : WordIndex) (log10 : Rat → Rat)
    (MurmurHashNative : List Nat → Nat) : List EnterCall → Callback → Callback × List ProbBackoff
  | [], cb => (cb, [])
  | c :: cs, cb =>
    let r := Callback.Enter kUNK kEOS log10 MurmurHashNative cb c.order_minus_1 c.words c.pay
    let rs := Callback.enterAll kUNK kEOS log10 MurmurHashNative cs r.1
    (rs.1, r.2 :: rs.2)

/-- Loop of the destructor `~Callback`: the index of the first backoff stream that is
not exhausted, counted from `i`. -/
def firstPending : Nat → List (List HashGamma) → Option Nat
  | _, [] => none
  | i, s :: rest => if s ≠ [] then some i else firstPending (i + 1) rest

/-- The ways `Interpolate::Run` ends without returning: the assertion on the number of
positions, and the abort of `~Callback` with the order it reports. -/
inductive RunFailure where
  | assertion
  | backoffsDoNotMatch (order : Nat)
deriving DecidableEq

/-- Members of `Interpolate`. -/
structure Interpolate where
  uniform_prob_ : Rat
  backoffs_ : List (List HashGamma)
  count_thresholds_ : List Nat
deriving DecidableEq

/-- Constructor `Interpolate(unigram_count, backoffs, count_thresholds)`;
`unigram_count - 1` is computed in 64-bit unsigned arithmetic. -/
def Interpolate.init (unigram_count : Nat) (backoffs : List (List HashGamma))
    (count_thresholds : List Nat) : Interpolate :=
  { uniform_prob_ := 1 / (((unigram_count + 2 ^ 64 - 1) % 2 ^ 64 : Nat) : Rat)
    backoffs_ := backoffs
    count_thresholds_ := count_thresholds }

/-- Modelled from the spec: method `Interpolate::Run(positions)`. `JointOrder` is not
part of the sources; the traversal over the `positions` streams is represented by the
sequence `calls` of the `Enter` calls it makes. The callback is destroyed when the
traversal is over. -/
def Interpolate.Run (kUNK kEOS : WordIndex) (log10 : Rat → Rat)
    (MurmurHashNative : List Nat → Nat) (self : Interpolate) (positions : Nat)
    (calls : List EnterCall) : Except RunFailure (List ProbBackoff) :=
  if positions ≠ self.backoffs_.length + 1 then .error .assertion
  else
    let r := Callback.enterAll kUNK kEOS log10 MurmurHashNative calls
      (Callback.init self.uniform_prob_ self.backoffs_ self.count_thresholds_)
    match firstPending 0 r.1.backoffs_ with
    | some i => .error (.backoffsDoNotMatch (i + 1))
    | none => .ok r.2


/-! ## Theorems: StatCollector -/

theorem bump_n_length (stat : OrderStat) (cnt : Nat) (p : Bool) :
    (stat.bump cnt p).n.length = stat.n.length := by
  unfold OrderStat.bump
  by_cases h : cnt < 5 <;> simp [h]

theorem bump_n_getD (stat : OrderStat) (cnt : Nat) (p : Bool) (c : Nat)
    (hlen : stat.n.length = 5) (hc : c < 5) :
    (stat.bump cnt p).n.getD c 0 = stat.n.getD c 0 + (if cnt = c then 1 else 0) := by
  unfold OrderStat.bump
  by_cases h : cnt < 5
  · simp only [h, if_true]
    by_cases hcc : cnt = c
    · subst hcc
      simp [List.getD_eq_getElem?_getD, List.getElem?_set, hlen, h]
    · simp [List.getD_eq_getElem?_getD, List.getElem?_set, hcc]
  · have : cnt ≠ c := by omega
    simp [h, this]

theorem init_WF (order : Nat) : (StatCollector.init order).WF := by
  intro s hs
  simp [StatCollector.init, List.mem_replicate] at hs
  rw [hs.2]; rfl

theorem Add_length (orders_ : StatCollector) (i cnt : Nat) (p : Bool) :
    (orders_.Add i cnt p).length = orders_.length := by
  simp [StatCollector.Add]

theorem Add_WF (orders_ : StatCollector) (i cnt : Nat) (p : Bool) (h : orders_.WF) :
    (orders_.Add i cnt p).WF := by
  intro s hs
  unfold StatCollector.Add at hs
  rcases List.mem_or_eq_of_mem_set hs with h1 | h1
  · exact h s h1
  · rw [h1, bump_n_length]
    by_cases hi : i < orders_.length
    · rw [List.getD_eq_getElem _ _ hi]
      exact h _ (List.getElem_mem _)
    · rw [List.getD_eq_default _ _ (by omega)]; rfl

theorem Add_getD (orders_ : StatCollector) (i cnt : Nat) (p : Bool) (k : Nat) :
    (orders_.Add i cnt p).getD k OrderStat.zero =
      if i = k ∧ k < orders_.length then (orders_.getD k OrderStat.zero).bump cnt p
      else orders_.getD k OrderStat.zero := by
  unfold StatCollector.Add
  simp only [List.getD_eq_getElem?_getD, List.getElem?_set]
  by_cases hik : i = k
  · subst hik
    by_cases hl : i < orders_.length
    · simp [hl]
    · simp [hl]
      rw [List.getElem?_eq_none (by omega)]; rfl
  · simp [hik]

theorem run_length (calls : List StatCall) (orders_ : StatCollector) :
    (orders_.run calls).length = orders_.length := by
  induction calls generalizing orders_ with
  | nil => rfl
  | cons c cs ih =>
    show (StatCollector.run (StatCall.apply orders_ c) cs).length = _
    rw [ih]
    cases c <;> simp [StatCall.apply, StatCollector.AddFull, Add_length]

theorem apply_WF (orders_ : StatCollector) (c : StatCall) (h : orders_.WF) :
    (StatCall.apply orders_ c).WF := by
  cases c <;> simp only [StatCall.apply, StatCollector.AddFull] <;> exact Add_WF _ _ _ _ h

theorem apply_getD (orders_ : StatCollector) (call : StatCall) (k : Nat) :
    (StatCall.apply orders_ call).getD k OrderStat.zero =
      if call.target orders_.length = k ∧ k < orders_.length then
        (orders_.getD k OrderStat.zero).bump call.cnt call.isPruned
      else orders_.getD k OrderStat.zero := by
  cases call <;>
    simp only [StatCall.apply, StatCollector.AddFull, Add_getD, StatCall.target, StatCall.cnt,
      StatCall.isPruned]

theorem run_n_getD (calls : List StatCall) (orders_ : StatCollector) (h : orders_.WF)
    (i c : Nat) (hi : i < orders_.length) (hc : c < 5) :
    ((orders_.run calls).getD i OrderStat.zero).n.getD c 0 =
      (orders_.getD i OrderStat.zero).n.getD c 0
        + calls.countP (fun call => decide (call.target orders_.length = i ∧ call.cnt = c)) := by
  induction calls generalizing orders_ with
  | nil => simp [StatCollector.run]
  | cons call cs ih =>
    show ((StatCollector.run (StatCall.apply orders_ call) cs).getD i OrderStat.zero).n.getD c 0 = _
    have hlen : (StatCall.apply orders_ call).length = orders_.length := by
      cases call <;> simp [StatCall.apply, StatCollector.AddFull, Add_length]
    rw [ih _ (apply_WF _ _ h) (by omega), hlen, apply_getD, List.countP_cons]
    have hwf : (orders_.getD i OrderStat.zero).n.length = 5 := by
      rw [List.getD_eq_getElem _ _ hi]; exact h _ (List.getElem_mem _)
    by_cases ht : call.target orders_.length = i
    · simp only [ht, hi, and_self, if_true, true_and]
      rw [bump_n_getD _ _ _ _ hwf hc]
      by_cases hcc : call.cnt = c <;> simp [hcc] <;> omega
    · simp [ht]

/-- C9, as the code has it: after any sequence of `Add` / `AddFull` calls on a fresh
collector, for each order `i` and each `c` in `0..4`, `n[c]` is the number of calls
made for that order with count exactly `c`; in particular `n[4]` counts the calls
with count exactly 4, and calls with a count of 5 or more enter no bucket. -/
theorem StatCollector_histogram_exact (order : Nat) (calls : List StatCall) (i c : Nat)
    (hi : i < order) (hc : c < 5) :
    (((StatCollector.init order).run calls).getD i OrderStat.zero).n.getD c 0 =
      calls.countP (fun call => decide (call.target order = i ∧ call.cnt = c)) := by
  have hlen : (StatCollector.init order).length = order := by simp [StatCollector.init]
  have := run_n_getD calls (StatCollector.init order) (init_WF order) i c (by omega) hc
  rw [hlen] at this
  rw [this]
  have h0 : ((StatCollector.init order).getD i OrderStat.zero).n.getD c 0 = 0 := by
    simp only [StatCollector.init, List.getD_eq_getElem?_getD]
    rw [List.getElem?_replicate]
    simp only [hi, if_true, Option.getD_some, OrderStat.zero]
    rw [List.getElem?_replicate]
    simp [hc]
  omega

/-- Witness of `StatCollector_histogram_exact`: three calls on a collector of two orders. -/
theorem StatCollector_histogram_exact_witness :
    (((StatCollector.init 2).run [.add 0 4 false, .addFull 4 true, .add 0 7 false]).getD 0
        OrderStat.zero).n.getD 4 0 =
      [StatCall.add 0 4 false, .addFull 4 true, .add 0 7 false].countP
        (fun call => decide (call.target 2 = 0 ∧ call.cnt = 4)) :=
  StatCollector_histogram_exact 2 _ 0 4 (by decide) (by decide)

/-- C9 fails as stated: one `Add` with count 5 leaves `n[4]` at zero, although one
call was made with a count of at least 4. -/
theorem StatCollector_n4_not_capped :
    (((StatCollector.init 1).run [.add 0 5 false]).getD 0 OrderStat.zero).n.getD 4 0 = 0 ∧
      [StatCall.add 0 5 false].countP (fun call => decide (call.target 1 = 0 ∧ 4 ≤ call.cnt))
        = 1 := by
  decide

/-! ## Theorems: floating point -/

theorem zpow_toNat_of_nonneg (z : Int) (hz : 0 ≤ z) : (2 : Rat) ^ z.toNat = (2 : Rat) ^ z := by
  rw [← zpow_natCast, Int.toNat_of_nonneg hz]

theorem zpow_split (z : Int) :
    (2 : Rat) ^ z = (2 : Rat) ^ z.toNat / (2 : Rat) ^ (-z).toNat := by
  rcases le_total 0 z with h | h
  · have h2 : (-z).toNat = 0 := Int.toNat_eq_zero.mpr (by omega)
    rw [h2, pow_zero, div_one, zpow_toNat_of_nonneg z h]
  · have h2 : z.toNat = 0 := Int.toNat_eq_zero.mpr h
    rw [h2, pow_zero, zpow_toNat_of_nonneg (-z) (by omega), zpow_neg, one_div, inv_inv]

theorem toRat_scale (a : FloatValue) (c : Int) (hc : c ≤ a.e) :
    ((a.m * 2 ^ (a.e - c).toNat : Int) : Rat) * (2 : Rat) ^ c = a.toRat := by
  unfold FloatValue.toRat
  push_cast
  rw [zpow_toNat_of_nonneg _ (by omega), mul_assoc, ← zpow_add₀ (by norm_num : (2 : Rat) ≠ 0),
    sub_add_cancel]

theorem two_zpow_pos (c : Int) : (0 : Rat) < (2 : Rat) ^ c := zpow_pos (by norm_num) c

theorem FloatValue.lt_iff (a b : FloatValue) : a.lt b = true ↔ a.toRat < b.toRat := by
  unfold FloatValue.lt
  rw [decide_eq_true_iff, ← toRat_scale a (min a.e b.e) (min_le_left _ _),
    ← toRat_scale b (min a.e b.e) (min_le_right _ _),
    mul_lt_mul_right (two_zpow_pos _), Int.cast_lt]

theorem toRat_nonneg (a : FloatValue) (h : 0 ≤ a.m) : 0 ≤ a.toRat := by
  unfold FloatValue.toRat
  exact mul_nonneg (by exact_mod_cast h) (le_of_lt (two_zpow_pos _))

theorem toRat_nonpos (a : FloatValue) (h : a.m ≤ 0) : a.toRat ≤ 0 := by
  unfold FloatValue.toRat
  exact mul_nonpos_of_nonpos_of_nonneg (by exact_mod_cast h) (le_of_lt (two_zpow_pos _))

theorem toRat_zero : (⟨0, 0⟩ : FloatValue).toRat = 0 := by
  simp [FloatValue.toRat]

theorem roundHalfEven_zero (b : Nat) : roundHalfEven 0 b = 0 := by
  unfold roundHalfEven
  simp

theorem roundTo_m_nonneg (p : Nat) (emin : Int) (num : Int) (den : Nat) (e : Int)
    (h : 0 ≤ num) : 0 ≤ (roundTo p emin num den e).m := by
  unfold roundTo
  simp only
  split_ifs
  · exact le_refl _
  · omega
  · exact Int.natCast_nonneg _

theorem roundTo_m_nonpos (p : Nat) (emin : Int) (num : Int) (den : Nat) (e : Int)
    (h : num ≤ 0) : (roundTo p emin num den e).m ≤ 0 := by
  unfold roundTo
  simp only
  split_ifs with h1 h2
  · exact le_refl _
  · exact neg_nonpos.mpr (Int.natCast_nonneg _)
  · exfalso
    have hz : num = 0 := by omega
    rw [hz] at h1
    simp [roundHalfEven_zero] at h1

theorem quantum_le (p num den : Nat) (e K0 : Int) (fuel : Nat) (start : Int)
    (hs : start ≤ K0)
    (hstop : ¬ (2 ^ p * den * 2 ^ (K0 - e).toNat ≤ num * 2 ^ (e - K0).toNat)) :
    quantum p num den e fuel start ≤ K0 := by
  induction fuel generalizing start with
  | zero =>
    unfold quantum
    exact hs
  | succ fuel ih =>
    unfold quantum
    by_cases hc : 2 ^ p * den * 2 ^ (start - e).toNat ≤ num * 2 ^ (e - start).toNat
    · rw [if_pos hc]
      have hne : start ≠ K0 := fun h => hstop (h ▸ hc)
      exact ih (start + 1) (by omega)
    · rw [if_neg hc]
      exact hs

theorem log2Floor_le (fuel n : Nat) (hn : n ≠ 0) : 2 ^ log2Floor fuel n ≤ n := by
  induction fuel generalizing n with
  | zero =>
    unfold log2Floor
    simp only [pow_zero]
    omega
  | succ fuel ih =>
    unfold log2Floor
    by_cases h : n < 2
    · rw [if_pos h]
      simp only [pow_zero]
      omega
    · rw [if_neg h]
      have := ih (n / 2) (by omega)
      rw [pow_succ]
      omega

theorem lt_log2Floor (fuel n : Nat) (hn : n < 2 ^ fuel) : n < 2 ^ (log2Floor fuel n + 1) := by
  induction fuel generalizing n with
  | zero =>
    unfold log2Floor
    simp only [pow_zero] at hn
    omega
  | succ fuel ih =>
    unfold log2Floor
    by_cases h : n < 2
    · rw [if_pos h]
      simpa using h
    · rw [if_neg h]
      have h2 : n / 2 < 2 ^ fuel := by
        rw [pow_succ] at hn
        omega
      have := ih (n / 2) h2
      rw [pow_succ _ (log2Floor fuel (n / 2) + 1)]
      omega

theorem roundHalfEven_le (a b n : Nat) (hb : 0 < b) (h : a ≤ n * b) : roundHalfEven a b ≤ n := by
  have hq : a / b ≤ n := Nat.div_le_of_le_mul (by rw [Nat.mul_comm]; exact h)
  have hdm := Nat.div_add_mod a b
  unfold roundHalfEven
  rcases Nat.lt_or_eq_of_le hq with hlt | heq
  · split_ifs <;> omega
  · have hr : a % b = 0 := by
      rw [heq] at hdm
      have : b * n + a % b ≤ n * b := by rw [hdm]; exact h
      rw [Nat.mul_comm] at this
      omega
    rw [hr, if_pos (by omega)]
    exact hq

theorem scaled_le (n den N : Nat) (e k : Int) (hden : 0 < den) (hk : k ≤ 0)
    (hv : (n : Rat) / den * (2 : Rat) ^ e ≤ N) :
    n * 2 ^ (e - k).toNat ≤ N * 2 ^ (-k).toNat * (den * 2 ^ (k - e).toNat) := by
  have hden2 : (0 : Rat) < den := by exact_mod_cast hden
  have hY : (0 : Rat) < (2 : Rat) ^ (k - e).toNat := pow_pos (by norm_num) _
  have hsplit := zpow_split (e - k)
  have hneg : -(e - k) = k - e := by ring
  rw [hneg] at hsplit
  have hk2 : (2 : Rat) ^ (-k).toNat = (2 : Rat) ^ (-k) := zpow_toNat_of_nonneg _ (by omega)
  have h1 : (n : Rat) / den * (2 : Rat) ^ e * (2 : Rat) ^ (-k) ≤ N * (2 : Rat) ^ (-k) :=
    mul_le_mul_of_nonneg_right hv (le_of_lt (two_zpow_pos _))
  have h2 : (n : Rat) / den * (2 : Rat) ^ e * (2 : Rat) ^ (-k)
      = (n * (2 : Rat) ^ (e - k).toNat) / (den * (2 : Rat) ^ (k - e).toNat) := by
    rw [mul_assoc, ← zpow_add₀ (by norm_num : (2 : Rat) ≠ 0), ← sub_eq_add_neg, hsplit]
    field_simp
  rw [h2, ← hk2, div_le_iff₀ (mul_pos hden2 hY)] at h1
  exact_mod_cast h1

theorem start_le (p num den N : Nat) (e K0 : Int) (hnum : num ≠ 0) (hden : 0 < den)
    (hden2 : den < 2 ^ 4096) (hK : K0 ≤ 0) (hN : N * 2 ^ (-K0).toNat < 2 ^ p)
    (hv : (num : Rat) / den * (2 : Rat) ^ e ≤ N) :
    e + log2Floor 4096 num - log2Floor 4096 den - p - 1 ≤ K0 := by
  have h1 : ((2 ^ log2Floor 4096 num : Nat) : Rat) ≤ (num : Rat) := by
    exact_mod_cast log2Floor_le 4096 num hnum
  have h2 : (den : Rat) < ((2 ^ (log2Floor 4096 den + 1) : Nat) : Rat) := by
    exact_mod_cast lt_log2Floor 4096 den hden2
  have hN2 : (N : Rat) * (2 : Rat) ^ (-K0) < (2 : Rat) ^ (p : Int) := by
    rw [← zpow_toNat_of_nonneg _ (by omega : 0 ≤ -K0), zpow_natCast]
    exact_mod_cast hN
  have hdp : (0 : Rat) < den := by exact_mod_cast hden
  push_cast at h1 h2
  generalize log2Floor 4096 num = a at h1 ⊢
  generalize log2Floor 4096 den = b at h2 ⊢
  have h3 : (2 : Rat) ^ ((a : Int) - (b + 1)) < (num : Rat) / den := by
    rw [zpow_sub₀ (by norm_num : (2 : Rat) ≠ 0), zpow_natCast]
    have e1 : (2 : Rat) ^ ((b : Int) + 1) = (2 : Rat) ^ (b + 1) := by
      rw [← zpow_natCast]
      push_cast
      rfl
    rw [e1]
    have hpos : (0 : Rat) < (2 : Rat) ^ (b + 1) := pow_pos (by norm_num) _
    have hapos : (0 : Rat) < (2 : Rat) ^ a := pow_pos (by norm_num) _
    calc (2 : Rat) ^ a / (2 : Rat) ^ (b + 1) < (2 : Rat) ^ a / den :=
          div_lt_div_of_pos_left hapos hdp h2
      _ ≤ (num : Rat) / den := div_le_div_of_nonneg_right h1 hdp.le
  have h4 : (2 : Rat) ^ ((a : Int) - (b + 1) + e + -K0) < (2 : Rat) ^ (p : Int) := by
    rw [zpow_add₀ (by norm_num : (2 : Rat) ≠ 0), zpow_add₀ (by norm_num : (2 : Rat) ≠ 0)]
    calc (2 : Rat) ^ ((a : Int) - (b + 1)) * (2 : Rat) ^ e * (2 : Rat) ^ (-K0)
        ≤ (num : Rat) / den * (2 : Rat) ^ e * (2 : Rat) ^ (-K0) :=
          mul_le_mul_of_nonneg_right
            (mul_le_mul_of_nonneg_right h3.le (two_zpow_pos e).le) (two_zpow_pos _).le
      _ ≤ (N : Rat) * (2 : Rat) ^ (-K0) :=
          mul_le_mul_of_nonneg_right hv (two_zpow_pos _).le
      _ < (2 : Rat) ^ (p : Int) := hN2
  have h5 := (zpow_lt_zpow_iff_right₀ (by norm_num : (1 : Rat) < 2)).mp h4
  omega

theorem roundTo_le_nat (p : Nat) (emin : Int) (num : Int) (den : Nat) (e : Int)
    (N : Nat) (K0 : Int) (hden : 0 < den) (hden2 : den < 2 ^ 4096) (hK : K0 ≤ 0)
    (hemin : emin ≤ K0) (hN : N * 2 ^ (-K0).toNat < 2 ^ p)
    (hv : (num : Rat) / den * (2 : Rat) ^ e ≤ N) :
    (roundTo p emin num den e).toRat ≤ N := by
  by_cases hneg : num ≤ 0
  · exact le_trans (toRat_nonpos _ (roundTo_m_nonpos p emin num den e hneg))
      (Nat.cast_nonneg N)
  · have hnum : ((num.natAbs : Int) : Rat) = (num : Rat) := by
      rw [Int.natAbs_of_nonneg (by omega)]
    have hnum2 : ((num.natAbs : Nat) : Rat) = (num : Rat) := by
      rw [← hnum, Int.cast_natCast]
    have hv2 : ((num.natAbs : Nat) : Rat) / den * (2 : Rat) ^ e ≤ N := by
      rw [hnum2]
      exact hv
    have hY : ∀ z : Int, 0 < den * 2 ^ z.toNat := fun z =>
      Nat.mul_pos hden (Nat.pow_pos (by norm_num))
    have hstop : ¬ (2 ^ p * den * 2 ^ (K0 - e).toNat ≤ num.natAbs * 2 ^ (e - K0).toNat) := by
      intro hle
      have h1 := scaled_le num.natAbs den N e K0 hden hK hv2
      have h2 : N * 2 ^ (-K0).toNat * (den * 2 ^ (K0 - e).toNat)
          < 2 ^ p * (den * 2 ^ (K0 - e).toNat) :=
        Nat.mul_lt_mul_of_pos_right hN (hY _)
      rw [Nat.mul_assoc] at hle
      omega
    have hstart : max emin (e + log2Floor 4096 num.natAbs - log2Floor 4096 den - p - 1) ≤ K0 :=
      max_le hemin (start_le p num.natAbs den N e K0 (by omega) hden hden2 hK hN hv2)
    have hk := quantum_le p num.natAbs den e K0 3 _ hstart hstop
    unfold roundTo
    simp only
    generalize quantum p num.natAbs den e 3
      (max emin (e + log2Floor 4096 num.natAbs - log2Floor 4096 den - p - 1)) = k at hk
    by_cases hq : roundHalfEven (num.natAbs * 2 ^ (e - k).toNat) (den * 2 ^ (k - e).toNat) = 0
    · rw [if_pos hq, toRat_zero]
      exact Nat.cast_nonneg N
    · rw [if_neg hq, if_neg (by omega)]
      unfold FloatValue.toRat
      simp only
      have hk0 : k ≤ 0 := le_trans hk hK
      have h3 := roundHalfEven_le _ _ _ (hY (k - e))
        (scaled_le num.natAbs den N e k hden hk0 hv2)
      have h4 : ((roundHalfEven (num.natAbs * 2 ^ (e - k).toNat) (den * 2 ^ (k - e).toNat)
          : Nat) : Rat) ≤ ((N * 2 ^ (-k).toNat : Nat) : Rat) := by exact_mod_cast h3
      have h5 := mul_le_mul_of_nonneg_right h4 (le_of_lt (two_zpow_pos k))
      have h6 : ((N * 2 ^ (-k).toNat : Nat) : Rat) * (2 : Rat) ^ k = N := by
        push_cast
        rw [zpow_toNat_of_nonneg _ (by omega), mul_assoc,
          ← zpow_add₀ (by norm_num : (2 : Rat) ≠ 0), neg_add_cancel, zpow_zero, mul_one]
      rw [h6] at h5
      exact_mod_cast h5

theorem overflow_iff (p num den : Nat) (e k : Int) (hden : 0 < den) :
    (2 ^ p * den * 2 ^ (k - e).toNat ≤ num * 2 ^ (e - k).toNat) ↔
      (2 : Rat) ^ (p : Int) * (2 : Rat) ^ k ≤ (num : Rat) / den * (2 : Rat) ^ e := by
  have hden2 : (0 : Rat) < den := by exact_mod_cast hden
  have hY : (0 : Rat) < (2 : Rat) ^ (k - e).toNat := pow_pos (by norm_num) _
  have hsplit := zpow_split (e - k)
  have hneg : -(e - k) = k - e := by ring
  rw [hneg] at hsplit
  have h2 : (num : Rat) / den * (2 : Rat) ^ e
      = (num * (2 : Rat) ^ (e - k).toNat) / (den * (2 : Rat) ^ (k - e).toNat) * (2 : Rat) ^ k := by
    have e1 : (2 : Rat) ^ e = (2 : Rat) ^ (e - k) * (2 : Rat) ^ k := by
      rw [← zpow_add₀ (by norm_num : (2 : Rat) ≠ 0), sub_add_cancel]
    rw [e1, hsplit]
    field_simp
    ring
  rw [h2, mul_le_mul_right (two_zpow_pos k), le_div_iff₀ (mul_pos hden2 hY), zpow_natCast]
  constructor
  · intro h
    have : ((2 ^ p * den * 2 ^ (k - e).toNat : Nat) : Rat)
        ≤ ((num * 2 ^ (e - k).toNat : Nat) : Rat) := by exact_mod_cast h
    push_cast at this
    linarith
  · intro h
    have : ((2 ^ p * den * 2 ^ (k - e).toNat : Nat) : Rat)
        ≤ ((num * 2 ^ (e - k).toNat : Nat) : Rat) := by
      push_cast
      linarith
    exact_mod_cast this

theorem quantum_ge (p num den : Nat) (e : Int) (fuel : Nat) (start : Int) :
    start ≤ quantum p num den e fuel start := by
  induction fuel generalizing start with
  | zero => exact le_refl _
  | succ fuel ih =>
    unfold quantum
    split_ifs
    · exact le_trans (by omega) (ih (start + 1))
    · exact le_refl _

theorem quantum_prev (p num den : Nat) (e : Int) (fuel : Nat) (start : Int) :
    quantum p num den e fuel start = start ∨
      2 ^ p * den * 2 ^ (quantum p num den e fuel start - 1 - e).toNat
        ≤ num * 2 ^ (e - (quantum p num den e fuel start - 1)).toNat := by
  induction fuel generalizing start with
  | zero => exact Or.inl rfl
  | succ fuel ih =>
    unfold quantum
    by_cases hc : 2 ^ p * den * 2 ^ (start - e).toNat ≤ num * 2 ^ (e - start).toNat
    · rw [if_pos hc]
      rcases ih (start + 1) with h | h
      · right
        rw [h]
        have e1 : start + 1 - 1 = start := by omega
        rw [e1]
        exact hc
      · exact Or.inr h
    · rw [if_neg hc]
      exact Or.inl rfl

theorem quantum_stops (p num den : Nat) (e : Int) (fuel : Nat) (start : Int) (j : Nat)
    (hj : j ≤ fuel)
    (h : ¬ (2 ^ p * den * 2 ^ (start + j - e).toNat ≤ num * 2 ^ (e - (start + j)).toNat)) :
    ¬ (2 ^ p * den * 2 ^ (quantum p num den e fuel start - e).toNat
      ≤ num * 2 ^ (e - quantum p num den e fuel start).toNat) := by
  induction fuel generalizing start j with
  | zero =>
    have : j = 0 := by omega
    subst this
    unfold quantum
    simpa using h
  | succ fuel ih =>
    unfold quantum
    by_cases hc : 2 ^ p * den * 2 ^ (start - e).toNat ≤ num * 2 ^ (e - start).toNat
    · rw [if_pos hc]
      cases j with
      | zero => exact absurd (by simpa using hc) h
      | succ j =>
        apply ih (start + 1) j (by omega)
        have e1 : start + 1 + (j : Int) = start + ((j + 1 : Nat) : Int) := by
          push_cast
          ring
        rw [e1]
        exact h
    · rw [if_neg hc]
      exact hc

theorem quantum_start_of_eq (p num den : Nat) (e : Int) (fuel : Nat) (start : Int)
    (h : quantum p num den e (fuel + 1) start = start) :
    ¬ (2 ^ p * den * 2 ^ (start - e).toNat ≤ num * 2 ^ (e - start).toNat) := by
  intro hc
  unfold quantum at h
  rw [if_pos hc] at h
  have := quantum_ge p num den e fuel (start + 1)
  omega

/-- Bounds of a quotient by the numbers of halvings of its terms:
`2 ^ (a - b - 1) < num / den < 2 ^ (a - b + 1)`. -/
theorem log2Floor_bounds (num den : Nat) (hnum : num ≠ 0) (hnum2 : num < 2 ^ 4096)
    (hden : 0 < den) (hden2 : den < 2 ^ 4096) :
    (2 : Rat) ^ ((log2Floor 4096 num : Int) - log2Floor 4096 den - 1) < (num : Rat) / den ∧
      (num : Rat) / den < (2 : Rat) ^ ((log2Floor 4096 num : Int) - log2Floor 4096 den + 1) := by
  have h1 : ((2 ^ log2Floor 4096 num : Nat) : Rat) ≤ (num : Rat) := by
    exact_mod_cast log2Floor_le 4096 num hnum
  have h2 : (den : Rat) < ((2 ^ (log2Floor 4096 den + 1) : Nat) : Rat) := by
    exact_mod_cast lt_log2Floor 4096 den hden2
  have h3 : ((2 ^ log2Floor 4096 den : Nat) : Rat) ≤ (den : Rat) := by
    exact_mod_cast log2Floor_le 4096 den (by omega)
  have h4 : (num : Rat) < ((2 ^ (log2Floor 4096 num + 1) : Nat) : Rat) := by
    exact_mod_cast lt_log2Floor 4096 num hnum2
  have hdp : (0 : Rat) < den := by exact_mod_cast hden
  push_cast at h1 h2 h3 h4
  generalize log2Floor 4096 num = a at h1 h4 ⊢
  generalize log2Floor 4096 den = b at h2 h3 ⊢
  have hb1 : (0 : Rat) < (2 : Rat) ^ (b + 1) := pow_pos (by norm_num) _
  have hb : (0 : Rat) < (2 : Rat) ^ b := pow_pos (by norm_num) _
  have ha : (0 : Rat) < (2 : Rat) ^ a := pow_pos (by norm_num) _
  have e1 : (2 : Rat) ^ ((a : Int) - b - 1) = (2 : Rat) ^ a / (2 : Rat) ^ (b + 1) := by
    have : (a : Int) - b - 1 = (a : Int) - ((b + 1 : Nat) : Int) := by push_cast; ring
    rw [this, zpow_sub₀ (by norm_num : (2 : Rat) ≠ 0), zpow_natCast, zpow_natCast]
  have e2 : (2 : Rat) ^ ((a : Int) - b + 1) = (2 : Rat) ^ (a + 1) / (2 : Rat) ^ b := by
    have : (a : Int) - b + 1 = ((a + 1 : Nat) : Int) - (b : Int) := by push_cast; ring
    rw [this, zpow_sub₀ (by norm_num : (2 : Rat) ≠ 0), zpow_natCast, zpow_natCast]
  rw [e1, e2]
  constructor
  · calc (2 : Rat) ^ a / (2 : Rat) ^ (b + 1) < (2 : Rat) ^ a / den :=
          div_lt_div_of_pos_left ha hdp h2
      _ ≤ (num : Rat) / den := div_le_div_of_nonneg_right h1 hdp.le
  · calc (num : Rat) / den < (2 : Rat) ^ (a + 1) / den := div_lt_div_of_pos_right h4 hdp
      _ ≤ (2 : Rat) ^ (a + 1) / (2 : Rat) ^ b :=
          div_le_div_of_nonneg_left (pow_pos (by norm_num) _).le hb h3

/-- The exponent of the last place that `roundTo` uses is the right one: it is at
least `emin`, the scaled magnitude is below `2 ^ p`, and either the exponent is `emin`
or the magnitude scaled by one exponent less is at least `2 ^ p`. -/
theorem roundTo_quantum (p : Nat) (emin : Int) (num den : Nat) (e : Int) (hnum : num ≠ 0)
    (hnum2 : num < 2 ^ 4096) (hden : 0 < den) (hden2 : den < 2 ^ 4096) :
    emin ≤ quantum p num den e 3
        (max emin (e + log2Floor 4096 num - log2Floor 4096 den - p - 1)) ∧
      (num : Rat) / den * (2 : Rat) ^ e
        < (2 : Rat) ^ (p : Int) * (2 : Rat) ^ quantum p num den e 3
          (max emin (e + log2Floor 4096 num - log2Floor 4096 den - p - 1)) ∧
      (quantum p num den e 3
          (max emin (e + log2Floor 4096 num - log2Floor 4096 den - p - 1)) = emin ∨
        (2 : Rat) ^ (p : Int) * (2 : Rat) ^ (quantum p num den e 3
          (max emin (e + log2Floor 4096 num - log2Floor 4096 den - p - 1)) - 1)
          ≤ (num : Rat) / den * (2 : Rat) ^ e) := by
  obtain ⟨hlo, hhi⟩ := log2Floor_bounds num den hnum hnum2 hden hden2
  generalize hest : e + (log2Floor 4096 num : Int) - log2Floor 4096 den - p - 1 = est
  have hlo2 : (2 : Rat) ^ (p : Int) * (2 : Rat) ^ est < (num : Rat) / den * (2 : Rat) ^ e := by
    have : (p : Int) + est = ((log2Floor 4096 num : Int) - log2Floor 4096 den - 1) + e := by
      omega
    rw [← zpow_add₀ (by norm_num : (2 : Rat) ≠ 0), this,
      zpow_add₀ (by norm_num : (2 : Rat) ≠ 0)]
    exact mul_lt_mul_of_pos_right hlo (two_zpow_pos e)
  have hhi2 : ∀ k : Int, est + 2 ≤ k →
      (num : Rat) / den * (2 : Rat) ^ e < (2 : Rat) ^ (p : Int) * (2 : Rat) ^ k := by
    intro k hk
    have h1 : (num : Rat) / den * (2 : Rat) ^ e
        < (2 : Rat) ^ ((log2Floor 4096 num : Int) - log2Floor 4096 den + 1) * (2 : Rat) ^ e :=
      mul_lt_mul_of_pos_right hhi (two_zpow_pos e)
    have h2 : (2 : Rat) ^ ((log2Floor 4096 num : Int) - log2Floor 4096 den + 1) * (2 : Rat) ^ e
        = (2 : Rat) ^ ((p : Int) + (est + 2)) := by
      rw [← zpow_add₀ (by norm_num : (2 : Rat) ≠ 0)]
      congr 1
      omega
    have h3 : (2 : Rat) ^ ((p : Int) + (est + 2)) ≤ (2 : Rat) ^ ((p : Int) + k) :=
      (zpow_le_zpow_iff_right₀ (by norm_num : (1 : Rat) < 2)).mpr (by omega)
    rw [← zpow_add₀ (by norm_num : (2 : Rat) ≠ 0)]
    linarith
  have hj : ∃ j : Nat, j ≤ 3 ∧ est + 2 ≤ max emin est + j := by
    by_cases h : est + 2 ≤ emin
    · exact ⟨0, by omega, by
        have := le_max_left emin est
        omega⟩
    · exact ⟨2, by omega, by
        have := le_max_right emin est
        omega⟩
  obtain ⟨j, hj3, hj2⟩ := hj
  have hstop := quantum_stops p num den e 3 (max emin est) j hj3 (by
    rw [overflow_iff p num den e _ hden]
    exact not_le.mpr (hhi2 _ hj2))
  rw [overflow_iff p num den e _ hden] at hstop
  refine ⟨le_trans (le_max_left _ _) (quantum_ge _ _ _ _ _ _), not_le.mp hstop, ?_⟩
  rcases quantum_prev p num den e 3 (max emin est) with h | h
  · by_cases hm : max emin est = emin
    · left
      rw [h, hm]
    · exfalso
      have hme : max emin est = est := by
        rcases max_choice emin est with h1 | h1
        · exact absurd h1 hm
        · exact h1
      have := quantum_start_of_eq p num den e 2 (max emin est) h
      rw [overflow_iff p num den e _ hden, hme] at this
      exact this hlo2.le
  · right
    rw [overflow_iff p num den e _ hden] at h
    exact h

/-- The integer `roundHalfEven a b` is within one half of `a / b`, and when it is
exactly one half away it is even. -/
theorem roundHalfEven_spec (a b : Nat) (hb : 0 < b) :
    2 * (roundHalfEven a b * b) ≤ 2 * a + b ∧ 2 * a ≤ 2 * (roundHalfEven a b * b) + b ∧
      (2 * (roundHalfEven a b * b) = 2 * a + b ∨ 2 * a = 2 * (roundHalfEven a b * b) + b →
        roundHalfEven a b % 2 = 0) := by
  have hdm := Nat.div_add_mod a b
  have hmod := Nat.mod_lt a hb
  have hmul : a / b * b = b * (a / b) := Nat.mul_comm _ _
  unfold roundHalfEven
  split_ifs with h1 h2 h3
  · refine ⟨by omega, by omega, fun h => by omega⟩
  · rw [Nat.add_mul, Nat.one_mul]
    refine ⟨by omega, by omega, fun h => by omega⟩
  · exact ⟨by omega, by omega, fun _ => h3⟩
  · rw [Nat.add_mul, Nat.one_mul]
    refine ⟨by omega, by omega, fun _ => by omega⟩

/-- The value of `roundTo p emin num den e` is the round-to-nearest-even value of
`num / den * 2 ^ e` in the format with `p` significant bits and least exponent `emin`:
it is `± q * 2 ^ k` where `k` is the exponent of the last place of the magnitude (at
least `emin`, the magnitude below `2 ^ p * 2 ^ k`, and `k = emin` or the magnitude at
least `2 ^ p * 2 ^ (k - 1)`), `q * 2 ^ k` is within half a unit in the last place of the
magnitude, and `q` is even when it is exactly half a unit away. -/
theorem roundTo_nearest (p : Nat) (emin : Int) (num : Int) (den : Nat) (e : Int)
    (hnum : num ≠ 0) (hnum2 : num.natAbs < 2 ^ 4096) (hden : 0 < den)
    (hden2 : den < 2 ^ 4096) :
    ∃ (k : Int) (q : Nat), emin ≤ k ∧
      (num.natAbs : Rat) / den * (2 : Rat) ^ e < (2 : Rat) ^ (p : Int) * (2 : Rat) ^ k ∧
      (k = emin ∨
        (2 : Rat) ^ (p : Int) * (2 : Rat) ^ (k - 1) ≤ (num.natAbs : Rat) / den * (2 : Rat) ^ e) ∧
      |(q : Rat) * (2 : Rat) ^ k - (num.natAbs : Rat) / den * (2 : Rat) ^ e|
        ≤ (2 : Rat) ^ k / 2 ∧
      (|(q : Rat) * (2 : Rat) ^ k - (num.natAbs : Rat) / den * (2 : Rat) ^ e|
        = (2 : Rat) ^ k / 2 → q % 2 = 0) ∧
      (roundTo p emin num den e).toRat
        = (if num < 0 then -1 else 1) * ((q : Rat) * (2 : Rat) ^ k) := by
  have hn0 : num.natAbs ≠ 0 := by omega
  obtain ⟨hk1, hk2, hk3⟩ := roundTo_quantum p emin num.natAbs den e hn0 hnum2 hden hden2
  generalize hk : quantum p num.natAbs den e 3
    (max emin (e + log2Floor 4096 num.natAbs - log2Floor 4096 den - p - 1)) = k at hk1 hk2 hk3
  have hden3 : (0 : Rat) < den := by exact_mod_cast hden
  have hY : (0 : Rat) < (2 : Rat) ^ (k - e).toNat := pow_pos (by norm_num) _
  have hb : 0 < den * 2 ^ (k - e).toNat := Nat.mul_pos hden (Nat.pow_pos (by norm_num))
  have hbq : (0 : Rat) < (den : Rat) * (2 : Rat) ^ (k - e).toNat := mul_pos hden3 hY
  obtain ⟨hq1, hq2, hq3⟩ :=
    roundHalfEven_spec (num.natAbs * 2 ^ (e - k).toNat) (den * 2 ^ (k - e).toNat) hb
  generalize hq : roundHalfEven (num.natAbs * 2 ^ (e - k).toNat) (den * 2 ^ (k - e).toNat) = q
    at hq1 hq2 hq3
  have hsplit := zpow_split (e - k)
  have hneg : -(e - k) = k - e := by ring
  rw [hneg] at hsplit
  have hv : (num.natAbs : Rat) / den * (2 : Rat) ^ e
      = ((num.natAbs : Rat) * (2 : Rat) ^ (e - k).toNat)
        / ((den : Rat) * (2 : Rat) ^ (k - e).toNat) * (2 : Rat) ^ k := by
    have e1 : (2 : Rat) ^ e = (2 : Rat) ^ (e - k) * (2 : Rat) ^ k := by
      rw [← zpow_add₀ (by norm_num : (2 : Rat) ≠ 0), sub_add_cancel]
    rw [e1, hsplit]
    field_simp
    ring
  have hdiff : (q : Rat) * (2 : Rat) ^ k - (num.natAbs : Rat) / den * (2 : Rat) ^ e
      = ((q : Rat) * ((den : Rat) * (2 : Rat) ^ (k - e).toNat)
          - (num.natAbs : Rat) * (2 : Rat) ^ (e - k).toNat)
        / ((den : Rat) * (2 : Rat) ^ (k - e).toNat) * (2 : Rat) ^ k := by
    rw [hv]
    field_simp
    ring
  have hq1r : (2 : Rat) * ((q : Rat) * ((den : Rat) * (2 : Rat) ^ (k - e).toNat))
      ≤ 2 * ((num.natAbs : Rat) * (2 : Rat) ^ (e - k).toNat)
        + (den : Rat) * (2 : Rat) ^ (k - e).toNat := by
    exact_mod_cast hq1
  have hq2r : (2 : Rat) * ((num.natAbs : Rat) * (2 : Rat) ^ (e - k).toNat)
      ≤ 2 * ((q : Rat) * ((den : Rat) * (2 : Rat) ^ (k - e).toNat))
        + (den : Rat) * (2 : Rat) ^ (k - e).toNat := by
    exact_mod_cast hq2
  have hkp := two_zpow_pos k
  have habs : |(q : Rat) * (2 : Rat) ^ k - (num.natAbs : Rat) / den * (2 : Rat) ^ e|
      = |(q : Rat) * ((den : Rat) * (2 : Rat) ^ (k - e).toNat)
          - (num.natAbs : Rat) * (2 : Rat) ^ (e - k).toNat|
        / ((den : Rat) * (2 : Rat) ^ (k - e).toNat) * (2 : Rat) ^ k := by
    rw [hdiff, abs_mul, abs_div, abs_of_pos hbq, abs_of_pos hkp]
  have hD : |(q : Rat) * ((den : Rat) * (2 : Rat) ^ (k - e).toNat)
      - (num.natAbs : Rat) * (2 : Rat) ^ (e - k).toNat|
      ≤ (den : Rat) * (2 : Rat) ^ (k - e).toNat / 2 :=
    abs_le.mpr ⟨by linarith, by linarith⟩
  refine ⟨k, q, hk1, hk2, hk3, ?_, ?_, ?_⟩
  · rw [habs]
    have h1 : |(q : Rat) * ((den : Rat) * (2 : Rat) ^ (k - e).toNat)
        - (num.natAbs : Rat) * (2 : Rat) ^ (e - k).toNat|
        / ((den : Rat) * (2 : Rat) ^ (k - e).toNat) ≤ 1 / 2 := by
      rw [div_le_iff₀ hbq]
      linarith
    calc _ ≤ 1 / 2 * (2 : Rat) ^ k := mul_le_mul_of_nonneg_right h1 hkp.le
      _ = (2 : Rat) ^ k / 2 := by ring
  · intro h
    apply hq3
    rw [habs] at h
    have h1 : |(q : Rat) * ((den : Rat) * (2 : Rat) ^ (k - e).toNat)
        - (num.natAbs : Rat) * (2 : Rat) ^ (e - k).toNat|
        / ((den : Rat) * (2 : Rat) ^ (k - e).toNat) = 1 / 2 := by
      apply mul_right_cancel₀ (ne_of_gt hkp)
      rw [h]
      ring
    rw [div_eq_iff (ne_of_gt hbq)] at h1
    rcases abs_cases ((q : Rat) * ((den : Rat) * (2 : Rat) ^ (k - e).toNat)
        - (num.natAbs : Rat) * (2 : Rat) ^ (e - k).toNat) with ⟨h2, _⟩ | ⟨h2, _⟩
    · left
      have h3 : (2 : Rat) * ((q : Rat) * ((den : Rat) * (2 : Rat) ^ (k - e).toNat))
          = 2 * ((num.natAbs : Rat) * (2 : Rat) ^ (e - k).toNat)
            + (den : Rat) * (2 : Rat) ^ (k - e).toNat := by
        rw [h2] at h1
        linarith
      exact_mod_cast h3
    · right
      have h3 : (2 : Rat) * ((num.natAbs : Rat) * (2 : Rat) ^ (e - k).toNat)
          = 2 * ((q : Rat) * ((den : Rat) * (2 : Rat) ^ (k - e).toNat))
            + (den : Rat) * (2 : Rat) ^ (k - e).toNat := by
        rw [h2] at h1
        linarith
      exact_mod_cast h3
  · unfold roundTo
    simp only [hk, hq]
    by_cases hq0 : q = 0
    · rw [if_pos hq0, hq0]
      simp [FloatValue.toRat]
    · rw [if_neg hq0]
      by_cases hneg2 : num < 0
      · simp [FloatValue.toRat, hneg2]
      · simp [FloatValue.toRat, hneg2]

theorem sub32_le (a t : FloatValue) (N : Nat) (ha : a.toRat = N) (hN : N ≤ 3) (ht : 0 ≤ t.m) :
    (a.sub32 t).toRat ≤ N := by
  unfold FloatValue.sub32 roundFloat
  apply roundTo_le_nat 24 (-149) _ 1 _ N (-22) (by norm_num) (Nat.one_lt_two_pow (by norm_num))
    (by norm_num) (by norm_num)
  · have : (-(-22 : Int)).toNat = 22 := rfl
    rw [this]
    omega
  · have h1 := toRat_scale a (min a.e t.e) (min_le_left _ _)
    have h2 := toRat_scale t (min a.e t.e) (min_le_right _ _)
    have h3 := toRat_nonneg t ht
    push_cast at h1 h2 ⊢
    rw [div_one, sub_mul, h1, h2, ha]
    linarith

set_option maxRecDepth 100000 in
theorem ofNat32_small (j : Nat) (hj1 : 1 ≤ j) (hj3 : j ≤ 3) :
    (FloatValue.ofNat32 j).toRat = j := by
  have : j = 1 ∨ j = 2 ∨ j = 3 := by omega
  rcases this with rfl | rfl | rfl
  · have e : FloatValue.ofNat32 1 = ⟨8388608, -23⟩ := by decide
    rw [e]
    norm_num [FloatValue.toRat]
  · have e : FloatValue.ofNat32 2 = ⟨8388608, -22⟩ := by decide
    rw [e]
    norm_num [FloatValue.toRat]
  · have e : FloatValue.ofNat32 3 = ⟨12582912, -22⟩ := by decide
    rw [e]
    norm_num [FloatValue.toRat]

theorem outOfRange_iff (a : FloatValue) (j : Nat) (hj1 : 1 ≤ j) (hj3 : j ≤ 3) :
    (a.lt ⟨0, 0⟩ || (FloatValue.ofNat32 j).lt a) = true ↔
      (a.toRat < 0 ∨ a.toRat > (j : Rat)) := by
  rw [Bool.or_eq_true, FloatValue.lt_iff, FloatValue.lt_iff, toRat_zero,
    ofNat32_small j hj1 hj3]

theorem discountY_nonneg (s : OrderStat) : 0 ≤ (discountY s).m := by
  unfold discountY FloatValue.div32 roundFloat
  apply roundTo_m_nonneg
  have h1 : 0 ≤ (FloatValue.ofNat32 (s.n.getD 1 0)).m :=
    roundTo_m_nonneg _ _ _ _ _ (Int.natCast_nonneg _)
  have h2 : 0 ≤ (((FloatValue.ofNat64 (s.n.getD 1 0)).add64
      ((FloatValue.mk 1 1).mul64 (FloatValue.ofNat64 (s.n.getD 2 0)))).toFloat).m := by
    unfold FloatValue.toFloat roundFloat
    apply roundTo_m_nonneg
    unfold FloatValue.add64 roundDouble
    apply roundTo_m_nonneg
    have h3 : 0 ≤ (FloatValue.ofNat64 (s.n.getD 1 0)).m :=
      roundTo_m_nonneg _ _ _ _ _ (Int.natCast_nonneg _)
    have h4 : 0 ≤ ((FloatValue.mk 1 1).mul64 (FloatValue.ofNat64 (s.n.getD 2 0))).m := by
      unfold FloatValue.mul64 roundDouble
      apply roundTo_m_nonneg
      have h5 : 0 ≤ (FloatValue.ofNat64 (s.n.getD 2 0)).m :=
        roundTo_m_nonneg _ _ _ _ _ (Int.natCast_nonneg _)
      simpa using h5
    exact add_nonneg (mul_nonneg h3 (pow_nonneg (by norm_num) _))
      (mul_nonneg h4 (pow_nonneg (by norm_num) _))
  exact mul_nonneg h1 (Int.sign_nonneg.mpr h2)

/-- The `float` assigned to `amount[j]` never exceeds `j`: the term subtracted from
`float(j)` is a product and quotient of nonnegative values, and rounding the
difference cannot pass the `float` `j`. -/
theorem discountAmount_le (s : OrderStat) (j : Nat) (hj1 : 1 ≤ j) (hj3 : j ≤ 3) :
    (discountAmount s j).toRat ≤ (j : Rat) := by
  unfold discountAmount
  apply sub32_le _ _ j (ofNat32_small j hj1 hj3) hj3
  unfold FloatValue.div32 roundFloat
  apply roundTo_m_nonneg
  have h1 : 0 ≤ (((FloatValue.ofNat32 (j + 1)).mul32 (discountY s)).mul32
      (FloatValue.ofNat32 (s.n.getD (j + 1) 0))).m := by
    unfold FloatValue.mul32 roundFloat
    apply roundTo_m_nonneg
    apply mul_nonneg
    · apply roundTo_m_nonneg
      exact mul_nonneg (roundTo_m_nonneg _ _ _ _ _ (Int.natCast_nonneg _))
        (discountY_nonneg s)
    · exact roundTo_m_nonneg _ _ _ _ _ (Int.natCast_nonneg _)
  have h2 : 0 ≤ (FloatValue.ofNat32 (s.n.getD j 0)).m :=
    roundTo_m_nonneg _ _ _ _ _ (Int.natCast_nonneg _)
  exact mul_nonneg h1 (Int.sign_nonneg.mpr h2)

/-! ## Theorems: CalculateDiscounts -/

theorem checkObserved_123 (i : Nat) (s : OrderStat) :
    (∃ e, checkObserved i s [1, 2, 3] = .error e) ↔
      (s.n.getD 1 0 = 0 ∨ s.n.getD 2 0 = 0 ∨ s.n.getD 3 0 = 0) := by
  simp only [checkObserved]
  split_ifs with h1 h2 h3
  · exact ⟨fun _ => Or.inl h1, fun _ => ⟨_, rfl⟩⟩
  · exact ⟨fun _ => Or.inr (Or.inl h2), fun _ => ⟨_, rfl⟩⟩
  · exact ⟨fun _ => Or.inr (Or.inr h3), fun _ => ⟨_, rfl⟩⟩
  · constructor
    · rintro ⟨e, he⟩; cases he
    · rintro (h | h | h) <;> contradiction

theorem fillAmounts_123 (i : Nat) (s : OrderStat) (amount : List FloatValue) :
    (∃ e, fillAmounts i s [1, 2, 3] amount = .error e) ↔
      ∃ j, 1 ≤ j ∧ j ≤ 3 ∧
        ((discountAmount s j).toRat < 0 ∨ (discountAmount s j).toRat > (j : Rat)) := by
  have o1 := outOfRange_iff (discountAmount s 1) 1 (by omega) (by omega)
  have o2 := outOfRange_iff (discountAmount s 2) 2 (by omega) (by omega)
  have o3 := outOfRange_iff (discountAmount s 3) 3 (by omega) (by omega)
  simp only [fillAmounts]
  split_ifs with h1 h2 h3
  · exact ⟨fun _ => ⟨1, by omega, by omega, o1.mp h1⟩, fun _ => ⟨_, rfl⟩⟩
  · exact ⟨fun _ => ⟨2, by omega, by omega, o2.mp h2⟩, fun _ => ⟨_, rfl⟩⟩
  · exact ⟨fun _ => ⟨3, by omega, by omega, o3.mp h3⟩, fun _ => ⟨_, rfl⟩⟩
  · constructor
    · rintro ⟨e, he⟩; cases he
    · rintro ⟨j, hj1, hj3, hj⟩
      have : j = 1 ∨ j = 2 ∨ j = 3 := by omega
      rcases this with rfl | rfl | rfl
      · exact absurd (o1.mpr hj) h1
      · exact absurd (o2.mpr hj) h2
      · exact absurd (o3.mpr hj) h3

theorem calcOrder_error_iff (i : Nat) (s : OrderStat) :
    (∃ e, calcOrder i s = .error e) ↔ s.unusable := by
  unfold calcOrder OrderStat.unusable
  rw [← checkObserved_123 i s, ← fillAmounts_123 i s [⟨0, 0⟩, ⟨0, 0⟩, ⟨0, 0⟩, ⟨0, 0⟩]]
  cases h1 : checkObserved i s [1, 2, 3] with
  | error e => simp
  | ok u =>
    cases h2 : fillAmounts i s [1, 2, 3] [⟨0, 0⟩, ⟨0, 0⟩, ⟨0, 0⟩, ⟨0, 0⟩] with
    | error e => simp
    | ok a => simp

theorem calcFrom_error_iff (l : List OrderStat) (i : Nat) (out : DiscountOutput) :
    (∃ e, calcFrom i l out = .error e) ↔ ∃ s ∈ l, s.unusable := by
  induction l generalizing i out with
  | nil => simp [calcFrom]
  | cons s rest ih =>
    simp only [calcFrom, List.mem_cons, exists_eq_or_imp]
    rw [← calcOrder_error_iff i s]
    cases h : calcOrder i s with
    | error e => simp
    | ok d => simp [ih]

/-- C10 (amended): `CalculateDiscounts` throws `BadDiscountException` iff some order has
`n[1] = 0`, `n[2] = 0` or `n[3] = 0`, or some order has a `j` in `1..3` whose discount
as the code computes it, the `float` `amount[j]` obtained with every cast and
operation rounded, lies outside `[0, j]`; otherwise it returns normally. -/
theorem CalculateDiscounts_throws_iff (orders_ : StatCollector) :
    ((∃ e, orders_.CalculateDiscounts = .error e) ↔
      ((∃ s ∈ orders_, s.n.getD 1 0 = 0 ∨ s.n.getD 2 0 = 0 ∨ s.n.getD 3 0 = 0) ∨
        ∃ s ∈ orders_, ∃ j : Nat, 1 ≤ j ∧ j ≤ 3 ∧
          ((discountAmount s j).toRat < 0 ∨ (discountAmount s j).toRat > (j : Rat)))) ∧
    ((∃ out, orders_.CalculateDiscounts = .ok out) ↔
      ¬ ((∃ s ∈ orders_, s.n.getD 1 0 = 0 ∨ s.n.getD 2 0 = 0 ∨ s.n.getD 3 0 = 0) ∨
        ∃ s ∈ orders_, ∃ j, 1 ≤ j ∧ j ≤ 3 ∧
          ((discountAmount s j).toRat < 0 ∨ (discountAmount s j).toRat > (j : Rat)))) := by
  have key : (∃ e, orders_.CalculateDiscounts = .error e) ↔
      ((∃ s ∈ orders_, s.n.getD 1 0 = 0 ∨ s.n.getD 2 0 = 0 ∨ s.n.getD 3 0 = 0) ∨
        ∃ s ∈ orders_, ∃ j, 1 ≤ j ∧ j ≤ 3 ∧
          ((discountAmount s j).toRat < 0 ∨ (discountAmount s j).toRat > (j : Rat))) := by
    unfold StatCollector.CalculateDiscounts
    rw [calcFrom_error_iff]
    unfold OrderStat.unusable
    constructor
    · rintro ⟨s, hs, h | h⟩
      · exact Or.inl ⟨s, hs, h⟩
      · exact Or.inr ⟨s, hs, h⟩
    · rintro (⟨s, hs, h⟩ | ⟨s, hs, h⟩)
      · exact ⟨s, hs, Or.inl h⟩
      · exact ⟨s, hs, Or.inr h⟩
  refine ⟨key, ?_⟩
  rw [← key]
  cases h : orders_.CalculateDiscounts with
  | error e => simp
  | ok out => simp

set_option maxRecDepth 1000000 in
theorem rounding_sample_throws :
    StatCollector.CalculateDiscounts [⟨[0, 1, 3, 14, 0], 18, 18⟩]
      = .error (.outOfRange 1 2 ⟨-8388608, -45⟩) := by
  rfl

set_option maxRecDepth 1000000 in
theorem rounding_sample_returns :
    StatCollector.CalculateDiscounts [⟨[0, 8388608, 8388608, 16777217, 0], 33554433, 33554433⟩]
      = .ok ⟨[33554433], [33554433],
          [⟨[⟨0, 0⟩, ⟨11184810, -25⟩, ⟨0, 0⟩, ⟨12582912, -22⟩]⟩]⟩ := by
  rfl

/-- C10 fails as stated: on the histogram `n = [0, 1, 3, 14, 0]` of one order no
`n[j]` is zero and in exact arithmetic the three discounts are `1/7`, `0` and `3`, all
inside `[0, j]`, but `CalculateDiscounts` throws: the `float` computed for `j = 2` is
`-2 ^ (-22)`. -/
theorem CalculateDiscounts_throws_on_rounding :
    StatCollector.CalculateDiscounts [⟨[0, 1, 3, 14, 0], 18, 18⟩]
        = .error (.outOfRange 1 2 ⟨-8388608, -45⟩) ∧
      (⟨-8388608, -45⟩ : FloatValue).toRat = -(1 / 4194304) ∧
      exactDiscount ⟨[0, 1, 3, 14, 0], 18, 18⟩ 1 = 1 / 7 ∧
      exactDiscount ⟨[0, 1, 3, 14, 0], 18, 18⟩ 2 = 0 ∧
      exactDiscount ⟨[0, 1, 3, 14, 0], 18, 18⟩ 3 = 3 := by
  refine ⟨rounding_sample_throws, ?_, ?_, ?_, ?_⟩
  · norm_num [FloatValue.toRat]
  · norm_num [exactDiscount]
  · norm_num [exactDiscount]
  · norm_num [exactDiscount]

/-! ## Theorems: CollapseStream -/

theorem deleted_kept_bool (w k t c : Nat) :
    (w == k || (t != 0 && decide (c ≤ t))) = !(w != k && (t == 0 || decide (c > t))) := by
  have e1 : (w == k) = decide (w = k) := rfl
  have e2 : (t == 0) = decide (t = 0) := rfl
  have e3 : decide (c > t) = !decide (c ≤ t) := by
    by_cases h3 : c ≤ t
    · have : ¬ c > t := by omega
      simp [h3, this]
    · have : c > t := by omega
      simp [h3, this]
  rw [e3]
  simp only [bne, e1, e2]
  cases decide (w = k) <;> cases decide (t = 0) <;> cases decide (c ≤ t) <;> rfl

theorem isDeleted_eq_not_isKept (kBOS : WordIndex) (thr : List Nat) (order : Nat) (g : NGram) :
    isDeleted kBOS thr order g = !isKept kBOS thr order g :=
  deleted_kept_bool _ _ _ _

theorem scanBack_spec (kBOS : WordIndex) (thr : List Nat) (order : Nat)
    (A L T : List NGram) :
    scanBack kBOS thr order (A ++ L ++ T) A.length (A.length + L.length) =
      (A.length : Int) + (L.rdropWhile (fun g => !isKept kBOS thr order g)).length - 1 := by
  induction L using List.reverseRecOn generalizing T with
  | nil =>
    simp only [List.length_nil, Nat.add_zero, List.rdropWhile_nil, Nat.cast_zero, add_zero]
    generalize (A ++ [] ++ T) = blk
    cases A.length with
    | zero => simp [scanBack]
    | succ k => simp [scanBack]
  | append_singleton L z ih =>
    have hlen : A.length + (L ++ [z]).length = (A.length + L.length) + 1 := by
      simp; omega
    have hblk : A ++ (L ++ [z]) ++ T = A ++ L ++ ([z] ++ T) := by simp
    rw [hlen, scanBack, hblk]
    have hz : (A ++ L ++ ([z] ++ T)).getD (A.length + L.length) default = z := by
      rw [List.getD_append_right _ _ _ _ (by simp)]
      simp
    simp only [Nat.le_add_right, if_true, hz]
    by_cases hk : isKept kBOS thr order z = true
    · simp only [hk, if_true]
      rw [List.rdropWhile_concat_neg _ _ _ (by simp [hk])]
      simp only [List.length_append, List.length_singleton]
      push_cast
      omega
    · simp only [hk, if_false]
      rw [ih ([z] ++ T), List.rdropWhile_concat_pos _ _ _ (by simpa using hk)]
      simp

theorem rdropWhile_cons_keep {α : Type} (p : α → Bool) (y : α) (l : List α) (hy : p y = false) :
    (y :: l).rdropWhile p = y :: l.rdropWhile p := by
  induction l using List.reverseRecOn with
  | nil =>
    have : [y] = [] ++ [y] := rfl
    rw [this, List.rdropWhile_concat_neg _ _ _ (by simp [hy])]
    simp
  | append_singleton l z ih =>
    have : y :: (l ++ [z]) = (y :: l) ++ [z] := rfl
    rw [this, List.rdropWhile_concat, List.rdropWhile_concat, ih]
    by_cases hz : p z = true <;> simp [hz]

theorem filter_rdropWhile (p : NGram → Bool) (l : List NGram) :
    (l.rdropWhile (fun g => !p g)).filter p = l.filter p := by
  induction l using List.reverseRecOn with
  | nil => simp
  | append_singleton l z ih =>
    rw [List.rdropWhile_concat]
    by_cases hz : p z = true
    · simp [hz]
    · simp [hz, ih, List.filter_append]

theorem UpdateCopyFrom_spec (kBOS : WordIndex) (thr : List Nat) (order : Nat)
    (A L T : List NGram) (cf : Int) (hcf : cf = (A.length : Int) + L.length)
    (hpos : 1 ≤ A.length + L.length) :
    UpdateCopyFromForPruning kBOS thr order (A ++ L ++ T) A.length cf =
      (A.length : Int) + (L.rdropWhile (fun g => !isKept kBOS thr order g)).length - 1 := by
  have h1 : cf - 1 = Int.ofNat (A.length + L.length - 1) := by
    rw [hcf]; simp only [Int.ofNat_eq_coe]; omega
  have h2 : A.length + L.length - 1 + 1 = A.length + L.length := by omega
  unfold UpdateCopyFromForPruning
  rw [h1]
  simp only [h2]
  exact scanBack_spec kBOS thr order A L T

theorem BlockInv_start (kBOS : WordIndex) (thr : List Nat) (order : Nat) (b : Block)
    (hb : b.length ≠ 0) :
    BlockInv (isKept kBOS thr order) b b 0
      (UpdateCopyFromForPruning kBOS thr order b 0 b.length) := by
  have hspec := UpdateCopyFrom_spec kBOS thr order [] b [] (b.length : Int) (by simp)
    (by simp; omega)
  simp only [List.nil_append, List.append_nil, List.length_nil, Nat.cast_zero, zero_add]
    at hspec
  rw [hspec]
  obtain ⟨D, hD⟩ := List.rdropWhile_prefix (fun g => !isKept kBOS thr order g) b
  refine ⟨[], b.rdropWhile (fun g => !isKept kBOS thr order g), D, by simpa using hD.symm,
    by simp, fun _ => rfl, fun _ => by simp, by simp, ?_, ?_, rfl⟩
  · intro h
    have := List.rdropWhile_last_not (fun g => !isKept kBOS thr order g) b h
    simpa using this
  · simp only [List.nil_append]
    rw [filter_rdropWhile]

theorem BlockInv_step (kBOS : WordIndex) (thr : List Nat) (order : Nat) (orig b : Block)
    (cur : Nat) (cf : Int) (h : BlockInv (isKept kBOS thr order) orig b cur cf) :
    BlockInv (isKept kBOS thr order) orig
      (if (isDeleted kBOS thr order (b.getD cur default) && decide ((cur : Int) < cf)) = true
        then b.set cur (b.getD cf.toNat default) else b)
      (cur + 1)
      (if (isDeleted kBOS thr order (b.getD cur default) && decide ((cur : Int) < cf)) = true
        then UpdateCopyFromForPruning kBOS thr order (b.set cur (b.getD cf.toNat default)) cur cf
        else cf) := by
  obtain ⟨A, M, T, rfl, hlen, hMA, hMnil, hA, hlast, hperm, hlenb⟩ := h
  cases M with
  | nil =>
    have hA2 := hMnil rfl
    have hnlt : ¬ ((cur : Int) < cf) := by
      simp only [List.length_nil, Nat.cast_zero, add_zero] at hlen
      omega
    simp only [hnlt, decide_False, Bool.and_false, Bool.false_eq_true, if_false]
    exact ⟨A, [], T, rfl, hlen, fun h => absurd rfl h, fun _ => by omega, hA, fun h => absurd rfl h,
      hperm, hlenb⟩
  | cons x M1 =>
    have hAc : A.length = cur := hMA (by simp)
    have hx : (A ++ x :: M1 ++ T).getD cur default = x := by
      rw [List.append_assoc, List.getD_append_right _ _ _ _ (by omega)]
      simp [hAc]
    rw [hx]
    by_cases hk : isKept kBOS thr order x = true
    · have hd : isDeleted kBOS thr order x = false := by
        rw [isDeleted_eq_not_isKept, hk]; rfl
      simp only [hd, Bool.false_and, Bool.false_eq_true, if_false]
      refine ⟨A ++ [x], M1, T, by simp, ?_, fun _ => by simp [hAc], fun _ => by simp [hAc],
        ?_, ?_, ?_, hlenb⟩
      · simp only [List.length_append, List.length_cons, List.length_nil] at hlen ⊢
        push_cast at hlen ⊢
        omega
      · intro g hg
        rcases List.mem_append.mp hg with h1 | h1
        · exact hA g h1
        · simp only [List.mem_singleton] at h1
          rw [h1]; exact hk
      · intro hM1
        have := hlast (by simp)
        rwa [List.getLast_cons hM1] at this
      · simpa [List.filter_cons, hk] using hperm
    · have hkf : isKept kBOS thr order x = false := by simpa using hk
      have hd : isDeleted kBOS thr order x = true := by
        rw [isDeleted_eq_not_isKept, hkf]; rfl
      have hM1 : M1 ≠ [] := by
        intro hM1
        subst hM1
        have := hlast (by simp)
        simp only [List.getLast_singleton] at this
        exact hk this
      obtain ⟨M2, y, rfl⟩ : ∃ M2 y, M1 = M2 ++ [y] :=
        ⟨M1.dropLast, M1.getLast hM1, (List.dropLast_append_getLast hM1).symm⟩
      have hy : isKept kBOS thr order y = true := by
        have := hlast (by simp)
        rw [List.getLast_cons (by simp)] at this
        simpa using this
      have hcf : cf = (cur : Int) + M2.length + 1 := by
        simp only [List.length_cons, List.length_append, List.length_nil] at hlen
        push_cast at hlen
        omega
      have hlt : (cur : Int) < cf := by omega
      simp only [hd, hlt, decide_True, Bool.and_self, if_true]
      have hcfn : cf.toNat = A.length + (M2.length + 1) := by omega
      have hyget : (A ++ x :: (M2 ++ [y]) ++ T).getD cf.toNat default = y := by
        rw [hcfn, List.append_assoc, List.getD_append_right _ _ _ _ (by omega)]
        simp only [Nat.add_sub_cancel_left, List.cons_append, List.getD_cons_succ]
        rw [List.append_assoc, List.getD_append_right _ _ _ _ (by omega)]
        simp
      rw [hyget]
      have hset : (A ++ x :: (M2 ++ [y]) ++ T).set cur y = A ++ (y :: M2) ++ ([y] ++ T) := by
        rw [List.append_assoc, List.set_append_right _ _ (by omega)]
        simp [hAc]
      rw [hset]
      have hupd := UpdateCopyFrom_spec kBOS thr order A (y :: M2) ([y] ++ T) cf
        (by simp only [List.length_cons]; push_cast; omega)
        (by simp only [List.length_cons]; omega)
      rw [hAc] at hupd
      rw [hupd, rdropWhile_cons_keep _ _ _ (by simp [hy])]
      obtain ⟨D, hD⟩ := List.rdropWhile_prefix (fun g => !isKept kBOS thr order g) M2
      refine ⟨A ++ [y], M2.rdropWhile (fun g => !isKept kBOS thr order g), D ++ ([y] ++ T),
        ?_, ?_, fun _ => by simp [hAc], fun _ => by simp [hAc], ?_, ?_, ?_, ?_⟩
      · conv_lhs => rw [← hD]
        simp
      · simp only [List.length_append, List.length_cons, List.length_nil]
        push_cast
        omega
      · intro g hg
        rcases List.mem_append.mp hg with h1 | h1
        · exact hA g h1
        · simp only [List.mem_singleton] at h1
          rw [h1]; exact hy
      · intro h
        have := List.rdropWhile_last_not (fun g => !isKept kBOS thr order g) M2 h
        simpa using this
      · rw [filter_rdropWhile]
        refine List.Perm.trans ?_ hperm
        simp only [List.filter_cons, hkf, List.filter_append, hy, List.filter_nil, if_true,
          Bool.false_eq_true, if_false, List.append_assoc]
        exact List.Perm.append_left A List.perm_append_comm
      · rw [← hlenb]
        simp

theorem BlockInv_final (keep : NGram → Bool) (orig b : Block) (cur : Nat) (cf : Int)
    (h : BlockInv keep orig b cur cf) (hcur : cur = b.length) :
    List.Perm (b.take (cf + 1).toNat) (orig.filter keep) := by
  obtain ⟨A, M, T, rfl, hlen, hMA, hMnil, hA, hlast, hperm, hlenb⟩ := h
  cases M with
  | nil =>
    have h1 : (cf + 1).toNat = A.length := by
      simp only [List.length_nil, Nat.cast_zero, add_zero] at hlen
      omega
    rw [h1]
    simpa using hperm
  | cons x M1 =>
    exfalso
    have := hMA (by simp)
    simp only [List.length_append, List.length_cons] at hcur
    omega

theorem forall2_snoc {α β : Type} (R : α → β → Prop) (l1 : List α) (l2 : List β) (a : α) (b : β)
    (h : List.Forall₂ R l1 l2) (hab : R a b) : List.Forall₂ R (l1 ++ [a]) (l2 ++ [b]) :=
  List.rel_append h (List.Forall₂.cons hab List.Forall₂.nil)

theorem StartBlock_inv (kBOS : WordIndex) (thr : List Nat) (order : Nat) (c0 : Nat) (f0 : Int)
    (pending : List Block) (released : List Block) (b : Block) (done : List Block)
    (hrel : List.Forall₂ (fun out orig => List.Perm out (orig.filter (isKept kBOS thr order)))
      released done) :
    CollapseInv kBOS thr order (done ++ b :: pending)
        (StartBlock kBOS order thr c0 f0 released b pending) ∧
      (StartBlock kBOS order thr c0 f0 released b pending).todo
        = b.length + totalRecords pending := by
  induction pending generalizing released b done with
  | nil =>
    by_cases hb : b.length ≠ 0
    · rw [StartBlock, if_pos hb]
      refine ⟨⟨rfl, rfl, done, b, rfl, hrel, BlockInv_start kBOS thr order b hb, by
        show 0 < b.length
        omega⟩, ?_⟩
      simp [CollapseStream.todo]
    · rw [StartBlock, if_neg hb]
      have hb0 : b = [] := List.eq_nil_of_length_eq_zero (by omega)
      subst hb0
      refine ⟨⟨rfl, rfl, rfl, ?_⟩, ?_⟩
      · exact forall2_snoc _ _ _ _ _ hrel (List.Perm.refl _)
      · simp [CollapseStream.todo, totalRecords]
  | cons p ps ih =>
    by_cases hb : b.length ≠ 0
    · rw [StartBlock, if_pos hb]
      refine ⟨⟨rfl, rfl, done, b, rfl, hrel, BlockInv_start kBOS thr order b hb, by
        show 0 < b.length
        omega⟩, ?_⟩
      simp [CollapseStream.todo]
    · rw [StartBlock, if_neg hb]
      have hb0 : b = [] := List.eq_nil_of_length_eq_zero (by omega)
      subst hb0
      have := ih (released ++ [[]]) p (done ++ [[]])
        (forall2_snoc _ _ _ _ _ hrel (List.Perm.refl _))
      simp only [List.append_assoc, List.singleton_append] at this
      refine ⟨this.1, ?_⟩
      rw [this.2]
      simp [totalRecords]

theorem nextBlock_inv (kBOS : WordIndex) (thr : List Nat) (order : Nat) (c0 : Nat) (f0 : Int)
    (pending : List Block) (released : List Block) (out orig : Block) (done : List Block)
    (hrel : List.Forall₂ (fun out orig => List.Perm out (orig.filter (isKept kBOS thr order)))
      released done)
    (hout : List.Perm out (orig.filter (isKept kBOS thr order))) :
    CollapseInv kBOS thr order (done ++ orig :: pending)
        (nextBlock kBOS order thr c0 f0 released out pending) ∧
      (nextBlock kBOS order thr c0 f0 released out pending).todo = totalRecords pending := by
  cases pending with
  | nil =>
    unfold nextBlock
    refine ⟨⟨rfl, rfl, rfl, ?_⟩, ?_⟩
    · exact forall2_snoc _ _ _ _ _ hrel hout
    · simp [CollapseStream.todo, totalRecords]
  | cons p ps =>
    unfold nextBlock
    have := StartBlock_inv kBOS thr order c0 f0 ps (released ++ [out]) p (done ++ [orig])
      (forall2_snoc _ _ _ _ _ hrel hout)
    simp only [List.append_assoc, List.singleton_append] at this
    refine ⟨this.1, ?_⟩
    rw [this.2]
    simp [totalRecords]

theorem init_inv (kBOS : WordIndex) (thr : List Nat) (order : Nat) (blocks : List Block) :
    CollapseInv kBOS thr order blocks (CollapseStream.init kBOS order thr blocks) ∧
      (CollapseStream.init kBOS order thr blocks).todo = totalRecords blocks := by
  cases blocks with
  | nil =>
    refine ⟨⟨rfl, rfl, rfl, List.Forall₂.nil⟩, rfl⟩
  | cons b bs =>
    unfold CollapseStream.init
    have := StartBlock_inv kBOS thr order 0 0 bs [] b [] List.Forall₂.nil
    simp only [List.nil_append] at this
    refine ⟨this.1, ?_⟩
    rw [this.2]
    simp [totalRecords]

theorem next_inv (kBOS : WordIndex) (thr : List Nat) (order : Nat) (blocks : List Block)
    (cs : CollapseStream) (h : CollapseInv kBOS thr order blocks cs) (hv : cs.valid = true) :
    CollapseInv kBOS thr order blocks (cs.next kBOS) ∧ (cs.next kBOS).todo + 1 = cs.todo := by
  obtain ⟨o, t, rel, blk, cur, cf, pend⟩ := cs
  obtain ⟨ho, ht, h⟩ := h
  simp only at ho ht h
  subst ho ht
  cases blk with
  | none => simp [CollapseStream.valid] at hv
  | some b =>
    simp only at h
    obtain ⟨done, orig, hblocks, hrel, hinv, hcur⟩ := h
    have hstep := BlockInv_step kBOS t o orig b cur cf hinv
    have hlen1 : (if (isDeleted kBOS t o (b.getD cur default) &&
        decide ((cur : Int) < cf)) = true
        then b.set cur (b.getD cf.toNat default) else b).length = b.length := by
      split_ifs <;> simp
    simp only [CollapseStream.next]
    cases hdel : (isDeleted kBOS t o (b.getD cur default) && decide ((cur : Int) < cf))
    all_goals
      simp only [hdel, if_true, if_false, Bool.false_eq_true] at hstep ⊢
      by_cases hend : cur + 1 = b.length
      · simp only [hend, if_true]
        have hfin := BlockInv_final _ _ _ _ _ hstep (by
          first
            | (simp only [List.length_set]; omega)
            | omega)
        rw [hblocks]
        refine ⟨(nextBlock_inv kBOS t o _ _ pend rel _ orig done hrel hfin).1, ?_⟩
        have h2 := fun c f => (nextBlock_inv kBOS t o c f pend rel _ orig done hrel hfin).2
        rw [h2]
        simp only [CollapseStream.todo]
        omega
      · simp only [hend, if_false]
        refine ⟨⟨rfl, rfl, ?_⟩, ?_⟩
        · exact ⟨done, orig, hblocks, hrel, hstep, by
            show cur + 1 < _
            first
              | (simp only [List.length_set]; omega)
              | omega⟩
        · simp only [CollapseStream.todo, List.length_set]
          omega

theorem advance_inv (kBOS : WordIndex) (thr : List Nat) (order : Nat) (blocks : List Block)
    (k : Nat) (cs : CollapseStream) (h : CollapseInv kBOS thr order blocks cs)
    (hk : cs.todo = k) :
    CollapseInv kBOS thr order blocks (CollapseStream.advance kBOS k cs) ∧
      (CollapseStream.advance kBOS k cs).valid = false := by
  induction k generalizing cs with
  | zero =>
    refine ⟨h, ?_⟩
    show cs.block_.isSome = false
    cases hb : cs.block_ with
    | none => rfl
    | some b =>
      exfalso
      obtain ⟨_, _, h⟩ := h
      rw [hb] at h
      obtain ⟨_, _, _, _, _, hcur⟩ := h
      simp only [CollapseStream.todo, hb] at hk
      omega
  | succ k ih =>
    have hv : cs.valid = true := by
      show cs.block_.isSome = true
      cases hb : cs.block_ with
      | none => simp [CollapseStream.todo, hb] at hk
      | some b => rfl
    have := next_inv kBOS thr order blocks cs h hv
    exact ih (cs.next kBOS) this.1 (by omega)

theorem isKept_iff (kBOS : WordIndex) (thr : List Nat) (order : Nat) (g : NGram) :
    isKept kBOS thr order g =
      decide (g.words.getD 1 0 ≠ kBOS ∧
        (thr.getD (order - 1) 0 = 0 ∨ g.count > thr.getD (order - 1) 0)) := by
  unfold isKept
  generalize thr.getD (order - 1) 0 = t
  generalize g.words.getD 1 0 = w
  have e1 : (w != kBOS) = decide (w ≠ kBOS) := by
    by_cases h : w = kBOS <;> simp [h, bne]
  have e2 : (t == 0) = decide (t = 0) := rfl
  rw [e1, e2]
  by_cases h1 : w ≠ kBOS <;> by_cases h2 : t = 0 <;> by_cases h3 : g.count > t <;>
    simp [h1, h2, h3]

/-- C1: once the cursor has been advanced past every record, the stream is exhausted
and each block handed on holds exactly the records of the delivered block that pass
both filters (second word is not `kBOS`, and the threshold `t` of the order is 0 or
the count exceeds `t`), as a multiset; its valid size is the number of passing
records times the record size. -/
theorem CollapseStream_compaction (kBOS : WordIndex) (counts_threshold_ : List Nat)
    (order : Nat) (blocks : List Block) (TotalSize : Nat) :
    (CollapseStream.advance kBOS (totalRecords blocks)
        (CollapseStream.init kBOS order counts_threshold_ blocks)).valid = false ∧
    List.Forall₂
      (fun out orig =>
        List.Perm out (orig.filter fun g => decide (g.words.getD 1 0 ≠ kBOS ∧
          (counts_threshold_.getD (order - 1) 0 = 0 ∨
            g.count > counts_threshold_.getD (order - 1) 0))) ∧
        ValidSize TotalSize out =
          (orig.countP fun g => decide (g.words.getD 1 0 ≠ kBOS ∧
            (counts_threshold_.getD (order - 1) 0 = 0 ∨
              g.count > counts_threshold_.getD (order - 1) 0))) * TotalSize)
      (CollapseStream.advance kBOS (totalRecords blocks)
        (CollapseStream.init kBOS order counts_threshold_ blocks)).released blocks := by
  have hinit := init_inv kBOS counts_threshold_ order blocks
  have hadv := advance_inv kBOS counts_threshold_ order blocks (totalRecords blocks) _
    hinit.1 hinit.2
  refine ⟨hadv.2, ?_⟩
  obtain ⟨_, _, h⟩ := hadv.1
  have hnone : (CollapseStream.advance kBOS (totalRecords blocks)
      (CollapseStream.init kBOS order counts_threshold_ blocks)).block_ = none := by
    have := hadv.2
    simp only [CollapseStream.valid] at this
    cases hb : (CollapseStream.advance kBOS (totalRecords blocks)
      (CollapseStream.init kBOS order counts_threshold_ blocks)).block_ with
    | none => rfl
    | some b => rw [hb] at this; simp at this
  rw [hnone] at h
  have hfun : (isKept kBOS counts_threshold_ order) = fun g =>
      decide (g.words.getD 1 0 ≠ kBOS ∧ (counts_threshold_.getD (order - 1) 0 = 0 ∨
        g.count > counts_threshold_.getD (order - 1) 0)) := by
    funext g; exact isKept_iff kBOS counts_threshold_ order g
  rw [hfun] at h
  refine List.Forall₂.imp ?_ h.2
  intro out orig hperm
  refine ⟨hperm, ?_⟩
  rw [ValidSize, hperm.length_eq, List.countP_eq_length_filter]

theorem StartBlock_remaining (kBOS : WordIndex) (thr : List Nat) (order : Nat) (c0 : Nat)
    (f0 : Int) (pending : List Block) (released : List Block) (b : Block) :
    (StartBlock kBOS order thr c0 f0 released b pending).Regular ∧
      (StartBlock kBOS order thr c0 f0 released b pending).remaining
        = b ++ pending.flatten := by
  induction pending generalizing released b with
  | nil =>
    by_cases hb : b.length ≠ 0
    · rw [StartBlock, if_pos hb]
      refine ⟨?_, by simp [CollapseStream.remaining]⟩
      show 0 < b.length
      omega
    · rw [StartBlock, if_neg hb]
      have hb0 : b = [] := List.eq_nil_of_length_eq_zero (by omega)
      subst hb0
      exact ⟨rfl, rfl⟩
  | cons p ps ih =>
    by_cases hb : b.length ≠ 0
    · rw [StartBlock, if_pos hb]
      refine ⟨?_, by simp [CollapseStream.remaining]⟩
      show 0 < b.length
      omega
    · rw [StartBlock, if_neg hb]
      have hb0 : b = [] := List.eq_nil_of_length_eq_zero (by omega)
      subst hb0
      simpa using ih (released ++ [[]]) p

theorem nextBlock_remaining (kBOS : WordIndex) (thr : List Nat) (order : Nat) (c0 : Nat)
    (f0 : Int) (pending : List Block) (released : List Block) (out : Block) :
    (nextBlock kBOS order thr c0 f0 released out pending).Regular ∧
      (nextBlock kBOS order thr c0 f0 released out pending).remaining = pending.flatten := by
  cases pending with
  | nil => exact ⟨rfl, rfl⟩
  | cons p ps =>
    unfold nextBlock
    simpa using StartBlock_remaining kBOS thr order c0 f0 ps (released ++ [out]) p

theorem init_remaining (kBOS : WordIndex) (thr : List Nat) (order : Nat) (blocks : List Block) :
    (CollapseStream.init kBOS order thr blocks).Regular ∧
      (CollapseStream.init kBOS order thr blocks).remaining = blocks.flatten := by
  cases blocks with
  | nil => exact ⟨rfl, rfl⟩
  | cons b bs =>
    unfold CollapseStream.init
    simpa using StartBlock_remaining kBOS thr order 0 0 bs [] b

theorem next_remaining (kBOS : WordIndex) (cs : CollapseStream) (hreg : cs.Regular)
    (hv : cs.valid = true) :
    (cs.next kBOS).Regular ∧ cs.remaining = cs.deref :: (cs.next kBOS).remaining := by
  obtain ⟨o, t, rel, blk, cur, cf, pend⟩ := cs
  cases blk with
  | none => simp [CollapseStream.valid] at hv
  | some b =>
    have hcur : cur < b.length := hreg
    simp only [CollapseStream.next, CollapseStream.deref, Option.getD_some]
    have hhead : b.drop cur = b.getD cur default :: b.drop (cur + 1) := by
      rw [List.getD_eq_getElem _ _ hcur]
      exact List.drop_eq_getElem_cons hcur
    by_cases hend : cur + 1 = b.length
    · simp only [hend, if_true]
      have := nextBlock_remaining kBOS t o b.length
      refine ⟨(this _ pend rel _).1, ?_⟩
      rw [(this _ pend rel _).2]
      simp only [CollapseStream.remaining, hhead, hend, List.drop_length, List.cons_append,
        List.nil_append]
    · simp only [hend, if_false]
      constructor
      · show cur + 1 < _
        split_ifs
        · simp only [List.length_set]; omega
        · omega
      · simp only [CollapseStream.remaining, hhead, List.cons_append]
        congr 2
        split_ifs
        · rw [List.drop_set_of_lt _ _ (by omega)]
        · rfl

theorem yield_eq_remaining (kBOS : WordIndex) (fuel : Nat) (cs : CollapseStream)
    (hreg : cs.Regular) (hfuel : cs.remaining.length ≤ fuel) :
    CollapseStream.yield kBOS fuel cs = cs.remaining := by
  induction fuel generalizing cs with
  | zero =>
    have : cs.remaining = [] := List.eq_nil_of_length_eq_zero (by omega)
    rw [this]; rfl
  | succ fuel ih =>
    unfold CollapseStream.yield
    by_cases hv : cs.valid = true
    · obtain ⟨h1, h2⟩ := next_remaining kBOS cs hreg hv
      rw [if_pos hv, h2, ih _ h1]
      rw [h2] at hfuel
      simp only [List.length_cons] at hfuel
      omega
    · rw [if_neg hv]
      simp only [CollapseStream.valid] at hv
      cases hb : cs.block_ with
      | none => simp [CollapseStream.remaining, hb]
      | some b => simp [hb] at hv

theorem totalRecords_eq (blocks : List Block) : totalRecords blocks = blocks.flatten.length := by
  simp [totalRecords, List.length_flatten]

/-- C2, as the code has it: the records a consumer obtains by dereferencing and
advancing the cursor until the stream is exhausted are all the records of the input
blocks, in their original order; deleted records are handed to the consumer too, the
deletion only takes effect in the block behind the cursor. -/
theorem CollapseStream_yields_input (kBOS : WordIndex) (counts_threshold_ : List Nat)
    (order : Nat) (blocks : List Block) :
    CollapseStream.yield kBOS (totalRecords blocks)
      (CollapseStream.init kBOS order counts_threshold_ blocks) = blocks.flatten := by
  obtain ⟨h1, h2⟩ := init_remaining kBOS counts_threshold_ order blocks
  rw [yield_eq_remaining kBOS _ _ h1 (by rw [h2, totalRecords_eq]), h2]

/-- C2 fails as stated: from a block holding the single bigram `(5, kBOS)` with
`kBOS = 1` and no pruning, the consumer is handed that record, although its second
word is begin-of-sentence and so it does not pass the filters. -/
theorem CollapseStream_yields_deleted_record :
    CollapseStream.yield 1 (totalRecords [[⟨[5, 1], 3⟩]])
        (CollapseStream.init 1 2 [0, 0] [[⟨[5, 1], 3⟩]]) = [⟨[5, 1], 3⟩] ∧
      ([[⟨[5, 1], 3⟩]] : List Block).flatten.filter
        (fun g => decide (g.words.getD 1 0 ≠ 1 ∧
          (([0, 0] : List Nat).getD (2 - 1) 0 = 0 ∨ g.count > ([0, 0] : List Nat).getD (2 - 1) 0)))
        = [] := by
  decide

theorem mainLoop_snd (kBOS : WordIndex) (thr : List Nat) (fuel : Nat) (cs : CollapseStream)
    (st : RunState) :
    (mainLoop kBOS thr fuel cs st).2 =
      (CollapseStream.yield kBOS fuel cs).foldl (fun s g => runBody kBOS thr g s) st := by
  induction fuel generalizing cs st with
  | zero => rfl
  | succ fuel ih =>
    unfold mainLoop CollapseStream.yield
    by_cases hv : cs.valid = true
    · rw [if_pos hv, if_pos hv, ih]; rfl
    · rw [if_neg hv, if_neg hv]; rfl

theorem next_of_invalid (kBOS : WordIndex) (cs : CollapseStream) (hv : ¬ cs.valid = true) :
    cs.next kBOS = cs := by
  unfold CollapseStream.next
  cases hb : cs.block_ with
  | none => rfl
  | some b => simp [CollapseStream.valid, hb] at hv

theorem advance_of_invalid (kBOS : WordIndex) (k : Nat) (cs : CollapseStream)
    (hv : ¬ cs.valid = true) : CollapseStream.advance kBOS k cs = cs := by
  induction k with
  | zero => rfl
  | succ k ih =>
    unfold CollapseStream.advance
    rw [next_of_invalid kBOS cs hv, ih]

theorem mainLoop_fst (kBOS : WordIndex) (thr : List Nat) (fuel : Nat) (cs : CollapseStream)
    (st : RunState) :
    (mainLoop kBOS thr fuel cs st).1 = CollapseStream.advance kBOS fuel cs := by
  induction fuel generalizing cs st with
  | zero => rfl
  | succ fuel ih =>
    unfold mainLoop
    by_cases hv : cs.valid = true
    · rw [if_pos hv, ih]; rfl
    · rw [if_neg hv, advance_of_invalid kBOS _ cs hv]

/-- The local state at the end of `Run`, before the discounts, is the final loop
applied to the fold of the loop body over all input records in order. -/
theorem runCore_snd (kUNK kBOS : WordIndex) (thr : List Nat) (order : Nat)
    (blocks : List Block) :
    (runCore kUNK kBOS thr order blocks).2 =
      flushLoop thr (blocks.flatten.foldl (fun s g => runBody kBOS thr g s)
        (runInit kUNK kBOS order)) := by
  unfold runCore
  simp only
  rw [mainLoop_snd, CollapseStream_yields_input]

/-! ## Theorems: the loop body of Run -/

theorem runBody_eq (kBOS : WordIndex) (thr : List Nat) (g : NGram) (st : RunState) :
    runBody kBOS thr g st =
      openPhase kBOS thr g
        (FindDifference g (st.streams.getD (st.lower_valid - 1) default).cur).toNat
        (afterClose thr g st) := rfl

theorem getD_set_eq {α : Type} (l : List α) (i j : Nat) (a d : α) :
    (l.set i a).getD j d = if i = j ∧ j < l.length then a else l.getD j d := by
  simp only [List.getD_eq_getElem?_getD, List.getElem?_set]
  by_cases hij : i = j
  · subst hij
    by_cases hl : i < l.length
    · simp [hl]
    · simp [hl]
      rw [List.getElem?_eq_none (by omega)]; rfl
  · simp [hij]

theorem closeBody_eq (thr : List Nat) (i : Nat) (st : RunState) :
    closeBody thr i st =
      { st with
        stats := st.stats.Add i (st.streams.getD i default).cur.count
          (decide ((closeStream thr st.lower_counts (st.streams.getD i default)).written
            = (st.streams.getD i default).written))
        streams := st.streams.set i (closeStream thr st.lower_counts (st.streams.getD i default)) }
    := by
  unfold closeBody closeStream
  simp only
  split_ifs with h
  · simp [NGramStream.next]
  · simp [NGramStream.abandon]

theorem closeLoop_lower_counts (thr : List Nat) (same lv : Nat) (st : RunState) :
    (closeLoop thr same lv st).lower_counts = st.lower_counts := by
  induction lv generalizing st with
  | zero => rfl
  | succ lv ih =>
    unfold closeLoop
    split_ifs with h
    · rw [ih, closeBody_eq]
    · rfl

theorem closeLoop_lower_valid (thr : List Nat) (same lv : Nat) (st : RunState) :
    (closeLoop thr same lv st).lower_valid = min lv same := by
  induction lv generalizing st with
  | zero => simp [closeLoop]
  | succ lv ih =>
    unfold closeLoop
    split_ifs with h
    · rw [ih]; omega
    · simp only; omega

theorem closeLoop_streams_length (thr : List Nat) (same lv : Nat) (st : RunState) :
    (closeLoop thr same lv st).streams.length = st.streams.length := by
  induction lv generalizing st with
  | zero => rfl
  | succ lv ih =>
    unfold closeLoop
    split_ifs with h
    · rw [ih, closeBody_eq]; simp
    · rfl

theorem closeLoop_stats_length (thr : List Nat) (same lv : Nat) (st : RunState) :
    (closeLoop thr same lv st).stats.length = st.stats.length := by
  induction lv generalizing st with
  | zero => rfl
  | succ lv ih =>
    unfold closeLoop
    split_ifs with h
    · rw [ih, closeBody_eq]; simp [Add_length]
    · rfl

theorem closeLoop_stream (thr : List Nat) (same lv : Nat) (st : RunState) (i : Nat) :
    (closeLoop thr same lv st).streams.getD i default =
      if same ≤ i ∧ i < lv ∧ i < st.streams.length then
        closeStream thr st.lower_counts (st.streams.getD i default)
      else st.streams.getD i default := by
  induction lv generalizing st with
  | zero => simp [closeLoop]
  | succ lv ih =>
    unfold closeLoop
    split_ifs with h h2 h2
    · rw [ih, closeBody_eq]
      simp only [getD_set_eq, List.length_set]
      by_cases hi : lv = i
      · subst hi
        have : ¬ (same ≤ lv ∧ lv < lv ∧ lv < st.streams.length) := by omega
        rw [if_neg this]
        simp only [true_and]
        split_ifs with h3
        · rfl
        · omega
      · simp only [hi, false_and, if_false]
        have : (same ≤ i ∧ i < lv ∧ i < st.streams.length) := by omega
        rw [if_pos this]
    · rw [ih, closeBody_eq]
      simp only [getD_set_eq, List.length_set]
      by_cases hi : lv = i
      · subst hi
        have : ¬ (same ≤ lv ∧ lv < lv ∧ lv < st.streams.length) := by omega
        rw [if_neg this]
        simp only [true_and]
        split_ifs with h3
        · omega
        · rfl
      · simp only [hi, false_and, if_false]
        have : ¬ (same ≤ i ∧ i < lv ∧ i < st.streams.length) := by omega
        rw [if_neg this]
    · omega
    · rfl

theorem SameLogs.refl (st : RunState) : SameLogs st st :=
  ⟨rfl, fun _ => ⟨rfl, rfl, rfl⟩, rfl, rfl⟩

theorem SameLogs.trans {a b c : RunState} (h1 : SameLogs a b) (h2 : SameLogs b c) :
    SameLogs a c := by
  obtain ⟨l1, s1, t1, c1⟩ := h1
  obtain ⟨l2, s2, t2, c2⟩ := h2
  refine ⟨l2.trans l1, fun i => ?_, t2.trans t1, c2.trans c1⟩
  obtain ⟨x1, x2, x3⟩ := s1 i
  obtain ⟨y1, y2, y3⟩ := s2 i
  exact ⟨y1.trans x1, y2.trans x2, y3.trans x3⟩

theorem SameLogs_setCur (st : RunState) (j lv : Nat) (c : NGram) :
    SameLogs st { st with
      lower_valid := lv
      streams := st.streams.set j { st.streams.getD j default with cur := c } } := by
  refine ⟨by simp, fun i => ?_, rfl, rfl⟩
  simp only [getD_set_eq]
  split_ifs with h
  · obtain ⟨rfl, _⟩ := h
    exact ⟨rfl, rfl, rfl⟩
  · exact ⟨rfl, rfl, rfl⟩

theorem afterIncrement_logs (same : Nat) (st : RunState) :
    SameLogs st (afterIncrement same st) := by
  unfold afterIncrement
  split_ifs with h
  · exact SameLogs_setCur st (same - 1) st.lower_valid _
  · exact SameLogs.refl st

theorem afterIncrement_getD (same : Nat) (st : RunState) (i : Nat) (h : same ≤ i) :
    (afterIncrement same st).streams.getD i default = st.streams.getD i default := by
  unfold afterIncrement
  split_ifs with h0
  · simp only [getD_set_eq]
    rw [if_neg (by omega)]
  · rfl

theorem afterIncrement_lower_valid (same : Nat) (st : RunState) :
    (afterIncrement same st).lower_valid = st.lower_valid := by
  unfold afterIncrement
  split_ifs <;> rfl

theorem openAt_logs (full : NGram) (bos count : Nat) (st : RunState) :
    SameLogs st (openAt full bos count st) :=
  SameLogs_setCur st st.lower_valid (st.lower_valid + 1) _

theorem openLoop_logs (kBOS : WordIndex) (full : NGram) (bos : Nat) (st : RunState) :
    SameLogs st (openLoop kBOS full bos st).2 := by
  induction bos generalizing st with
  | zero => exact SameLogs.refl st
  | succ b ih =>
    unfold openLoop
    split_ifs with h
    · exact (openAt_logs full (b + 1) 1 st).trans (ih _)
    · exact SameLogs.refl st

theorem AddFull_getD (orders_ : StatCollector) (cnt : Nat) (p : Bool) (i : Nat)
    (hi : i + 1 < orders_.length) :
    (orders_.AddFull cnt p).getD i OrderStat.zero = orders_.getD i OrderStat.zero := by
  unfold StatCollector.AddFull
  rw [Add_getD]
  have : ¬ (orders_.length - 1 = i ∧ i < orders_.length) := by omega
  rw [if_neg this]

theorem openPhase_streams (kBOS : WordIndex) (thr : List Nat) (full : NGram) (bos : Nat)
    (st : RunState) :
    ∃ st1, SameLogs st st1 ∧ (openPhase kBOS thr full bos st).streams = st1.streams ∧
      (openPhase kBOS thr full bos st).lower_counts = st.lower_counts ∧
      (openPhase kBOS thr full bos st).stats.length = st.stats.length ∧
      ∀ i, i + 1 < st.stats.length →
        (openPhase kBOS thr full bos st).stats.getD i OrderStat.zero
          = st.stats.getD i OrderStat.zero := by
  unfold openPhase
  have hl := openLoop_logs kBOS full bos st
  by_cases h : (openLoop kBOS full bos st).1 ≠ 0
  on_goal 1 => rw [if_pos h]
  on_goal 2 => rw [if_neg h]
  · have h2 := hl.trans (openAt_logs full (openLoop kBOS full bos st).1 full.count
      (openLoop kBOS full bos st).2)
    exact ⟨_, h2, rfl, h2.2.2.2, by rw [h2.2.2.1], fun i _ => by rw [h2.2.2.1]⟩
  · refine ⟨_, hl, rfl, hl.2.2.2, ?_, fun i hi => ?_⟩
    · simp only [StatCollector.AddFull, Add_length, hl.2.2.1]
    · simp only
      rw [AddFull_getD _ _ _ _ (by rw [hl.2.2.1]; exact hi), hl.2.2.1]

/-- Effect of one round of the main loop on the written / dropped records, the order
and the statistics of a lower stream, and on `lower_counts`. -/
theorem runBody_effect (kBOS : WordIndex) (thr : List Nat) (g : NGram) (st : RunState) :
    (runBody kBOS thr g st).streams.length = st.streams.length ∧
    (runBody kBOS thr g st).lower_counts
      = updateLowerCounts (sameAt st g) g.count 0 st.lower_counts ∧
    (runBody kBOS thr g st).stats.length = st.stats.length ∧
    ∀ i,
      ((runBody kBOS thr g st).streams.getD i default).order
        = (st.streams.getD i default).order ∧
      ((runBody kBOS thr g st).streams.getD i default).written =
        (if sameAt st g ≤ i ∧ i < st.lower_valid ∧ i < st.streams.length then
          (closeStream thr st.lower_counts (st.streams.getD i default)).written
        else (st.streams.getD i default).written) ∧
      ((runBody kBOS thr g st).streams.getD i default).dropped =
        (if sameAt st g ≤ i ∧ i < st.lower_valid ∧ i < st.streams.length then
          (closeStream thr st.lower_counts (st.streams.getD i default)).dropped
        else (st.streams.getD i default).dropped) := by
  rw [runBody_eq]
  obtain ⟨st1, hlog, hs, hlc, hsl, _⟩ := openPhase_streams kBOS thr g
    (FindDifference g (st.streams.getD (st.lower_valid - 1) default).cur).toNat
    (afterClose thr g st)
  have hinc := afterIncrement_logs (sameAt st g) st
  rw [hs, hlc, hsl]
  obtain ⟨hlen, hstr, _, _⟩ := hlog
  refine ⟨?_, ?_, ?_, fun i => ?_⟩
  · rw [hlen]
    simp only [afterClose, closeLoop_streams_length]
    exact hinc.1
  · simp only [afterClose, closeLoop_lower_counts]
    rw [hinc.2.2.2]
  · simp only [afterClose, closeLoop_stats_length]
    rw [hinc.2.2.1]
  · obtain ⟨h1, h2, h3⟩ := hstr i
    rw [h1, h2, h3]
    simp only [afterClose, closeLoop_stream, afterIncrement_lower_valid, hinc.1, hinc.2.2.2]
    obtain ⟨i1, i2, i3⟩ := hinc.2.1 i
    split_ifs with hc
    · rw [afterIncrement_getD _ _ _ (by omega)]
      exact ⟨by unfold closeStream; split_ifs <;> rfl, rfl, rfl⟩
    · exact ⟨i3, i1, i2⟩

theorem updateLowerCounts_length (same c j : Nat) (l : List Nat) :
    (updateLowerCounts same c j l).length = l.length := by
  induction l generalizing j with
  | nil => rfl
  | cons x xs ih => simp [updateLowerCounts, ih]

theorem updateLowerCounts_getD (same c j : Nat) (l : List Nat) (i : Nat) (hi : i < l.length) :
    (updateLowerCounts same c j l).getD i 0 =
      if j + i ≥ same then c else (l.getD i 0 + c) % 2 ^ 64 := by
  induction l generalizing j i with
  | nil => simp at hi
  | cons x xs ih =>
    cases i with
    | zero => simp [updateLowerCounts]
    | succ i =>
      simp only [updateLowerCounts, List.getD_cons_succ]
      rw [ih (j + 1) i (by simpa using hi)]
      have : j + 1 + i = j + (i + 1) := by omega
      rw [this]

theorem runInit_shape (kUNK kBOS : WordIndex) (N : Nat) : (runInit kUNK kBOS N).Shape N := by
  refine ⟨by simp [runInit, NGramStreams.Init], fun i hi => ?_, by simp [runInit],
    by simp [runInit, Add_length, StatCollector.init]⟩
  have hget : ∀ j, j < N - 1 →
      (NGramStreams.Init (N - 1)).getD j default
        = ⟨j + 1, [], ⟨List.replicate (j + 1) 0, 0⟩, []⟩ := by
    intro j hj
    simp [NGramStreams.Init, List.getD_eq_getElem?_getD, hj]
  simp only [runInit, getD_set_eq]
  split_ifs with h
  · obtain ⟨rfl, _⟩ := h
    show ((NGramStreams.Init (N - 1)).getD 0 default).order = 1
    rw [hget 0 hi]
  · rw [hget i hi]

theorem runBody_shape (kBOS : WordIndex) (thr : List Nat) (g : NGram) (st : RunState) (N : Nat)
    (h : st.Shape N) : (runBody kBOS thr g st).Shape N := by
  obtain ⟨h1, h2, h3, h4⟩ := h
  obtain ⟨e1, e2, e3, e4⟩ := runBody_effect kBOS thr g st
  refine ⟨e1.trans h1, fun i hi => ?_, ?_, e3.trans h4⟩
  · rw [(e4 i).1]; exact h2 i hi
  · rw [e2, updateLowerCounts_length]; exact h3

theorem foldl_runBody_shape (kBOS : WordIndex) (thr : List Nat) (l : List NGram)
    (st : RunState) (N : Nat) (h : st.Shape N) :
    (l.foldl (fun s g => runBody kBOS thr g s) st).Shape N := by
  induction l generalizing st with
  | nil => exact h
  | cons g gs ih => exact ih _ (runBody_shape kBOS thr g st N h)

theorem lower_counts_staysOpen (kBOS : WordIndex) (thr : List Nat) (k : Nat) (ys : List NGram)
    (st : RunState) (hst : staysOpen kBOS thr k st ys) (hk : 1 ≤ k)
    (hlen : k ≤ st.lower_counts.length)
    (hsum : st.lower_counts.getD (k - 1) 0 + (ys.map NGram.count).sum < 2 ^ 64) :
    ((ys.foldl (fun s g => runBody kBOS thr g s) st).lower_counts).getD (k - 1) 0 =
      st.lower_counts.getD (k - 1) 0 + (ys.map NGram.count).sum := by
  induction ys generalizing st with
  | nil => simp
  | cons y ys ih =>
    obtain ⟨h1, h2⟩ := hst
    obtain ⟨_, e2, _, _⟩ := runBody_effect kBOS thr y st
    simp only [List.map_cons, List.sum_cons] at hsum
    have hstep : (runBody kBOS thr y st).lower_counts.getD (k - 1) 0
        = st.lower_counts.getD (k - 1) 0 + y.count := by
      rw [e2, updateLowerCounts_getD _ _ _ _ _ (by omega), if_neg (by omega)]
      exact Nat.mod_eq_of_lt (by omega)
    simp only [List.foldl_cons, List.map_cons, List.sum_cons]
    rw [ih _ h2 (by rw [e2, updateLowerCounts_length]; exact hlen) (by rw [hstep]; omega),
      hstep]
    omega

/-- C4: a lower-order record of order `k` (`2 ≤ k < N`) with a nonzero threshold
`t = counts_threshold_[k-1]`, opened when `r` is read (`same < k`), kept open while
`ys` are read (`same ≥ k`) and closed when `z` is read (`same < k`), is written to its
stream iff the sum of the counts of `r` and `ys` exceeds `t`; otherwise the stream is
left as it is and the record is dropped.  Neither the stored count of the record nor
the threshold of another order enters.  The sum is the one held in the 64-bit
`lower_counts`: it is required to be below `2 ^ 64`. -/
theorem close_out_uses_running_sum (kUNK kBOS : WordIndex) (counts_threshold_ : List Nat)
    (N : Nat) (pre : List NGram) (r : NGram) (ys : List NGram) (z : NGram) (k : Nat)
    (hk : 2 ≤ k) (hkN : k < N) (ht : counts_threshold_.getD (k - 1) 0 ≠ 0)
    (hopen : sameAt (pre.foldl (fun s g => runBody kBOS counts_threshold_ g s)
      (runInit kUNK kBOS N)) r < k)
    (hstay : staysOpen kBOS counts_threshold_ k
      (runBody kBOS counts_threshold_ r (pre.foldl (fun s g => runBody kBOS counts_threshold_ g s)
        (runInit kUNK kBOS N))) ys)
    (hclose : sameAt ((pre ++ r :: ys).foldl (fun s g => runBody kBOS counts_threshold_ g s)
      (runInit kUNK kBOS N)) z < k)
    (hvalid : k ≤ ((pre ++ r :: ys).foldl (fun s g => runBody kBOS counts_threshold_ g s)
      (runInit kUNK kBOS N)).lower_valid)
    (hsum : r.count + (ys.map NGram.count).sum < 2 ^ 64) :
    let st2 := (pre ++ r :: ys).foldl (fun s g => runBody kBOS counts_threshold_ g s)
      (runInit kUNK kBOS N)
    let s := st2.streams.getD (k - 1) default
    let s1 := (runBody kBOS counts_threshold_ z st2).streams.getD (k - 1) default
    (s1.written = if counts_threshold_.getD (k - 1) 0 < r.count + (ys.map NGram.count).sum
        then s.written ++ [s.cur] else s.written) ∧
    (s1.dropped = if counts_threshold_.getD (k - 1) 0 < r.count + (ys.map NGram.count).sum
        then s.dropped else s.dropped ++ [s.cur]) := by
  intro st2 s s1
  have hst2 : st2 = ys.foldl (fun s g => runBody kBOS counts_threshold_ g s)
      (runBody kBOS counts_threshold_ r (pre.foldl
        (fun s g => runBody kBOS counts_threshold_ g s) (runInit kUNK kBOS N))) := by
    simp [st2, List.foldl_append]
  have hsh0 := foldl_runBody_shape kBOS counts_threshold_ pre _ N (runInit_shape kUNK kBOS N)
  have hsh2 : st2.Shape N :=
    foldl_runBody_shape kBOS counts_threshold_ _ _ N (runInit_shape kUNK kBOS N)
  have hclose2 : sameAt st2 z < k := hclose
  have hvalid2 : k ≤ st2.lower_valid := hvalid
  clear_value st2
  obtain ⟨_, r2, _, _⟩ := runBody_effect kBOS counts_threshold_ r
    (pre.foldl (fun s g => runBody kBOS counts_threshold_ g s) (runInit kUNK kBOS N))
  have hr : (runBody kBOS counts_threshold_ r (pre.foldl
      (fun s g => runBody kBOS counts_threshold_ g s)
      (runInit kUNK kBOS N))).lower_counts.getD (k - 1) 0 = r.count := by
    rw [r2, updateLowerCounts_getD _ _ _ _ _ (by rw [hsh0.2.2.1]; omega), if_pos (by omega)]
  have hlc : st2.lower_counts.getD (k - 1) 0 = r.count + (ys.map NGram.count).sum := by
    rw [hst2, lower_counts_staysOpen kBOS counts_threshold_ k ys _ hstay (by omega)
      (by rw [r2, updateLowerCounts_length, hsh0.2.2.1]; omega) (by rw [hr]; exact hsum), hr]
  obtain ⟨_, _, _, z4⟩ := runBody_effect kBOS counts_threshold_ z st2
  obtain ⟨_, zw, zd⟩ := z4 (k - 1)
  have hcond : sameAt st2 z ≤ k - 1 ∧ k - 1 < st2.lower_valid ∧ k - 1 < st2.streams.length := by
    refine ⟨by omega, by omega, ?_⟩
    rw [hsh2.1]; omega
  rw [if_pos hcond] at zw zd
  have hord : s.order = k := by
    have := hsh2.2.1 (k - 1) (by omega)
    show (st2.streams.getD (k - 1) default).order = k
    omega
  show ((runBody kBOS counts_threshold_ z st2).streams.getD (k - 1) default).written = _ ∧
    ((runBody kBOS counts_threshold_ z st2).streams.getD (k - 1) default).dropped = _
  rw [zw, zd]
  show (closeStream counts_threshold_ st2.lower_counts s).written = _ ∧
    (closeStream counts_threshold_ st2.lower_counts s).dropped = _
  unfold closeStream
  rw [hord, hlc]
  by_cases hgt : counts_threshold_.getD (k - 1) 0 < r.count + (ys.map NGram.count).sum
  · rw [if_pos (Or.inr (Or.inr hgt)), if_pos hgt, if_pos hgt]
    exact ⟨rfl, rfl⟩
  · rw [if_neg (by
      rintro (h | h | h)
      · omega
      · exact ht h
      · exact hgt h), if_neg hgt, if_neg hgt]
    exact ⟨rfl, rfl⟩

/-- Witness of `close_out_uses_running_sum`: with thresholds `[0, 1, 0]` the bigram
`(6, 7)`, opened by `(5, 6, 7)` with count 5, kept open by `(8, 6, 7)` with count 1 and
closed by `(5, 6, 8)`, has running sum 6. -/
theorem close_out_uses_running_sum_witness :
    ((runBody 1 [0, 1, 0] (trig 5 6 8 2)
        (([] ++ trig 5 6 7 5 :: [trig 8 6 7 1]).foldl (fun s g => runBody 1 [0, 1, 0] g s)
          (runInit 0 1 3))).streams.getD (2 - 1) default).written =
      if ([0, 1, 0] : List Nat).getD (2 - 1) 0
          < (trig 5 6 7 5).count + ([trig 8 6 7 1].map NGram.count).sum then
        ((([] ++ trig 5 6 7 5 :: [trig 8 6 7 1]).foldl (fun s g => runBody 1 [0, 1, 0] g s)
          (runInit 0 1 3)).streams.getD (2 - 1) default).written ++
        [((([] ++ trig 5 6 7 5 :: [trig 8 6 7 1]).foldl (fun s g => runBody 1 [0, 1, 0] g s)
          (runInit 0 1 3)).streams.getD (2 - 1) default).cur]
      else
        ((([] ++ trig 5 6 7 5 :: [trig 8 6 7 1]).foldl (fun s g => runBody 1 [0, 1, 0] g s)
          (runInit 0 1 3)).streams.getD (2 - 1) default).written :=
  (close_out_uses_running_sum 0 1 [0, 1, 0] 3 [] (trig 5 6 7 5) [trig 8 6 7 1] (trig 5 6 8 2) 2
    (by decide) (by decide) (by decide) (by decide) (by simp only [staysOpen]; decide)
    (by decide) (by decide) (by decide)).1

/-! ## Theorems: count bookkeeping -/

theorem closeStream_cases (thr lc : List Nat) (s : NGramStream) :
    (closeStream thr lc s = s.next ∧
        (s.order = 1 ∨ thr.getD (s.order - 1) 0 = 0
          ∨ lc.getD (s.order - 1) 0 > thr.getD (s.order - 1) 0)) ∨
      (closeStream thr lc s = s.abandon ∧
        ¬ (s.order = 1 ∨ thr.getD (s.order - 1) 0 = 0
          ∨ lc.getD (s.order - 1) 0 > thr.getD (s.order - 1) 0)) := by
  unfold closeStream
  split_ifs with h
  · exact Or.inl ⟨rfl, h⟩
  · exact Or.inr ⟨rfl, h⟩

theorem countInv_update (N : Nat) (st : RunState) (j : Nat) (s1 : NGramStream) (c : Nat)
    (p : Bool) (lv : Nat) (lc : List Nat) (h : CountInv N st)
    (hs : st.streams.length = N - 1) (ht : st.stats.length = N)
    (hs1 : (s1 = (st.streams.getD j default).next ∧ p = false) ∨
      (s1 = (st.streams.getD j default).abandon ∧ p = true)) :
    CountInv N { streams := st.streams.set j s1, lower_valid := lv, lower_counts := lc,
                 stats := st.stats.Add j c p } := by
  intro i hi
  obtain ⟨h1, h2⟩ := h i hi
  simp only [getD_set_eq, Add_getD]
  by_cases hji : j = i
  · subst hji
    rw [if_pos ⟨rfl, by omega⟩, if_pos ⟨rfl, by omega⟩]
    rcases hs1 with ⟨rfl, rfl⟩ | ⟨rfl, rfl⟩
    · simp only [OrderStat.bump, NGramStream.next, List.length_append, List.length_singleton,
        Bool.false_eq_true, if_false]
      omega
    · simp only [OrderStat.bump, NGramStream.abandon, List.length_append, List.length_singleton,
        if_true]
      omega
  · rw [if_neg (by tauto), if_neg (by tauto)]
    exact ⟨h1, h2⟩

theorem next_written_ne (s : NGramStream) : s.next.written ≠ s.written := by
  intro h
  have := congrArg List.length h
  simp [NGramStream.next] at this

theorem closeBody_countInv (N : Nat) (thr : List Nat) (j : Nat) (st : RunState)
    (h : CountInv N st) (hs : st.streams.length = N - 1) (ht : st.stats.length = N) :
    CountInv N (closeBody thr j st) := by
  rw [closeBody_eq]
  refine countInv_update N st j _ _ _ _ _ h hs ht ?_
  rcases closeStream_cases thr st.lower_counts (st.streams.getD j default) with ⟨h1, _⟩ | ⟨h1, _⟩
  · left
    rw [h1]
    exact ⟨rfl, decide_eq_false (next_written_ne _)⟩
  · right
    rw [h1]
    exact ⟨rfl, decide_eq_true rfl⟩

theorem closeLoop_countInv (N : Nat) (thr : List Nat) (same lv : Nat) (st : RunState)
    (h : CountInv N st) (hs : st.streams.length = N - 1) (ht : st.stats.length = N) :
    CountInv N (closeLoop thr same lv st) := by
  induction lv generalizing st with
  | zero => exact h
  | succ lv ih =>
    unfold closeLoop
    split_ifs with hc
    · refine ih _ (closeBody_countInv N thr lv st h hs ht) ?_ ?_
      · rw [closeBody_eq]; simpa using hs
      · rw [closeBody_eq]; simpa [Add_length] using ht
    · exact h

theorem countInv_of_sameLogs (N : Nat) (st st1 : RunState) (h : CountInv N st)
    (hl : SameLogs st st1) : CountInv N st1 := by
  intro i hi
  obtain ⟨h1, h2⟩ := h i hi
  obtain ⟨w, d, _⟩ := hl.2.1 i
  rw [hl.2.2.1, w, d]
  exact ⟨h1, h2⟩

theorem runBody_countInv (kBOS : WordIndex) (thr : List Nat) (g : NGram) (st : RunState)
    (N : Nat) (h : CountInv N st) (hsh : st.Shape N) (hN : 1 ≤ N) :
    CountInv N (runBody kBOS thr g st) := by
  rw [runBody_eq]
  obtain ⟨hs, _, _, ht⟩ := hsh
  have hinc := afterIncrement_logs (sameAt st g) st
  have h1 := countInv_of_sameLogs N _ _ h hinc
  have h2 := closeLoop_countInv N thr (sameAt st g) (afterIncrement (sameAt st g) st).lower_valid
    _ h1 (by rw [hinc.1]; exact hs) (by rw [hinc.2.2.1]; exact ht)
  have h3 : CountInv N (afterClose thr g st) := h2
  have hlen3 : (afterClose thr g st).stats.length = N := by
    simp only [afterClose, closeLoop_stats_length]
    rw [hinc.2.2.1]; exact ht
  obtain ⟨st1, hlog, hstr, _, _, hstat⟩ := openPhase_streams kBOS thr g
    (FindDifference g (st.streams.getD (st.lower_valid - 1) default).cur).toNat
    (afterClose thr g st)
  have h4 := countInv_of_sameLogs N _ _ h3 hlog
  intro i hi
  obtain ⟨a, b⟩ := h4 i hi
  rw [hstr, hstat i (by omega), ← hlog.2.2.1]
  exact ⟨a, b⟩

theorem foldl_runBody_countInv (kBOS : WordIndex) (thr : List Nat) (l : List NGram)
    (st : RunState) (N : Nat) (h : CountInv N st) (hsh : st.Shape N) (hN : 1 ≤ N) :
    CountInv N (l.foldl (fun s g => runBody kBOS thr g s) st) := by
  induction l generalizing st with
  | nil => exact h
  | cons g gs ih =>
    exact ih _ (runBody_countInv kBOS thr g st N h hsh hN) (runBody_shape kBOS thr g st N hsh)

theorem flushBody_countInv (N : Nat) (thr : List Nat) (j : Nat) (st : RunState)
    (h : CountInv N st) (hs : st.streams.length = N - 1) (ht : st.stats.length = N) :
    CountInv N (flushBody thr st j) ∧ (flushBody thr st j).streams.length = N - 1 ∧
      (flushBody thr st j).stats.length = N ∧
      (flushBody thr st j).lower_valid = st.lower_valid := by
  unfold flushBody
  refine ⟨?_, by simpa using hs, by simpa [Add_length] using ht, rfl⟩
  simp only
  generalize (if thr.getD ((st.streams.getD j default).order - 1) 0 ≠ 0 then
    decide ((st.streams.getD j default).cur.count
      ≤ thr.getD ((st.streams.getD j default).order - 1) 0) else false) = p
  refine countInv_update N st j _ _ _ _ _ h hs ht ?_
  cases p
  · left; exact ⟨rfl, rfl⟩
  · right; exact ⟨rfl, rfl⟩

theorem flushFold_countInv (N : Nat) (thr : List Nat) (js : List Nat) (st : RunState)
    (h : CountInv N st) (hs : st.streams.length = N - 1) (ht : st.stats.length = N) :
    CountInv N (js.foldl (flushBody thr) st) ∧
      (js.foldl (flushBody thr) st).streams.length = N - 1 ∧
      (js.foldl (flushBody thr) st).stats.length = N := by
  induction js generalizing st with
  | nil => exact ⟨h, hs, ht⟩
  | cons j js ih =>
    obtain ⟨a, b, c, _⟩ := flushBody_countInv N thr j st h hs ht
    exact ih _ a b c

theorem runInit_countInv (kUNK kBOS : WordIndex) (N : Nat) : CountInv N (runInit kUNK kBOS N) := by
  intro i hi
  have hget : ∀ j, j < N - 1 →
      (NGramStreams.Init (N - 1)).getD j default
        = ⟨j + 1, [], ⟨List.replicate (j + 1) 0, 0⟩, []⟩ := by
    intro j hj
    simp [NGramStreams.Init, List.getD_eq_getElem?_getD, hj]
  have hst : ∀ j, j < N → (StatCollector.init N).getD j OrderStat.zero = OrderStat.zero := by
    intro j hj
    simp [StatCollector.init, List.getD_eq_getElem?_getD, List.getElem?_replicate, hj]
  simp only [runInit, getD_set_eq, Add_getD]
  by_cases h0 : 0 = i
  · subst h0
    rw [if_pos ⟨rfl, by simp [StatCollector.init]; omega⟩,
      if_pos ⟨rfl, by simp [NGramStreams.Init]; omega⟩, hst 0 (by omega), hget 0 hi]
    simp [OrderStat.bump, OrderStat.zero, NGramStream.next]
  · rw [if_neg (by tauto), if_neg (by tauto), hst i (by omega), hget i hi]
    simp [OrderStat.zero]

/-! ## Theorems: a concrete run -/

set_option maxRecDepth 100000 in
theorem sample_core :
    (runCore 0 1 [0, 1, 0] 3 sample).2.stats =
      [⟨[2, 1, 1, 1, 0], 5, 5⟩, ⟨[0, 4, 1, 1, 0], 6, 4⟩, ⟨[0, 3, 3, 3, 0], 9, 9⟩] ∧
    (runCore 0 1 [0, 1, 0] 3 sample).2.streams.map NGramStream.written = sampleOut.lower ∧
    (runCore 0 1 [0, 1, 0] 3 sample).1.released = sample := by
  decide

set_option maxRecDepth 1000000 in
theorem sample_discounts :
    StatCollector.CalculateDiscounts
      [⟨[2, 1, 1, 1, 0], 5, 5⟩, ⟨[0, 4, 1, 1, 0], 6, 4⟩, ⟨[0, 3, 3, 3, 0], 9, 9⟩] =
    .ok ⟨[5, 6, 9], [5, 4, 9], sampleOut.discounts⟩ := by
  rfl

theorem sample_run : Run 0 1 [0, 1, 0] 3 sample = .ok sampleOut := by
  unfold Run
  rw [if_neg (by decide)]
  simp only
  rw [sample_core.1, sample_discounts]
  simp only
  rw [sample_core.2.1, sample_core.2.2]
  rfl

theorem calcFrom_ok (l : List OrderStat) (i : Nat) (o r : DiscountOutput)
    (h : calcFrom i l o = .ok r) :
    r.counts = o.counts ++ l.map OrderStat.count ∧
      r.counts_pruned = o.counts_pruned ++ l.map OrderStat.count_pruned := by
  induction l generalizing i o with
  | nil =>
    simp only [calcFrom, Except.ok.injEq] at h
    subst h
    simp
  | cons s rest ih =>
    simp only [calcFrom] at h
    cases hc : calcOrder i s with
    | error e => rw [hc] at h; cases h
    | ok d =>
      rw [hc] at h
      obtain ⟨h1, h2⟩ := ih _ _ h
      simp [h1, h2]

/-- State at the end of the general case satisfies the bookkeeping invariant. -/
theorem runCore_countInv (kUNK kBOS : WordIndex) (thr : List Nat) (N : Nat)
    (blocks : List Block) (hN : 1 ≤ N) :
    CountInv N (runCore kUNK kBOS thr N blocks).2 ∧
      (runCore kUNK kBOS thr N blocks).2.streams.length = N - 1 ∧
      (runCore kUNK kBOS thr N blocks).2.stats.length = N := by
  rw [runCore_snd]
  have hsh := foldl_runBody_shape kBOS thr blocks.flatten _ N (runInit_shape kUNK kBOS N)
  have hci := foldl_runBody_countInv kBOS thr blocks.flatten _ N (runInit_countInv kUNK kBOS N)
    (runInit_shape kUNK kBOS N) hN
  exact flushFold_countInv N thr _ _ hci hsh.1 hsh.2.2.2

/-- C8: after `Run` with `N ≥ 2`, for every lower order `k < N`, `count_pruned[k-1]` is
the number of records written to the order-`k` stream, and `count[k-1]` exceeds it by
the number of order-`k` records that were opened and then dropped by pruning. -/
theorem Run_count_bookkeeping (kUNK kBOS : WordIndex) (counts_threshold_ : List Nat) (N : Nat)
    (blocks : List Block) (out : RunOutput) (k : Nat) (hN : 2 ≤ N) (hk : 1 ≤ k) (hkN : k < N)
    (hrun : Run kUNK kBOS counts_threshold_ N blocks = .ok out) :
    out.counts_pruned.getD (k - 1) 0 = (out.lower.getD (k - 1) []).length ∧
    out.counts.getD (k - 1) 0 =
      out.counts_pruned.getD (k - 1) 0 +
        ((runCore kUNK kBOS counts_threshold_ N blocks).2.streams.getD (k - 1)
          default).dropped.length := by
  obtain ⟨hci, hs, ht⟩ := runCore_countInv kUNK kBOS counts_threshold_ N blocks (by omega)
  unfold Run at hrun
  rw [if_neg (by omega)] at hrun
  simp only at hrun
  cases hd : (runCore kUNK kBOS counts_threshold_ N blocks).2.stats.CalculateDiscounts with
  | error e => rw [hd] at hrun; cases hrun
  | ok d =>
    rw [hd] at hrun
    simp only [Except.ok.injEq] at hrun
    subst hrun
    obtain ⟨c1, c2⟩ := calcFrom_ok _ _ _ _ hd
    simp only [List.nil_append] at c1 c2
    obtain ⟨i1, i2⟩ := hci (k - 1) (by omega)
    have e1 : ∀ (f : OrderStat → Nat), f OrderStat.zero = 0 →
        ((runCore kUNK kBOS counts_threshold_ N blocks).2.stats.map f).getD (k - 1) 0
          = f ((runCore kUNK kBOS counts_threshold_ N blocks).2.stats.getD (k - 1)
              OrderStat.zero) := by
      intro f _
      simp only [List.getD_eq_getElem?_getD, List.getElem?_map]
      rw [List.getElem?_eq_getElem (by omega)]
      rfl
    have e2 : ((runCore kUNK kBOS counts_threshold_ N blocks).2.streams.map
        NGramStream.written).getD (k - 1) [] =
        ((runCore kUNK kBOS counts_threshold_ N blocks).2.streams.getD (k - 1) default).written
        := by
      simp only [List.getD_eq_getElem?_getD, List.getElem?_map]
      rw [List.getElem?_eq_getElem (by omega)]
      rfl
    simp only [c1, c2, e1 OrderStat.count rfl, e1 OrderStat.count_pruned rfl, e2]
    omega

/-- Witness of `Run_count_bookkeeping`: the run on `sample` with thresholds `[0, 1, 0]`,
order 2. -/
theorem Run_count_bookkeeping_witness :
    sampleOut.counts_pruned.getD (2 - 1) 0 = (sampleOut.lower.getD (2 - 1) []).length ∧
    sampleOut.counts.getD (2 - 1) 0 =
      sampleOut.counts_pruned.getD (2 - 1) 0 +
        ((runCore 0 1 [0, 1, 0] 3 sample).2.streams.getD (2 - 1) default).dropped.length :=
  Run_count_bookkeeping 0 1 [0, 1, 0] 3 sample sampleOut 2 (by decide) (by decide) (by decide)
    sample_run

/-! ## Theorems: the final loop -/

set_option maxRecDepth 100000 in
theorem sample2_core :
    (runCore 0 1 [1, 0] 2 sample2).2.stats =
      [⟨[2, 1, 1, 1, 0], 5, 4⟩, ⟨[0, 2, 2, 2, 0], 6, 6⟩] ∧
    (runCore 0 1 [1, 0] 2 sample2).2.streams.map NGramStream.written = sample2Out.lower ∧
    (runCore 0 1 [1, 0] 2 sample2).1.released = sample2 := by
  decide

set_option maxRecDepth 1000000 in
theorem sample2_discounts :
    StatCollector.CalculateDiscounts
      [⟨[2, 1, 1, 1, 0], 5, 4⟩, ⟨[0, 2, 2, 2, 0], 6, 6⟩] =
    .ok ⟨[5, 6], [4, 6], sample2Out.discounts⟩ := by
  rfl

theorem sample2_run : Run 0 1 [1, 0] 2 sample2 = .ok sample2Out := by
  unfold Run
  rw [if_neg (by decide)]
  simp only
  rw [sample2_core.1, sample2_discounts]
  simp only
  rw [sample2_core.2.1, sample2_core.2.2]
  rfl

set_option maxRecDepth 100000 in
theorem sample2_dropped :
    ((runCore 0 1 [1, 0] 2 sample2).2.streams.getD 0 default).dropped = [⟨[13], 1⟩] ∧
    ((runCore 0 1 [1, 0] 2 sample2).2.streams.getD 0 default).order = 1 := by
  decide

/-- C6 does not hold of the code: on the six bigrams of `sample2` with order-1
threshold 1 the run completes, the unigram `13` (continuation count 1), still open at
the end of the input, is dropped by the final loop instead of being written, and
`count_pruned[0] = 4` differs from `count[0] = 5`. -/
theorem final_loop_prunes_open_unigram :
    Run 0 1 [1, 0] 2 sample2 = .ok sample2Out ∧
    (⟨[13], 1⟩ : NGram) ∉ sample2Out.lower.getD 0 [] ∧
    ((runCore 0 1 [1, 0] 2 sample2).2.streams.getD 0 default).dropped = [⟨[13], 1⟩] ∧
    sample2Out.counts.getD 0 0 = 5 ∧ sample2Out.counts_pruned.getD 0 0 = 4 :=
  ⟨sample2_run, by decide, sample2_dropped.1, by decide, by decide⟩

set_option maxRecDepth 100000 in
theorem sample_open_bigram :
    (sample.flatten.foldl (fun s g => runBody 1 [0, 1, 0] g s) (runInit 0 1 3)).lower_valid = 2 ∧
    ((sample.flatten.foldl (fun s g => runBody 1 [0, 1, 0] g s) (runInit 0 1 3)).streams.getD 1
      default).cur = big 22 12 1 ∧
    (sample.flatten.foldl (fun s g => runBody 1 [0, 1, 0] g s)
      (runInit 0 1 3)).lower_counts.getD 1 0 = 2 ∧
    ((closeBody [0, 1, 0] 1 (sample.flatten.foldl (fun s g => runBody 1 [0, 1, 0] g s)
      (runInit 0 1 3))).streams.getD 1 default).written
      = [big 20 10 1, big 20 11 2, big 21 11 1, big 20 12 3, big 22 12 1] ∧
    ((runCore 0 1 [0, 1, 0] 3 sample).2.streams.getD 1 default).dropped
      = [big 21 12 1, big 22 12 1] := by
  decide

/-- C5 does not hold of the code: on `sample` with thresholds `[0, 1, 0]` the run
completes; when the input ends the bigram `(22, 12)` is open with running sum 2, above
its threshold 1, so the rule of the close-out loop writes it (fourth conjunct), yet
the final loop compares its stored count 1 with the threshold and drops it. -/
theorem final_loop_ignores_running_sum :
    Run 0 1 [0, 1, 0] 3 sample = .ok sampleOut ∧
    ((sample.flatten.foldl (fun s g => runBody 1 [0, 1, 0] g s) (runInit 0 1 3)).streams.getD 1
      default).cur = big 22 12 1 ∧
    (sample.flatten.foldl (fun s g => runBody 1 [0, 1, 0] g s)
      (runInit 0 1 3)).lower_counts.getD 1 0 = 2 ∧
    ((closeBody [0, 1, 0] 1 (sample.flatten.foldl (fun s g => runBody 1 [0, 1, 0] g s)
      (runInit 0 1 3))).streams.getD 1 default).written
      = [big 20 10 1, big 20 11 2, big 21 11 1, big 20 12 3, big 22 12 1] ∧
    big 22 12 1 ∉ sampleOut.lower.getD 1 [] ∧
    ((runCore 0 1 [0, 1, 0] 3 sample).2.streams.getD 1 default).dropped
      = [big 21 12 1, big 22 12 1] :=
  ⟨sample_run, sample_open_bigram.2.1, sample_open_bigram.2.2.1, sample_open_bigram.2.2.2.1,
    by decide, sample_open_bigram.2.2.2.2⟩

/-- C7 fails as stated: on `sample` with thresholds `[0, 1, 0]` the run completes and
the order-2 stream retains the bigram `(20, 10)` with stored count 1, which does not
exceed the nonzero threshold 1 of order 2. -/
theorem retained_bigram_not_above_threshold :
    Run 0 1 [0, 1, 0] 3 sample = .ok sampleOut ∧
    big 20 10 1 ∈ sampleOut.lower.getD (2 - 1) [] ∧
    ¬ ((big 20 10 1).count > ([0, 1, 0] : List Nat).getD (2 - 1) 0) ∧
    ([0, 1, 0] : List Nat).getD (2 - 1) 0 ≠ 0 ∧ 2 ≠ 1 :=
  ⟨sample_run, by decide, by decide, by decide, by decide⟩

theorem forall2_mem_left {α β : Type} (R : α → β → Prop) (l1 : List α) (l2 : List β)
    (h : List.Forall₂ R l1 l2) (a : α) (ha : a ∈ l1) : ∃ b, b ∈ l2 ∧ R a b := by
  induction h with
  | nil => simp at ha
  | cons hab _ ih =>
    rcases List.mem_cons.mp ha with rfl | ha
    · exact ⟨_, List.mem_cons_self _ _, hab⟩
    · obtain ⟨b, hb, hr⟩ := ih ha
      exact ⟨b, List.mem_cons_of_mem _ hb, hr⟩

theorem flushBody_stream (thr : List Nat) (st : RunState) (i j : Nat) :
    (flushBody thr st i).streams.length = st.streams.length ∧
    ((flushBody thr st i).streams.getD j default).order = (st.streams.getD j default).order ∧
    (((flushBody thr st i).streams.getD j default).written = (st.streams.getD j default).written
      ∨ (((flushBody thr st i).streams.getD j default).written
          = (st.streams.getD j default).written ++ [(st.streams.getD j default).cur] ∧
        (thr.getD ((st.streams.getD j default).order - 1) 0 = 0 ∨
          (st.streams.getD j default).cur.count
            > thr.getD ((st.streams.getD j default).order - 1) 0))) := by
  unfold flushBody
  simp only [List.length_set, getD_set_eq, true_and]
  by_cases hij : i = j ∧ j < st.streams.length
  · obtain ⟨rfl, _⟩ := hij
    rw [if_pos ⟨rfl, by assumption⟩]
    by_cases ht : thr.getD ((st.streams.getD i default).order - 1) 0 ≠ 0
    · rw [if_pos ht]
      by_cases hc : (st.streams.getD i default).cur.count
          ≤ thr.getD ((st.streams.getD i default).order - 1) 0
      · rw [decide_eq_true hc, if_pos rfl]
        exact ⟨rfl, Or.inl rfl⟩
      · rw [decide_eq_false hc, if_neg (by simp)]
        exact ⟨rfl, Or.inr ⟨rfl, Or.inr (by omega)⟩⟩
    · rw [if_neg ht, if_neg (by simp)]
      exact ⟨rfl, Or.inr ⟨rfl, Or.inl (by simpa using ht)⟩⟩
  · rw [if_neg hij]
    exact ⟨rfl, Or.inl rfl⟩

theorem flushFold_written (thr : List Nat) (js : List Nat) (st : RunState) (j : Nat) :
    ((js.foldl (flushBody thr) st).streams.getD j default).order
      = (st.streams.getD j default).order ∧
    ∃ extra, ((js.foldl (flushBody thr) st).streams.getD j default).written
        = (st.streams.getD j default).written ++ extra ∧
      ∀ g ∈ extra, thr.getD ((st.streams.getD j default).order - 1) 0 = 0 ∨
        g.count > thr.getD ((st.streams.getD j default).order - 1) 0 := by
  induction js generalizing st with
  | nil => exact ⟨rfl, [], by simp, by simp⟩
  | cons i js ih =>
    obtain ⟨_, ho, hw⟩ := flushBody_stream thr st i j
    obtain ⟨ho2, extra, he, hx⟩ := ih (flushBody thr st i)
    simp only [List.foldl_cons]
    rw [ho] at ho2 hx
    refine ⟨ho2, ?_⟩
    rcases hw with hw | ⟨hw, hc⟩
    · exact ⟨extra, by rw [he, hw], hx⟩
    · refine ⟨(st.streams.getD j default).cur :: extra, by rw [he, hw]; simp, ?_⟩
      intro g hg
      rcases List.mem_cons.mp hg with rfl | hg
      · exact hc
      · exact hx g hg

/-- C7, as the code has it.  (1) Every record retained in a block of the highest-order
stream has a count above that order's threshold, unless the threshold is 0.  (2) For a
lower order `k`, every record written by the final loop has a stored count above the
threshold of order `k`, unless that threshold is 0.  (3) In a round of the main loop
the order-`k` stream either is left as it is or receives the record under its cursor,
and then `k = 1`, or the threshold is 0, or the running sum `lower_counts[k-1]` of
highest-order counts, not the stored count, exceeds the threshold. -/
theorem retained_records (kUNK kBOS : WordIndex) (counts_threshold_ : List Nat) (N : Nat)
    (blocks : List Block) :
    (∀ b ∈ (runCore kUNK kBOS counts_threshold_ N blocks).1.released, ∀ g ∈ b,
      counts_threshold_.getD (N - 1) 0 = 0 ∨ g.count > counts_threshold_.getD (N - 1) 0) ∧
    (∀ k, 1 ≤ k → k < N →
      ∃ extra,
        ((runCore kUNK kBOS counts_threshold_ N blocks).2.streams.getD (k - 1) default).written
          = ((blocks.flatten.foldl (fun s g => runBody kBOS counts_threshold_ g s)
              (runInit kUNK kBOS N)).streams.getD (k - 1) default).written ++ extra ∧
        ∀ g ∈ extra, counts_threshold_.getD (k - 1) 0 = 0 ∨
          g.count > counts_threshold_.getD (k - 1) 0) ∧
    (∀ (pre : List NGram) (z : NGram) (k : Nat), 1 ≤ k → k < N →
      ((runBody kBOS counts_threshold_ z (pre.foldl (fun s g => runBody kBOS counts_threshold_ g s)
          (runInit kUNK kBOS N))).streams.getD (k - 1) default).written
        = ((pre.foldl (fun s g => runBody kBOS counts_threshold_ g s)
            (runInit kUNK kBOS N)).streams.getD (k - 1) default).written ∨
      (((runBody kBOS counts_threshold_ z (pre.foldl
          (fun s g => runBody kBOS counts_threshold_ g s)
          (runInit kUNK kBOS N))).streams.getD (k - 1) default).written
        = ((pre.foldl (fun s g => runBody kBOS counts_threshold_ g s)
            (runInit kUNK kBOS N)).streams.getD (k - 1) default).written
          ++ [((pre.foldl (fun s g => runBody kBOS counts_threshold_ g s)
            (runInit kUNK kBOS N)).streams.getD (k - 1) default).cur] ∧
        (k = 1 ∨ counts_threshold_.getD (k - 1) 0 = 0 ∨
          (pre.foldl (fun s g => runBody kBOS counts_threshold_ g s)
            (runInit kUNK kBOS N)).lower_counts.getD (k - 1) 0
            > counts_threshold_.getD (k - 1) 0))) := by
  refine ⟨?_, ?_, ?_⟩
  · intro b hb g hg
    have hfst : (runCore kUNK kBOS counts_threshold_ N blocks).1 =
        CollapseStream.advance kBOS (totalRecords blocks)
          (CollapseStream.init kBOS N counts_threshold_ blocks) := by
      unfold runCore
      simp only
      rw [mainLoop_fst]
    rw [hfst] at hb
    have hinit := init_inv kBOS counts_threshold_ N blocks
    have hadv := advance_inv kBOS counts_threshold_ N blocks (totalRecords blocks) _
      hinit.1 hinit.2
    obtain ⟨_, _, h⟩ := hadv.1
    have hnone : (CollapseStream.advance kBOS (totalRecords blocks)
        (CollapseStream.init kBOS N counts_threshold_ blocks)).block_ = none := by
      have := hadv.2
      simp only [CollapseStream.valid] at this
      cases hb : (CollapseStream.advance kBOS (totalRecords blocks)
        (CollapseStream.init kBOS N counts_threshold_ blocks)).block_ with
      | none => rfl
      | some b => rw [hb] at this; simp at this
    rw [hnone] at h
    obtain ⟨_, hall⟩ := h
    obtain ⟨orig, _, hperm⟩ := forall2_mem_left _ _ _ hall b hb
    have hmem := (hperm.mem_iff).mp hg
    have hk := (List.mem_filter.mp hmem).2
    rw [isKept_iff] at hk
    simpa using (of_decide_eq_true hk).2
  · intro k hk hkN
    rw [runCore_snd]
    have hsh := foldl_runBody_shape kBOS counts_threshold_ blocks.flatten _ N
      (runInit_shape kUNK kBOS N)
    obtain ⟨_, extra, he, hx⟩ := flushFold_written counts_threshold_
      (List.range (blocks.flatten.foldl (fun s g => runBody kBOS counts_threshold_ g s)
        (runInit kUNK kBOS N)).lower_valid)
      (blocks.flatten.foldl (fun s g => runBody kBOS counts_threshold_ g s)
        (runInit kUNK kBOS N)) (k - 1)
    have hord := hsh.2.1 (k - 1) (by omega)
    rw [hord] at hx
    exact ⟨extra, he, by simpa using hx⟩
  · intro pre z k hk hkN
    have hsh := foldl_runBody_shape kBOS counts_threshold_ pre _ N (runInit_shape kUNK kBOS N)
    have hord := hsh.2.1 (k - 1) (by omega)
    obtain ⟨_, _, _, e4⟩ := runBody_effect kBOS counts_threshold_ z
      (pre.foldl (fun s g => runBody kBOS counts_threshold_ g s) (runInit kUNK kBOS N))
    obtain ⟨_, ew, _⟩ := e4 (k - 1)
    rw [ew]
    split_ifs with hc
    · rcases closeStream_cases counts_threshold_
        (pre.foldl (fun s g => runBody kBOS counts_threshold_ g s)
          (runInit kUNK kBOS N)).lower_counts
        ((pre.foldl (fun s g => runBody kBOS counts_threshold_ g s)
          (runInit kUNK kBOS N)).streams.getD (k - 1) default) with ⟨h1, h2⟩ | ⟨h1, _⟩
      · right
        rw [h1, hord] at *
        refine ⟨rfl, ?_⟩
        rcases h2 with h2 | h2 | h2
        · left; omega
        · right; left; simpa using h2
        · right; right; simpa using h2
      · left
        rw [h1]; rfl
    · left; rfl

/-! ## Theorems: the opening loop without an embedded begin-of-sentence -/

theorem openAt_stream (full : NGram) (bos count : Nat) (st : RunState) (i : Nat) :
    (openAt full bos count st).streams.getD i default =
      if st.lower_valid = i ∧ i < st.streams.length then
        { st.streams.getD i default with cur := ⟨full.words.drop bos, count⟩ }
      else st.streams.getD i default := by
  unfold openAt
  simp only [getD_set_eq]
  split_ifs with h
  · obtain ⟨rfl, _⟩ := h; rfl
  · rfl

theorem openLoop_clean (kBOS : WordIndex) (full : NGram) (b : Nat) (st : RunState)
    (hb : ∀ p, 1 ≤ p → p ≤ b → full.words.getD p 0 ≠ kBOS) :
    (openLoop kBOS full b st).1 = 0 ∧
    (openLoop kBOS full b st).2.lower_valid = st.lower_valid + b ∧
    (openLoop kBOS full b st).2.stats = st.stats ∧
    (openLoop kBOS full b st).2.streams.length = st.streams.length ∧
    ∀ i, (openLoop kBOS full b st).2.streams.getD i default =
      if st.lower_valid ≤ i ∧ i < st.lower_valid + b ∧ i < st.streams.length then
        { st.streams.getD i default with
          cur := ⟨full.words.drop (b - (i - st.lower_valid)), 1⟩ }
      else st.streams.getD i default := by
  induction b generalizing st with
  | zero =>
    refine ⟨rfl, rfl, rfl, rfl, fun i => ?_⟩
    rw [if_neg (by omega)]
    rfl
  | succ b ih =>
    unfold openLoop
    rw [if_pos (hb (b + 1) (by omega) (by omega))]
    obtain ⟨h1, h2, h3, h4, h5⟩ := ih (openAt full (b + 1) 1 st)
      (fun p hp1 hp2 => hb p hp1 (by omega))
    have hlv : (openAt full (b + 1) 1 st).lower_valid = st.lower_valid + 1 := rfl
    have hlen : (openAt full (b + 1) 1 st).streams.length = st.streams.length := by
      simp [openAt]
    refine ⟨h1, by rw [h2, hlv]; omega, by rw [h3]; rfl, by rw [h4, hlen], fun i => ?_⟩
    rw [h5, hlv, hlen, openAt_stream]
    by_cases hi : st.lower_valid = i ∧ i < st.streams.length
    · obtain ⟨rfl, hl⟩ := hi
      rw [if_neg (by omega), if_pos ⟨rfl, hl⟩, if_pos ⟨le_refl _, by omega, hl⟩]
      simp
    · rw [if_neg hi]
      by_cases hc : st.lower_valid + 1 ≤ i ∧ i < st.lower_valid + 1 + b ∧ i < st.streams.length
      · rw [if_pos hc, if_pos ⟨by omega, by omega, hc.2.2⟩]
        have : b - (i - (st.lower_valid + 1)) = b + 1 - (i - st.lower_valid) := by omega
        rw [this]
      · rw [if_neg hc, if_neg (by omega)]

theorem sameAt_eq_matchBack (st : RunState) (g : NGram) :
    sameAt st g = matchBack g.words.reverse
      (st.streams.getD (st.lower_valid - 1) default).cur.words.reverse := by
  unfold sameAt FindDifference
  omega

theorem different_toNat (st : RunState) (g : NGram) :
    (FindDifference g (st.streams.getD (st.lower_valid - 1) default).cur).toNat
      = g.words.length - 1 - sameAt st g := by
  rw [sameAt_eq_matchBack]
  unfold FindDifference
  omega

theorem getD_zero_of_all_zero (thr : List Nat) (h : ∀ t ∈ thr, t = 0) (i : Nat) :
    thr.getD i 0 = 0 := by
  by_cases hi : i < thr.length
  · rw [List.getD_eq_getElem _ _ hi]
    exact h _ (List.getElem_mem _)
  · rw [List.getD_eq_default _ _ (by omega)]

theorem closeStream_zero (thr lc : List Nat) (s : NGramStream) (h : ∀ t ∈ thr, t = 0) :
    closeStream thr lc s = s.next := by
  unfold closeStream
  rw [if_pos (Or.inr (Or.inl (getD_zero_of_all_zero thr h _)))]

theorem afterIncrement_stream (same : Nat) (st : RunState) (i : Nat) :
    (afterIncrement same st).streams.getD i default =
      if i + 1 = same ∧ i < st.streams.length then
        { st.streams.getD i default with
          cur := { (st.streams.getD i default).cur with
                   count := (st.streams.getD i default).cur.count + 1 } }
      else st.streams.getD i default := by
  unfold afterIncrement
  by_cases h0 : same ≠ 0
  · rw [if_pos h0]
    simp only [getD_set_eq]
    by_cases h : same - 1 = i ∧ i < st.streams.length
    · obtain ⟨rfl, hl⟩ := h
      rw [if_pos ⟨rfl, hl⟩, if_pos ⟨by omega, hl⟩]
    · rw [if_neg h, if_neg (by omega)]
  · rw [if_neg h0, if_neg (by omega)]

/-- One round of the main loop, for a record without begin-of-sentence behind its first
word and with all thresholds zero: every stream from index `same` on is advanced (if it
was open) and receives the matching suffix of the record with count 1, the stream
`same - 1` has its count incremented, and all lower streams are open afterwards. -/
theorem runBody_clean (kBOS : WordIndex) (thr : List Nat) (g : NGram) (st : RunState) (N : Nat)
    (hsh : st.Shape N) (hg : g.words.length = N) (hbos : kBOS ∉ g.words.drop 1)
    (hthr : ∀ t ∈ thr, t = 0) (hm : sameAt st g ≤ st.lower_valid) (hlv : st.lower_valid ≤ N - 1)
    (hN : 2 ≤ N) :
    (runBody kBOS thr g st).lower_valid = N - 1 ∧
    ∀ i, i < N - 1 →
      (runBody kBOS thr g st).streams.getD i default =
        if sameAt st g ≤ i then
          { (if i < st.lower_valid then (st.streams.getD i default).next
              else st.streams.getD i default) with
            cur := ⟨g.words.drop (N - 1 - i), 1⟩ }
        else if i + 1 = sameAt st g then
          { st.streams.getD i default with
            cur := { (st.streams.getD i default).cur with
                     count := (st.streams.getD i default).cur.count + 1 } }
        else st.streams.getD i default := by
  obtain ⟨hs, _, _, _⟩ := hsh
  have hwords : ∀ p, 1 ≤ p → p ≤ N - 1 - sameAt st g → g.words.getD p 0 ≠ kBOS := by
    intro p hp1 hp2 heq
    apply hbos
    have hp : p < g.words.length := by omega
    have h : (g.words.drop 1)[p - 1]? = some kBOS := by
      rw [List.getElem?_drop]
      have e : 1 + (p - 1) = p := by omega
      rw [e, List.getElem?_eq_getElem hp, ← heq, List.getD_eq_getElem _ _ hp]
    exact List.getElem?_mem h
  rw [runBody_eq, different_toNat, hg]
  have hclv : (afterClose thr g st).lower_valid = sameAt st g := by
    simp only [afterClose, closeLoop_lower_valid, afterIncrement_lower_valid]
    omega
  have hclen : (afterClose thr g st).streams.length = N - 1 := by
    simp only [afterClose, closeLoop_streams_length]
    rw [(afterIncrement_logs _ st).1, hs]
  obtain ⟨o1, o2, _, _, o5⟩ := openLoop_clean kBOS g (N - 1 - sameAt st g) (afterClose thr g st)
    hwords
  unfold openPhase
  rw [if_neg (by rw [o1]; simp)]
  simp only
  refine ⟨by rw [o2, hclv]; omega, fun i hi => ?_⟩
  rw [o5, hclv, hclen]
  have hcs : (afterClose thr g st).streams.getD i default =
      if sameAt st g ≤ i ∧ i < st.lower_valid ∧ i < st.streams.length then
        ((afterIncrement (sameAt st g) st).streams.getD i default).next
      else (afterIncrement (sameAt st g) st).streams.getD i default := by
    simp only [afterClose, closeLoop_stream, afterIncrement_lower_valid,
      (afterIncrement_logs _ st).1, closeStream_zero _ _ _ hthr]
  rw [hcs, afterIncrement_stream, hs]
  have hi2 : i < N - 1 := hi
  by_cases hmi : sameAt st g ≤ i
  · have c1 : sameAt st g ≤ i ∧ i < sameAt st g + (N - 1 - sameAt st g) ∧ i < N - 1 :=
      ⟨hmi, by omega, hi⟩
    have c2 : ¬ (i + 1 = sameAt st g ∧ i < N - 1) := by omega
    have e : N - 1 - sameAt st g - (i - sameAt st g) = N - 1 - i := by omega
    rw [if_pos c1, if_pos hmi, if_neg c2, e]
    by_cases hil : i < st.lower_valid
    · have c3 : sameAt st g ≤ i ∧ i < st.lower_valid ∧ i < N - 1 := ⟨hmi, hil, hi⟩
      rw [if_pos c3, if_pos hil]
    · have c3 : ¬ (sameAt st g ≤ i ∧ i < st.lower_valid ∧ i < N - 1) := by tauto
      rw [if_neg c3, if_neg hil]
  · have c1 : ¬ (sameAt st g ≤ i ∧ i < sameAt st g + (N - 1 - sameAt st g) ∧ i < N - 1) := by
      tauto
    have c3 : ¬ (sameAt st g ≤ i ∧ i < st.lower_valid ∧ i < N - 1) := by tauto
    rw [if_neg c1, if_neg c3, if_neg hmi]
    by_cases h1 : i + 1 = sameAt st g
    · have c2 : i + 1 = sameAt st g ∧ i < N - 1 := ⟨h1, hi⟩
      rw [if_pos c2, if_pos h1]
    · have c2 : ¬ (i + 1 = sameAt st g ∧ i < N - 1) := by tauto
      rw [if_neg c2, if_neg h1]

/-! ## Theorems: suffix order and counting -/

theorem lexLess_sandwich (j : Nat) (a b c : List WordIndex) (hab : a.length = b.length)
    (hbc : b.length = c.length) (h1 : lexLess b a = false) (h2 : lexLess c b = false)
    (h : a.take j = c.take j) : b.take j = a.take j := by
  induction j generalizing a b c with
  | zero => simp
  | succ j ih =>
    cases a with
    | nil =>
      have : b = [] := List.eq_nil_of_length_eq_zero hab.symm
      subst this
      rfl
    | cons a0 a1 =>
      cases b with
      | nil => simp at hab
      | cons b0 b1 =>
        cases c with
        | nil => simp at hbc
        | cons c0 c1 =>
          simp only [List.take_succ_cons, List.cons.injEq] at h ⊢
          obtain ⟨h0, ht⟩ := h
          subst h0
          simp only [lexLess, Bool.or_eq_false_iff, decide_eq_false_iff_not, not_lt,
            Bool.and_eq_false_imp, decide_eq_true_eq] at h1 h2
          have hb0 : b0 = a0 := Nat.le_antisymm h2.1 h1.1
          subst hb0
          refine ⟨rfl, ih a1 b1 c1 ?_ ?_ (h1.2 rfl) (h2.2 rfl) ht⟩
          · simpa using hab
          · simpa using hbc

theorem matchBack_take (a b : List WordIndex) :
    a.take (matchBack a b) = b.take (matchBack a b) := by
  induction a generalizing b with
  | nil => simp [matchBack]
  | cons a0 a1 ih =>
    cases b with
    | nil => simp [matchBack]
    | cons b0 b1 =>
      unfold matchBack
      split_ifs with h
      · subst h
        simp [ih b1]
      · simp

theorem matchBack_le (a b : List WordIndex) :
    matchBack a b ≤ a.length ∧ matchBack a b ≤ b.length := by
  induction a generalizing b with
  | nil => simp [matchBack]
  | cons a0 a1 ih =>
    cases b with
    | nil => simp [matchBack]
    | cons b0 b1 =>
      unfold matchBack
      split_ifs with h
      · have := ih b1
        simp only [List.length_cons]
        omega
      · simp

theorem matchBack_ge (a b : List WordIndex) (j : Nat) (ha : j ≤ a.length) (hb : j ≤ b.length)
    (h : a.take j = b.take j) : j ≤ matchBack a b := by
  induction a generalizing b j with
  | nil =>
    simp only [List.length_nil, Nat.le_zero] at ha
    omega
  | cons a0 a1 ih =>
    cases j with
    | zero => omega
    | succ j =>
      cases b with
      | nil => simp at hb
      | cons b0 b1 =>
        simp only [List.take_succ_cons, List.cons.injEq] at h
        obtain ⟨h0, ht⟩ := h
        unfold matchBack
        rw [if_pos h0.symm]
        have := ih b1 j (by simpa using ha) (by simpa using hb) ht
        omega

theorem take_eq_of_le_matchBack (a b : List WordIndex) (j : Nat) (h : j ≤ matchBack a b) :
    a.take j = b.take j := by
  have := congrArg (List.take j) (matchBack_take a b)
  simp only [List.take_take] at this
  rwa [Nat.min_eq_left h] at this

theorem suffixOf_reverse (j : Nat) (g : NGram) :
    (suffixOf j g).reverse = g.words.reverse.take j := by
  unfold suffixOf
  rw [List.take_reverse]

theorem suffixOf_eq_iff (j : Nat) (x y : NGram) :
    suffixOf j x = suffixOf j y ↔ x.words.reverse.take j = y.words.reverse.take j := by
  rw [← suffixOf_reverse, ← suffixOf_reverse]
  exact List.reverse_inj.symm

theorem suffixOf_mono (i j : Nat) (x y : NGram) (hij : i ≤ j)
    (h : suffixOf j x = suffixOf j y) : suffixOf i x = suffixOf i y := by
  rw [suffixOf_eq_iff] at h ⊢
  have := congrArg (List.take i) h
  simp only [List.take_take] at this
  rwa [Nat.min_eq_left hij] at this

theorem suffixOf_full (x : NGram) : suffixOf x.words.length x = x.words := by
  simp [suffixOf]

theorem suffixOf_drop_one (k : Nat) (x : NGram) (hk : k + 1 ≤ x.words.length) :
    (suffixOf (k + 1) x).drop 1 = suffixOf k x := by
  unfold suffixOf
  rw [List.drop_drop]
  congr 1
  omega

/-- Records between two records that share their last `j` words share them too. -/
theorem suffix_sandwich (j : Nat) (x l g : NGram) (hxl : x.words.length = l.words.length)
    (hlg : l.words.length = g.words.length) (h1 : SuffixOrder l x = false)
    (h2 : SuffixOrder g l = false) (h : suffixOf j x = suffixOf j g) :
    suffixOf j l = suffixOf j x := by
  rw [suffixOf_eq_iff] at h ⊢
  exact lexLess_sandwich j _ _ _ (by simpa using hxl) (by simpa using hlg) h1 h2 h

theorem extensions_append (k : Nat) (w : List WordIndex) (xs ys : List NGram) :
    extensions k w (xs ++ ys) = extensions k w xs ++ extensions k w ys := by
  simp [extensions, List.filter_append]

theorem mem_extensions (k : Nat) (w s : List WordIndex) (xs : List NGram) :
    s ∈ extensions k w xs ↔ ∃ x ∈ xs, suffixOf (k + 1) x = s ∧ s.drop 1 = w := by
  simp only [extensions, List.mem_filter, List.mem_map, decide_eq_true_eq]
  constructor
  · rintro ⟨⟨x, hx, rfl⟩, h⟩
    exact ⟨x, hx, rfl, h⟩
  · rintro ⟨x, hx, rfl, h⟩
    exact ⟨⟨x, hx, rfl⟩, h⟩

theorem extensions_eq_nil (k : Nat) (w : List WordIndex) (xs : List NGram)
    (hlen : ∀ x ∈ xs, k + 1 ≤ x.words.length) (h : ∀ x ∈ xs, suffixOf k x ≠ w) :
    extensions k w xs = [] := by
  apply List.eq_nil_iff_forall_not_mem.mpr
  intro s hs
  obtain ⟨x, hx, rfl, hd⟩ := (mem_extensions k w s xs).mp hs
  rw [suffixOf_drop_one k x (hlen x hx)] at hd
  exact h x hx hd

theorem extensions_singleton (k : Nat) (g : NGram) (hk : k + 1 ≤ g.words.length) :
    extensions k (suffixOf k g) [g] = [suffixOf (k + 1) g] := by
  unfold extensions
  simp only [List.map_cons, List.map_nil]
  rw [List.filter_cons_of_pos (by simp only [decide_eq_true_eq]; exact suffixOf_drop_one k g hk)]
  rfl

theorem dedup_length_snoc (l : List (List WordIndex)) (a : List WordIndex) :
    (l ++ [a]).dedup.length = if a ∈ l then l.dedup.length else l.dedup.length + 1 := by
  rw [← List.card_toFinset, ← List.card_toFinset, List.toFinset_append]
  have hsing : [a].toFinset = {a} := by simp
  rw [hsing, Finset.union_comm, ← Finset.insert_eq]
  split_ifs with h
  · rw [Finset.insert_eq_of_mem (by simpa using h)]
  · rw [Finset.card_insert_of_not_mem (by simpa using h)]

/-- P1: a record whose `(k+1)`-word suffix was already seen does not change the count. -/
theorem continuationCount_snoc_seen (k : Nat) (xs : List NGram) (g : NGram)
    (hk : k + 1 ≤ g.words.length)
    (hseen : suffixOf (k + 1) g ∈ extensions k (suffixOf k g) xs) :
    continuationCount k (suffixOf k g) (xs ++ [g]) = continuationCount k (suffixOf k g) xs := by
  unfold continuationCount
  rw [extensions_append, extensions_singleton k g hk, dedup_length_snoc, if_pos hseen]

/-- P2: a record with a new `(k+1)`-word suffix adds one to the count. -/
theorem continuationCount_snoc_new (k : Nat) (xs : List NGram) (g : NGram)
    (hk : k + 1 ≤ g.words.length)
    (hnew : suffixOf (k + 1) g ∉ extensions k (suffixOf k g) xs) :
    continuationCount k (suffixOf k g) (xs ++ [g])
      = continuationCount k (suffixOf k g) xs + 1 := by
  unfold continuationCount
  rw [extensions_append, extensions_singleton k g hk, dedup_length_snoc, if_neg hnew]

/-- P3: the first record ending in its `k` words has count 1. -/
theorem continuationCount_snoc_first (k : Nat) (xs : List NGram) (g : NGram)
    (hk : k + 1 ≤ g.words.length) (hlen : ∀ x ∈ xs, k + 1 ≤ x.words.length)
    (hnone : ∀ x ∈ xs, suffixOf k x ≠ suffixOf k g) :
    continuationCount k (suffixOf k g) (xs ++ [g]) = 1 := by
  unfold continuationCount
  rw [extensions_append, extensions_singleton k g hk, extensions_eq_nil k _ xs hlen hnone]
  rfl

/-- P4: records that do not end in `w` do not change the count of `w`. -/
theorem continuationCount_append_none (k : Nat) (w : List WordIndex) (xs ys : List NGram)
    (hlen : ∀ y ∈ ys, k + 1 ≤ y.words.length) (hnone : ∀ y ∈ ys, suffixOf k y ≠ w) :
    continuationCount k w (xs ++ ys) = continuationCount k w xs := by
  unfold continuationCount
  rw [extensions_append, extensions_eq_nil k w ys hlen hnone, List.append_nil]

/-! ## Theorems: continuation counts -/

theorem same_iff (st : RunState) (g l : NGram) (N : Nat)
    (hcur : (st.streams.getD (st.lower_valid - 1) default).cur.words = suffixOf (N - 1) l)
    (hl : l.words.length = N) (hg : g.words.length = N) (hne : l.words ≠ g.words) :
    sameAt st g ≤ N - 1 ∧
      ∀ j, j ≤ N → (suffixOf j g = suffixOf j l ↔ j ≤ sameAt st g) := by
  rw [sameAt_eq_matchBack, hcur, suffixOf_reverse]
  have hb : (l.words.reverse.take (N - 1)).length = N - 1 := by
    simp [hl]
  have ha : g.words.reverse.length = N := by simp [hg]
  have hm := (matchBack_le g.words.reverse (l.words.reverse.take (N - 1))).2
  rw [hb] at hm
  refine ⟨hm, fun j hj => ?_⟩
  rw [suffixOf_eq_iff]
  constructor
  · intro h
    by_cases hjN : j ≤ N - 1
    · apply matchBack_ge _ _ j (by omega) (by omega)
      rw [h, List.take_take, Nat.min_eq_left hjN]
    · exfalso
      have hjeq : j = N := by omega
      subst hjeq
      rw [List.take_of_length_le (by omega), List.take_of_length_le (by simp [hl])] at h
      exact hne (List.reverse_inj.mp h).symm
  · intro h
    rw [take_eq_of_le_matchBack _ _ j h, List.take_take, Nat.min_eq_left (by omega)]

theorem suffixOf_eq_drop (j N : Nat) (g : NGram) (hg : g.words.length = N) :
    suffixOf j g = g.words.drop (N - j) := by
  rw [suffixOf, hg]

theorem contInv_step (kBOS : WordIndex) (thr : List Nat) (N : Nat) (pre : List NGram)
    (l g : NGram) (rest : List NGram) (st : RunState) (hN : 2 ≤ N)
    (hclean : CleanInput kBOS N (pre ++ l :: g :: rest)) (hthr : ∀ t ∈ thr, t = 0)
    (hinv : ContInv N (pre ++ l :: g :: rest) pre l st) :
    ContInv N (pre ++ l :: g :: rest) (pre ++ [l]) g (runBody kBOS thr g st) := by
  obtain ⟨hlen, hsorted, hdist, hbos⟩ := hclean
  obtain ⟨hsh, hlv, hcur, hwr, h2⟩ := hinv
  have hl : l.words.length = N := hlen l (by simp)
  have hg : g.words.length = N := hlen g (by simp)
  have hlenpre : ∀ x ∈ pre ++ [l], x.words.length = N := by
    intro x hx
    apply hlen x
    simp only [List.mem_append, List.mem_singleton, List.mem_cons] at hx ⊢
    tauto
  have hlenrest : ∀ y ∈ g :: rest, y.words.length = N := by
    intro y hy
    apply hlen y
    simp only [List.mem_append, List.mem_cons] at hy ⊢
    tauto
  rw [List.pairwise_append] at hsorted hdist
  obtain ⟨_, hs2, hs3⟩ := hsorted
  obtain ⟨_, hd2, _⟩ := hdist
  rw [List.pairwise_cons] at hs2 hd2
  obtain ⟨hs4, hs5⟩ := hs2
  rw [List.pairwise_cons] at hs5
  have hsort_lg : SuffixOrder g l = false := hs4 g (by simp)
  have hne : l.words ≠ g.words := hd2.1 g (by simp)
  have hcurN := hcur (N - 1) (by omega) (by omega)
  obtain ⟨hm, hiff⟩ := same_iff st g l N
    (by rw [hlv, hcurN]) hl hg hne
  obtain ⟨rlv, rstream⟩ := runBody_clean kBOS thr g st N hsh hg (hbos g (by simp)) hthr
    (by omega) (by omega) hN
  -- the two uses of the suffix order
  have S1 : ∀ j, j ≤ N → ∀ x ∈ pre ++ [l], suffixOf j x = suffixOf j g → j ≤ sameAt st g := by
    intro j hj x hx hxg
    apply (hiff j hj).mp
    rcases List.mem_append.mp hx with hx | hx
    · have := suffix_sandwich j x l g (by rw [hlenpre x (by simp [hx]), hl]) (by rw [hl, hg])
        (hs3 x hx l (by simp)) hsort_lg hxg
      rw [← hxg, this]
    · simp only [List.mem_singleton] at hx
      subst hx
      exact hxg.symm
  have S2 : ∀ j, j ≤ N → ∀ y ∈ g :: rest, suffixOf j y = suffixOf j l → j ≤ sameAt st g := by
    intro j hj y hy hyl
    apply (hiff j hj).mp
    rcases List.mem_cons.mp hy with hy | hy
    · subst hy; exact hyl
    · exact suffix_sandwich j l g y (by rw [hl, hg]) (by rw [hg, hlenrest y (by simp [hy])])
        hsort_lg (hs5.1 y hy) hyl.symm
  refine ⟨runBody_shape kBOS thr g st N hsh, rlv, ?_, ?_, ?_⟩
  · intro j hj1 hjN
    rw [rstream (j - 1) (by omega)]
    have hcj := hcur j hj1 hjN
    by_cases hmj : sameAt st g ≤ j - 1
    · rw [if_pos hmj]
      have e : N - 1 - (j - 1) = N - j := by omega
      simp only [e]
      rw [continuationCount_snoc_first j (pre ++ [l]) g (by omega)
        (fun x hx => by rw [hlenpre x hx]; omega)
        (fun x hx hxg => by have := S1 j (by omega) x hx hxg; omega),
        suffixOf_eq_drop j N g hg]
    · rw [if_neg hmj]
      have hsuf : suffixOf j g = suffixOf j l := (hiff j (by omega)).mpr (by omega)
      by_cases hjm : j - 1 + 1 = sameAt st g
      · rw [if_pos hjm, hcj]
        simp only
        rw [continuationCount_snoc_new j (pre ++ [l]) g (by omega) (by
          intro hmem
          obtain ⟨x, hx, hxs, _⟩ := (mem_extensions _ _ _ _).mp hmem
          have := S1 (j + 1) (by omega) x hx hxs
          omega), hsuf]
      · rw [if_neg hjm, hcj]
        rw [continuationCount_snoc_seen j (pre ++ [l]) g (by omega) (by
          apply (mem_extensions _ _ _ _).mpr
          refine ⟨l, by simp, ((hiff (j + 1) (by omega)).mpr (by omega)).symm, ?_⟩
          exact suffixOf_drop_one j g (by omega)), hsuf]
  · intro j hj1 hjN rec hrec
    rw [rstream (j - 1) (by omega)] at hrec
    by_cases hmj : sameAt st g ≤ j - 1
    · have hjl : j - 1 < st.lower_valid := by omega
      rw [if_pos hmj, if_pos hjl] at hrec
      have hd : (if j = 1 then 2 else 0) ≤ (st.streams.getD (j - 1) default).written.length := by
        split_ifs with h1
        · subst h1; exact h2
        · omega
      simp only [NGramStream.next] at hrec
      rw [List.drop_append_of_le_length hd] at hrec
      rcases List.mem_append.mp hrec with hrec | hrec
      · exact hwr j hj1 hjN rec hrec
      · simp only [List.mem_singleton] at hrec
        rw [hrec, hcur j hj1 hjN]
        simp only
        have hinp : pre ++ l :: g :: rest = (pre ++ [l]) ++ (g :: rest) := by simp
        rw [hinp, continuationCount_append_none j _ (pre ++ [l]) (g :: rest)
          (fun y hy => by rw [hlenrest y hy]; omega)
          (fun y hy hyl => by have := S2 j (by omega) y hy hyl; omega)]
    · rw [if_neg hmj] at hrec
      apply hwr j hj1 hjN rec
      by_cases hjm : j - 1 + 1 = sameAt st g
      · rw [if_pos hjm] at hrec; exact hrec
      · rw [if_neg hjm] at hrec; exact hrec
  · rw [rstream 0 (by omega)]
    by_cases hm0 : sameAt st g ≤ 0
    · have h0l : 0 < st.lower_valid := by omega
      rw [if_pos hm0, if_pos h0l]
      simp only [NGramStream.next, List.length_append, List.length_singleton]
      omega
    · rw [if_neg hm0]
      by_cases hjm : 0 + 1 = sameAt st g
      · rw [if_pos hjm]; exact h2
      · rw [if_neg hjm]; exact h2

theorem runInit_stream (kUNK kBOS : WordIndex) (N i : Nat) (hi : i < N - 1) :
    (runInit kUNK kBOS N).streams.getD i default =
      if i = 0 then ⟨1, [⟨[kUNK], 0⟩], ⟨[kBOS], 0⟩, []⟩
      else ⟨i + 1, [], ⟨List.replicate (i + 1) 0, 0⟩, []⟩ := by
  have hget : ∀ j, j < N - 1 →
      (NGramStreams.Init (N - 1)).getD j default
        = ⟨j + 1, [], ⟨List.replicate (j + 1) 0, 0⟩, []⟩ := by
    intro j hj
    simp [NGramStreams.Init, List.getD_eq_getElem?_getD, hj]
  simp only [runInit, getD_set_eq]
  by_cases h0 : i = 0
  · subst h0
    have hl : 0 < (NGramStreams.Init (N - 1)).length := by simp [NGramStreams.Init]; omega
    rw [if_pos ⟨rfl, hl⟩, if_pos rfl, hget 0 hi]
    rfl
  · rw [if_neg (by omega), if_neg h0, hget i hi]

theorem last_word_in_tail (g : NGram) (c : WordIndex) (cs : List WordIndex)
    (h : g.words.reverse = c :: cs) (hlen : 2 ≤ g.words.length) : c ∈ g.words.drop 1 := by
  have hw : g.words = cs.reverse ++ [c] := by
    have := congrArg List.reverse h
    simpa using this
  rw [hw] at hlen ⊢
  simp only [List.length_append, List.length_reverse, List.length_singleton] at hlen
  rw [List.drop_append_of_le_length (by simp; omega)]
  simp

theorem sameAt_runInit (kUNK kBOS : WordIndex) (N : Nat) (g : NGram) (hN : 2 ≤ N)
    (hg : g.words.length = N) (hbos : kBOS ∉ g.words.drop 1) :
    sameAt (runInit kUNK kBOS N) g = 0 := by
  rw [sameAt_eq_matchBack]
  have hlv : (runInit kUNK kBOS N).lower_valid = 1 := rfl
  rw [hlv, runInit_stream kUNK kBOS N 0 (by omega), if_pos rfl]
  simp only [List.reverse_cons, List.reverse_nil, List.nil_append]
  cases hr : g.words.reverse with
  | nil => rfl
  | cons c cs =>
    unfold matchBack
    rw [if_neg]
    intro hc
    apply hbos
    rw [hc]
    exact last_word_in_tail g c cs hr (by omega)

theorem contInv_first (kUNK kBOS : WordIndex) (thr : List Nat) (N : Nat) (g : NGram)
    (rest : List NGram) (hN : 2 ≤ N) (hclean : CleanInput kBOS N (g :: rest))
    (hthr : ∀ t ∈ thr, t = 0) :
    ContInv N (g :: rest) [] g (runBody kBOS thr g (runInit kUNK kBOS N)) := by
  obtain ⟨hlen, _, _, hbos⟩ := hclean
  have hg : g.words.length = N := hlen g (by simp)
  have hm := sameAt_runInit kUNK kBOS N g hN hg (hbos g (by simp))
  have hlv : (runInit kUNK kBOS N).lower_valid = 1 := rfl
  obtain ⟨rlv, rstream⟩ := runBody_clean kBOS thr g (runInit kUNK kBOS N) N
    (runInit_shape kUNK kBOS N) hg (hbos g (by simp)) hthr (by omega) (by omega) hN
  rw [hm] at rstream
  refine ⟨runBody_shape kBOS thr g _ N (runInit_shape kUNK kBOS N), rlv, ?_, ?_, ?_⟩
  · intro j hj1 hjN
    rw [rstream (j - 1) (by omega), if_pos (Nat.zero_le _)]
    have e : N - 1 - (j - 1) = N - j := by omega
    simp only [e]
    rw [continuationCount_snoc_first j [] g (by omega) (by simp) (by simp),
      suffixOf_eq_drop j N g hg]
  · intro j hj1 hjN rec hrec
    rw [rstream (j - 1) (by omega), if_pos (Nat.zero_le _), hlv,
      runInit_stream kUNK kBOS N (j - 1) (by omega)] at hrec
    by_cases hj : j = 1
    · subst hj
      simp [NGramStream.next] at hrec
    · have h1 : ¬ (j - 1 < 1) := by omega
      have h2 : ¬ (j - 1 = 0) := by omega
      rw [if_neg h1, if_neg h2] at hrec
      simp at hrec
  · rw [rstream 0 (by omega), if_pos (Nat.zero_le _), hlv,
      runInit_stream kUNK kBOS N 0 (by omega)]
    simp [NGramStream.next]

theorem contInv_foldl (kUNK kBOS : WordIndex) (thr : List Nat) (N : Nat) (hN : 2 ≤ N)
    (hthr : ∀ t ∈ thr, t = 0) (pre : List NGram) :
    ∀ (l : NGram) (rest : List NGram), CleanInput kBOS N (pre ++ l :: rest) →
      ContInv N (pre ++ l :: rest) pre l
        ((pre ++ [l]).foldl (fun s g => runBody kBOS thr g s) (runInit kUNK kBOS N)) := by
  induction pre using List.reverseRecOn with
  | nil =>
    intro l rest hclean
    exact contInv_first kUNK kBOS thr N l rest hN hclean hthr
  | append_singleton pre l1 ih =>
    intro l rest hclean
    have e : pre ++ [l1] ++ l :: rest = pre ++ l1 :: l :: rest := by simp
    rw [e] at hclean ⊢
    have := contInv_step kBOS thr N pre l1 l rest _ hN hclean hthr (ih l1 (l :: rest) hclean)
    rw [List.foldl_append]
    exact this

theorem flushBody_zero (thr : List Nat) (st : RunState) (i : Nat) (hthr : ∀ t ∈ thr, t = 0) :
    (flushBody thr st i).streams = st.streams.set i (st.streams.getD i default).next := by
  unfold flushBody
  simp only
  have h0 : ¬ (thr.getD ((st.streams.getD i default).order - 1) 0 ≠ 0) := by
    rw [getD_zero_of_all_zero thr hthr]; simp
  rw [if_neg h0]
  rfl

theorem flushRange_zero (thr : List Nat) (st : RunState) (hthr : ∀ t ∈ thr, t = 0) (n : Nat) :
    ((List.range n).foldl (flushBody thr) st).streams.length = st.streams.length ∧
    ∀ i, ((List.range n).foldl (flushBody thr) st).streams.getD i default =
      if i < n ∧ i < st.streams.length then (st.streams.getD i default).next
      else st.streams.getD i default := by
  induction n with
  | zero =>
    refine ⟨rfl, fun i => ?_⟩
    rw [if_neg (by omega)]
    rfl
  | succ n ih =>
    obtain ⟨ih1, ih2⟩ := ih
    rw [List.range_succ, List.foldl_append]
    simp only [List.foldl_cons, List.foldl_nil]
    rw [flushBody_zero thr _ n hthr]
    refine ⟨by simp [ih1], fun i => ?_⟩
    rw [getD_set_eq, ih1, ih2 n, ih2 i]
    have hnn : ¬ (n < n ∧ n < st.streams.length) := by omega
    rw [if_neg hnn]
    by_cases hi : n = i ∧ i < st.streams.length
    · obtain ⟨rfl, hl⟩ := hi
      have c : n < n + 1 ∧ n < st.streams.length := ⟨by omega, hl⟩
      rw [if_pos ⟨rfl, hl⟩, if_pos c]
    · rw [if_neg hi]
      by_cases hc : i < n ∧ i < st.streams.length
      · have c : i < n + 1 ∧ i < st.streams.length := ⟨by omega, hc.2⟩
        rw [if_pos hc, if_pos c]
      · have c : ¬ (i < n + 1 ∧ i < st.streams.length) := by omega
        rw [if_neg hc, if_neg c]

/-- C3: for a suffix-sorted input of pairwise distinct order-`N` records (`N ≥ 2`) in
which the begin-of-sentence id occurs only at position 0, and with all thresholds 0,
every record that `Run` writes to the order-`k` stream (`1 ≤ k < N`), the two seeded
unigrams apart, has a count equal to the number of distinct `(k+1)`-word suffixes of
input records that end with the record's `k` words. -/
theorem continuation_counts (kUNK kBOS : WordIndex) (counts_threshold_ : List Nat) (N : Nat)
    (blocks : List Block) (k : Nat) (rec : NGram) (hN : 2 ≤ N)
    (hlen : ∀ g ∈ blocks.flatten, g.words.length = N)
    (hsorted : blocks.flatten.Pairwise (fun a b => SuffixOrder b a = false))
    (hdistinct : blocks.flatten.Pairwise (fun a b => a.words ≠ b.words))
    (hbos : ∀ g ∈ blocks.flatten, kBOS ∉ g.words.drop 1)
    (hthr : ∀ t ∈ counts_threshold_, t = 0) (hk1 : 1 ≤ k) (hkN : k < N)
    (hrec : rec ∈ (((runCore kUNK kBOS counts_threshold_ N blocks).2.streams.getD (k - 1)
      default).written).drop (if k = 1 then 2 else 0)) :
    rec.count =
      (((blocks.flatten.map fun g => g.words.drop (g.words.length - (k + 1))).filter
        fun s => decide (s.drop 1 = rec.words)).dedup).length := by
  show rec.count = continuationCount k rec.words blocks.flatten
  rw [runCore_snd] at hrec
  unfold flushLoop at hrec
  have hclean : CleanInput kBOS N blocks.flatten := ⟨hlen, hsorted, hdistinct, hbos⟩
  rcases List.eq_nil_or_concat blocks.flatten with hnil | ⟨pre, l, hcat⟩
  · rw [hnil] at hrec
    simp only [List.foldl_nil] at hrec
    have hlv : (runInit kUNK kBOS N).lower_valid = 1 := rfl
    have hsl : (runInit kUNK kBOS N).streams.length = N - 1 := (runInit_shape kUNK kBOS N).1
    rw [hlv, (flushRange_zero counts_threshold_ _ hthr 1).2 (k - 1), hsl,
      runInit_stream kUNK kBOS N (k - 1) (by omega)] at hrec
    by_cases hk : k = 1
    · subst hk
      have c0 : 1 - 1 < 1 ∧ 1 - 1 < N - 1 := ⟨by omega, by omega⟩
      rw [if_pos c0, if_pos rfl] at hrec
      simp [NGramStream.next] at hrec
    · have c1 : ¬ (k - 1 < 1 ∧ k - 1 < N - 1) := by omega
      have c2 : ¬ (k - 1 = 0) := by omega
      rw [if_neg c1, if_neg c2] at hrec
      simp at hrec
  · have hcat2 : blocks.flatten = pre ++ [l] := by simpa using hcat
    have hcl : CleanInput kBOS N (pre ++ l :: []) := by
      simpa [hcat2] using hclean
    have hinv := contInv_foldl kUNK kBOS counts_threshold_ N hN hthr pre l [] hcl
    rw [hcat2] at hrec ⊢
    obtain ⟨hsh, hlv, hcur, hwr, h2⟩ := hinv
    rw [hlv, (flushRange_zero counts_threshold_ _ hthr (N - 1)).2 (k - 1), hsh.1] at hrec
    have c : k - 1 < N - 1 ∧ k - 1 < N - 1 := ⟨by omega, by omega⟩
    rw [if_pos c] at hrec
    have hd : (if k = 1 then 2 else 0) ≤
        ((List.foldl (fun s g => runBody kBOS counts_threshold_ g s) (runInit kUNK kBOS N)
          (pre ++ [l])).streams.getD (k - 1) default).written.length := by
      split_ifs with h1
      · subst h1; exact h2
      · omega
    simp only [NGramStream.next] at hrec
    rw [List.drop_append_of_le_length hd] at hrec
    rcases List.mem_append.mp hrec with hrec | hrec
    · exact hwr k hk1 hkN rec hrec
    · simp only [List.mem_singleton] at hrec
      rw [hrec, hcur k hk1 hkN]

set_option maxRecDepth 100000 in
/-- Witness of `continuation_counts`: on `sample` without pruning, the bigram `(20, 11)`
written to the order-2 stream has count 2, the number of distinct trigrams ending in
`20 11`. -/
theorem continuation_counts_witness :
    (big 20 11 2).count =
      (((sample.flatten.map fun g => g.words.drop (g.words.length - (2 + 1))).filter
        fun s => decide (s.drop 1 = (big 20 11 2).words)).dedup).length :=
  continuation_counts 0 1 [0, 0, 0] 3 sample 2 (big 20 11 2) (by decide) (by decide) (by decide)
    (by decide) (by decide) (by decide) (by decide) (by decide) (by decide)

/-- The main loop of `Run` ends because the highest-order stream is exhausted: after
`totalRecords blocks` rounds the cursor is at the poison. -/
theorem runCore_exhausts (kUNK kBOS : WordIndex) (thr : List Nat) (N : Nat)
    (blocks : List Block) : (runCore kUNK kBOS thr N blocks).1.valid = false := by
  have hfst : (runCore kUNK kBOS thr N blocks).1 =
      CollapseStream.advance kBOS (totalRecords blocks)
        (CollapseStream.init kBOS N thr blocks) := by
    unfold runCore
    simp only
    rw [mainLoop_fst]
  rw [hfst]
  have hinit := init_inv kBOS thr N blocks
  exact (advance_inv kBOS thr N blocks (totalRecords blocks) _ hinit.1 hinit.2).2

/-! ## Theorems: discount values -/

theorem fillAmounts_ok (i : Nat) (s : OrderStat) (js : List Nat)
    (amount r : List FloatValue) (h : fillAmounts i s js amount = .ok r) :
    r = js.foldl (fun am j => am.set j (discountAmount s j)) amount := by
  induction js generalizing amount with
  | nil =>
    simp only [fillAmounts, Except.ok.injEq] at h
    exact h.symm
  | cons j js ih =>
    simp only [fillAmounts] at h
    split_ifs at h with hc
    exact ih _ h

theorem calcOrder_ok (i : Nat) (s : OrderStat) (d : Discount) (h : calcOrder i s = .ok d) :
    d.amount = [⟨0, 0⟩, discountAmount s 1, discountAmount s 2, discountAmount s 3] ∧
      (s.n.getD 1 0 ≠ 0 ∧ s.n.getD 2 0 ≠ 0 ∧ s.n.getD 3 0 ≠ 0) ∧
      ∀ j, 1 ≤ j → j ≤ 3 →
        0 ≤ (discountAmount s j).toRat ∧ (discountAmount s j).toRat ≤ (j : Rat) := by
  have hun : ¬ s.unusable := fun hu => by
    obtain ⟨e, he⟩ := (calcOrder_error_iff i s).mpr hu
    rw [he] at h
    cases h
  unfold OrderStat.unusable at hun
  have hobs : (s.n.getD 1 0 ≠ 0 ∧ s.n.getD 2 0 ≠ 0 ∧ s.n.getD 3 0 ≠ 0) :=
    ⟨fun h1 => hun (Or.inl (Or.inl h1)), fun h1 => hun (Or.inl (Or.inr (Or.inl h1))),
      fun h1 => hun (Or.inl (Or.inr (Or.inr h1)))⟩
  have hr : ∀ j, 1 ≤ j → j ≤ 3 →
      0 ≤ (discountAmount s j).toRat ∧ (discountAmount s j).toRat ≤ (j : Rat) :=
    fun j hj1 hj3 =>
      ⟨not_lt.mp (fun hlt => hun (Or.inr ⟨j, hj1, hj3, Or.inl hlt⟩)),
        not_lt.mp (fun hgt => hun (Or.inr ⟨j, hj1, hj3, Or.inr hgt⟩))⟩
  refine ⟨?_, hobs, hr⟩
  unfold calcOrder at h
  cases h1 : checkObserved i s [1, 2, 3] with
  | error e => rw [h1] at h; cases h
  | ok u =>
    rw [h1] at h
    cases h2 : fillAmounts i s [1, 2, 3] [⟨0, 0⟩, ⟨0, 0⟩, ⟨0, 0⟩, ⟨0, 0⟩] with
    | error e => rw [h2] at h; cases h
    | ok am =>
      rw [h2] at h
      simp only [Except.ok.injEq] at h
      subst h
      rw [fillAmounts_ok _ _ _ _ _ h2]
      rfl

theorem calcFrom_ok_discounts (l : List OrderStat) (i : Nat) (o r : DiscountOutput)
    (h : calcFrom i l o = .ok r) :
    ∃ ds : List Discount, r.discounts = o.discounts ++ ds ∧ ds.length = l.length ∧
      ∀ k, k < l.length →
        calcOrder (i + k) (l.getD k OrderStat.zero) = .ok (ds.getD k ⟨[]⟩) := by
  induction l generalizing i o with
  | nil =>
    simp only [calcFrom, Except.ok.injEq] at h
    subst h
    exact ⟨[], by simp, rfl, fun k hk => by simp at hk⟩
  | cons s rest ih =>
    simp only [calcFrom] at h
    cases hc : calcOrder i s with
    | error e => rw [hc] at h; cases h
    | ok d =>
      rw [hc] at h
      obtain ⟨ds, h1, h2, h3⟩ := ih (i + 1) _ h
      refine ⟨d :: ds, by rw [h1]; simp, by simp [h2], fun k hk => ?_⟩
      cases k with
      | zero => simpa using hc
      | succ k =>
        have := h3 k (by simpa using hk)
        simp only [List.getD_cons_succ]
        have e1 : i + (k + 1) = i + 1 + k := by omega
        rw [e1]
        exact this

theorem discountAmount_eq (s : OrderStat) (j : Nat) :
    (FloatValue.ofNat32 j).sub32
      ((((FloatValue.ofNat32 (j + 1)).mul32 (discountY s)).mul32
        (FloatValue.ofNat32 (s.n.getD (j + 1) 0))).div32 (FloatValue.ofNat32 (s.n.getD j 0)))
      = discountAmount s j := rfl

/-- C11 (amended): whenever `CalculateDiscounts` returns normally, for every order `i`
the outputs satisfy `counts[i] = count`, `counts_pruned[i] = count_pruned`,
`amount[0] = 0`, and for `j = 1..3` `amount[j]` is the `float` the code computes for
`float(j) - float(j+1) * y * float(n[j+1]) / float(n[j])`, with every cast and
operation rounded, and this value lies in `[0, j]`. -/
theorem CalculateDiscounts_values (orders_ : StatCollector) (out : DiscountOutput) (i : Nat)
    (hi : i < orders_.length) (hok : orders_.CalculateDiscounts = .ok out) :
    out.counts.getD i 0 = (orders_.getD i OrderStat.zero).count ∧
    out.counts_pruned.getD i 0 = (orders_.getD i OrderStat.zero).count_pruned ∧
    (out.discounts.getD i ⟨[]⟩).amount.getD 0 ⟨0, 0⟩ = ⟨0, 0⟩ ∧
    ∀ j : Nat, 1 ≤ j → j ≤ 3 →
      (out.discounts.getD i ⟨[]⟩).amount.getD j ⟨0, 0⟩ =
        (FloatValue.ofNat32 j).sub32
          ((((FloatValue.ofNat32 (j + 1)).mul32
              (discountY (orders_.getD i OrderStat.zero))).mul32
            (FloatValue.ofNat32 ((orders_.getD i OrderStat.zero).n.getD (j + 1) 0))).div32
            (FloatValue.ofNat32 ((orders_.getD i OrderStat.zero).n.getD j 0))) ∧
      0 ≤ ((out.discounts.getD i ⟨[]⟩).amount.getD j ⟨0, 0⟩).toRat ∧
      ((out.discounts.getD i ⟨[]⟩).amount.getD j ⟨0, 0⟩).toRat ≤ (j : Rat) := by
  unfold StatCollector.CalculateDiscounts at hok
  obtain ⟨c1, c2⟩ := calcFrom_ok _ _ _ _ hok
  obtain ⟨ds, d1, _, d3⟩ := calcFrom_ok_discounts _ _ _ _ hok
  simp only [List.nil_append] at c1 c2 d1
  have hd := d3 i hi
  simp only [Nat.zero_add] at hd
  obtain ⟨ha, _, hr⟩ := calcOrder_ok _ _ _ hd
  have e1 : ∀ (f : OrderStat → Nat),
      (orders_.map f).getD i 0 = f (orders_.getD i OrderStat.zero) := by
    intro f
    simp only [List.getD_eq_getElem?_getD, List.getElem?_map]
    rw [List.getElem?_eq_getElem hi]
    rfl
  rw [c1, c2, d1, e1, e1, ha]
  refine ⟨rfl, rfl, rfl, fun j hj1 hj3 => ?_⟩
  rw [discountAmount_eq]
  have hget : ([⟨0, 0⟩, discountAmount (orders_.getD i OrderStat.zero) 1,
      discountAmount (orders_.getD i OrderStat.zero) 2,
      discountAmount (orders_.getD i OrderStat.zero) 3] : List FloatValue).getD j ⟨0, 0⟩
      = discountAmount (orders_.getD i OrderStat.zero) j := by
    have : j = 1 ∨ j = 2 ∨ j = 3 := by omega
    rcases this with rfl | rfl | rfl
    · exact List.getD_cons_succ.trans List.getD_cons_zero
    · exact List.getD_cons_succ.trans (List.getD_cons_succ.trans List.getD_cons_zero)
    · exact List.getD_cons_succ.trans
        (List.getD_cons_succ.trans (List.getD_cons_succ.trans List.getD_cons_zero))
  show _ = _ ∧ 0 ≤ FloatValue.toRat _ ∧ FloatValue.toRat _ ≤ _
  rw [hget]
  exact ⟨rfl, hr j hj1 hj3⟩

/-- Witness of `CalculateDiscounts_values`: the statistics of the run on `sample`,
order index 1. -/
theorem CalculateDiscounts_values_witness :
    ([5, 6, 9] : List Nat).getD 1 0 = (OrderStat.mk [0, 4, 1, 1, 0] 6 4).count :=
  (CalculateDiscounts_values
    [⟨[2, 1, 1, 1, 0], 5, 5⟩, ⟨[0, 4, 1, 1, 0], 6, 4⟩, ⟨[0, 3, 3, 3, 0], 9, 9⟩]
    ⟨[5, 6, 9], [5, 4, 9], sampleOut.discounts⟩ 1
    (by decide) sample_discounts).1

/-- C11 fails as stated: on the histogram `n = [0, 2^23, 2^23, 2^24 + 1, 0]`
`CalculateDiscounts` returns normally with `amount[1] = 11184810 * 2^(-25)` and
`amount[2] = 0`, while the values of the claimed expression in exact arithmetic are
`1/3` and `-1 / 2^23`: the values returned are not those of the expression, and the
expression for `j = 2` is not in `[0, 2]`. -/
theorem CalculateDiscounts_returns_rounded_values :
    StatCollector.CalculateDiscounts
        [⟨[0, 8388608, 8388608, 16777217, 0], 33554433, 33554433⟩]
      = .ok ⟨[33554433], [33554433],
          [⟨[⟨0, 0⟩, ⟨11184810, -25⟩, ⟨0, 0⟩, ⟨12582912, -22⟩]⟩]⟩ ∧
      (⟨11184810, -25⟩ : FloatValue).toRat = 5592405 / 16777216 ∧
      exactDiscount ⟨[0, 8388608, 8388608, 16777217, 0], 33554433, 33554433⟩ 1 = 1 / 3 ∧
      (⟨0, 0⟩ : FloatValue).toRat = 0 ∧
      exactDiscount ⟨[0, 8388608, 8388608, 16777217, 0], 33554433, 33554433⟩ 2
        = -(1 / 8388608) := by
  refine ⟨rounding_sample_returns, ?_, ?_, ?_, ?_⟩
  · norm_num [FloatValue.toRat]
  · norm_num [exactDiscount]
  · norm_num [FloatValue.toRat]
  · norm_num [exactDiscount]

theorem exactDiscount_bounds (s : OrderStat) (j : Nat) (hj1 : 1 ≤ j) (hj3 : j ≤ 3)
    (h1 : s.n.getD 1 0 ≠ 0) (h2 : s.n.getD 2 0 ≠ 0) (h3 : s.n.getD 3 0 ≠ 0) :
    exactDiscount s j ≤ (j : Rat) ∧
      (exactDiscount s j < 0 ↔
        (j + 1) * s.n.getD 1 0 * s.n.getD (j + 1) 0
          > j * s.n.getD j 0 * (s.n.getD 1 0 + 2 * s.n.getD 2 0)) := by
  have hD : s.n.getD j 0 ≠ 0 := by
    have : j = 1 ∨ j = 2 ∨ j = 3 := by omega
    rcases this with rfl | rfl | rfl <;> assumption
  unfold exactDiscount
  generalize s.n.getD 1 0 = A at h1 ⊢
  generalize s.n.getD 2 0 = B
  generalize s.n.getD (j + 1) 0 = C
  generalize s.n.getD j 0 = D at hD ⊢
  have hA : (0 : Rat) < (A : Rat) := by exact_mod_cast Nat.pos_of_ne_zero h1
  have hB : (0 : Rat) ≤ (B : Rat) := by exact_mod_cast Nat.zero_le B
  have hC : (0 : Rat) ≤ (C : Rat) := by exact_mod_cast Nat.zero_le C
  have hDp : (0 : Rat) < (D : Rat) := by exact_mod_cast Nat.pos_of_ne_zero hD
  have hS : (0 : Rat) < (A : Rat) + 2 * (B : Rat) := by linarith
  have hT : ((j + 1 : Nat) : Rat) * ((A : Rat) / ((A : Rat) + 2 * (B : Rat))) * (C : Rat)
      / (D : Rat) = (((j : Rat) + 1) * A * C) / ((A + 2 * B) * D) := by
    push_cast
    field_simp
  rw [hT]
  have hden : (0 : Rat) < ((A : Rat) + 2 * B) * D := mul_pos hS hDp
  constructor
  · have : (0 : Rat) ≤ (((j : Rat) + 1) * A * C) / ((A + 2 * B) * D) := by
      apply div_nonneg _ hden.le
      have hj : (0 : Rat) ≤ (j : Rat) + 1 := by positivity
      exact mul_nonneg (mul_nonneg hj hA.le) hC
    linarith
  · rw [sub_neg, lt_div_iff₀ hden]
    constructor
    · intro h
      have h' : ((j * D * (A + 2 * B) : Nat) : Rat) < (((j + 1) * A * C : Nat) : Rat) := by
        push_cast
        linarith
      exact_mod_cast h'
    · intro h
      have h' : ((j * D * (A + 2 * B) : Nat) : Rat) < (((j + 1) * A * C : Nat) : Rat) := by
        exact_mod_cast h
      push_cast at h'
      linarith

theorem fillAmounts_error (i : Nat) (s : OrderStat) (js : List Nat)
    (amount : List FloatValue) (e : BadDiscountException)
    (h : fillAmounts i s js amount = .error e) :
    ∃ j ∈ js, e = .outOfRange (i + 1) j (discountAmount s j) ∧
      ((discountAmount s j).lt ⟨0, 0⟩ || (FloatValue.ofNat32 j).lt (discountAmount s j))
        = true := by
  induction js generalizing amount with
  | nil => simp [fillAmounts] at h
  | cons j js ih =>
    simp only [fillAmounts] at h
    split_ifs at h with hc
    · simp only [Except.error.injEq] at h
      exact ⟨j, List.mem_cons_self _ _, h.symm, hc⟩
    · obtain ⟨j2, hj2, he⟩ := ih _ h
      exact ⟨j2, List.mem_cons_of_mem _ hj2, he⟩

theorem checkObserved_error (i : Nat) (s : OrderStat) (js : List Nat)
    (e : BadDiscountException) (h : checkObserved i s js = .error e) :
    ∃ j, e = .notObserved (i + 1) j := by
  induction js with
  | nil => simp [checkObserved] at h
  | cons j js ih =>
    simp only [checkObserved] at h
    split_ifs at h with hc
    · simp only [Except.error.injEq] at h
      exact ⟨j, h.symm⟩
    · exact ih h

theorem calcOrder_outOfRange (i : Nat) (s : OrderStat) (o j : Nat) (a : FloatValue)
    (h : calcOrder i s = .error (.outOfRange o j a)) :
    1 ≤ j ∧ j ≤ 3 ∧ a = discountAmount s j ∧
      ((discountAmount s j).toRat < 0 ∨ (discountAmount s j).toRat > (j : Rat)) ∧
      s.n.getD 1 0 ≠ 0 ∧ s.n.getD 2 0 ≠ 0 ∧ s.n.getD 3 0 ≠ 0 := by
  unfold calcOrder at h
  cases h1 : checkObserved i s [1, 2, 3] with
  | error e =>
    rw [h1] at h
    obtain ⟨j2, he⟩ := checkObserved_error _ _ _ _ h1
    simp only [Except.error.injEq] at h
    rw [he] at h
    cases h
  | ok u =>
    have hobs : ¬ (s.n.getD 1 0 = 0 ∨ s.n.getD 2 0 = 0 ∨ s.n.getD 3 0 = 0) := by
      intro hc
      obtain ⟨e, he⟩ := (checkObserved_123 i s).mpr hc
      rw [he] at h1
      cases h1
    rw [h1] at h
    simp only at h
    cases h2 : fillAmounts i s [1, 2, 3] [⟨0, 0⟩, ⟨0, 0⟩, ⟨0, 0⟩, ⟨0, 0⟩] with
    | ok am => rw [h2] at h; cases h
    | error e =>
      rw [h2] at h
      simp only [Except.error.injEq] at h
      subst h
      obtain ⟨j2, hj2, he, hr⟩ := fillAmounts_error _ _ _ _ _ h2
      simp only [BadDiscountException.outOfRange.injEq] at he
      obtain ⟨_, hjj, haa⟩ := he
      rw [hjj, haa]
      have hj13 : 1 ≤ j2 ∧ j2 ≤ 3 := by
        rcases List.mem_cons.mp hj2 with h | h
        · omega
        · rcases List.mem_cons.mp h with h | h
          · omega
          · have := List.mem_singleton.mp h
            omega
      obtain ⟨hj1, hj3⟩ := hj13
      exact ⟨hj1, hj3, rfl, (outOfRange_iff _ j2 hj1 hj3).mp hr,
        fun h => hobs (Or.inl h), fun h => hobs (Or.inr (Or.inl h)),
        fun h => hobs (Or.inr (Or.inr h))⟩

theorem calcFrom_outOfRange (l : List OrderStat) (i : Nat) (out : DiscountOutput) (o j : Nat)
    (a : FloatValue) (h : calcFrom i l out = .error (.outOfRange o j a)) :
    ∃ s ∈ l, ∃ i1, calcOrder i1 s = .error (.outOfRange o j a) := by
  induction l generalizing i out with
  | nil => simp [calcFrom] at h
  | cons s rest ih =>
    simp only [calcFrom] at h
    cases hc : calcOrder i s with
    | error e =>
      rw [hc] at h
      simp only [Except.error.injEq] at h
      subst h
      exact ⟨s, List.mem_cons_self _ _, i, hc⟩
    | ok d =>
      rw [hc] at h
      obtain ⟨s2, hs2, h2⟩ := ih _ _ h
      exact ⟨s2, List.mem_cons_of_mem _ hs2, h2⟩

/-- C20 (amended): the upper range check can never fire.  In exact arithmetic, for
every histogram with `n[1], n[2], n[3]` nonzero the discount
`j - (j+1) y n[j+1] / n[j]` is at most `j` for each `j` in `1..3` and is negative
exactly when `(j+1) n[1] n[j+1] > j n[j] (n[1] + 2 n[2])`.  The `float` the code
computes is at most `j` as well, for every histogram, so the test `amount[j] > j` is
always false, and whenever `CalculateDiscounts` throws the out-of-range error the
`float` it reports is negative. -/
theorem discount_upper_check_never_fires (orders_ : StatCollector) :
    (∀ s : OrderStat, s.n.getD 1 0 ≠ 0 → s.n.getD 2 0 ≠ 0 → s.n.getD 3 0 ≠ 0 →
      ∀ j : Nat, 1 ≤ j → j ≤ 3 →
        exactDiscount s j ≤ (j : Rat) ∧
        (exactDiscount s j < 0 ↔
          (j + 1) * s.n.getD 1 0 * s.n.getD (j + 1) 0
            > j * s.n.getD j 0 * (s.n.getD 1 0 + 2 * s.n.getD 2 0))) ∧
    (∀ (s : OrderStat) (j : Nat), 1 ≤ j → j ≤ 3 →
      (discountAmount s j).toRat ≤ (j : Rat) ∧
      (FloatValue.ofNat32 j).lt (discountAmount s j) = false) ∧
    (∀ (o j : Nat) (a : FloatValue),
      orders_.CalculateDiscounts = .error (.outOfRange o j a) →
      a.toRat < 0 ∧ ¬ (a.toRat > (j : Rat)) ∧ a.lt ⟨0, 0⟩ = true ∧
      ∃ s ∈ orders_, 1 ≤ j ∧ j ≤ 3 ∧ a = discountAmount s j) := by
  refine ⟨fun s h1 h2 h3 j hj1 hj3 => exactDiscount_bounds s j hj1 hj3 h1 h2 h3,
    fun s j hj1 hj3 => ?_, ?_⟩
  · have hle := discountAmount_le s j hj1 hj3
    refine ⟨hle, ?_⟩
    cases hlt : (FloatValue.ofNat32 j).lt (discountAmount s j) with
    | false => rfl
    | true =>
      rw [FloatValue.lt_iff, ofNat32_small j hj1 hj3] at hlt
      exact absurd hle (not_le.mpr hlt)
  · intro o j a h
    obtain ⟨s, hs, i1, hc⟩ := calcFrom_outOfRange _ _ _ _ _ _ h
    obtain ⟨hj1, hj3, ha, hr, _, _, _⟩ := calcOrder_outOfRange _ _ _ _ _ hc
    have hle := discountAmount_le s j hj1 hj3
    have hneg : (discountAmount s j).toRat < 0 := by
      rcases hr with hr | hr
      · exact hr
      · exact absurd hle (not_le.mpr hr)
    rw [ha]
    refine ⟨hneg, not_lt.mpr hle, ?_, s, hs, hj1, hj3, rfl⟩
    rw [FloatValue.lt_iff, toRat_zero]
    exact hneg

/-- C20 fails as stated: on the histogram `n = [0, 1, 3, 14, 0]` `CalculateDiscounts`
throws the out-of-range error for `j = 2` with the negative `float` `-2^(-22)`,
although `(j+1) n[1] n[j+1] > j n[j] (n[1] + 2 n[2])` holds for no `j` in `1..3`
(for `j = 2` both sides are 42); and on `n = [0, 2^23, 2^23, 2^24 + 1, 0]` the
inequality holds for `j = 2`, but `CalculateDiscounts` returns normally. -/
theorem discount_sign_differs_from_exact :
    StatCollector.CalculateDiscounts [⟨[0, 1, 3, 14, 0], 18, 18⟩]
        = .error (.outOfRange 1 2 ⟨-8388608, -45⟩) ∧
      (∀ j ∈ [1, 2, 3],
        ¬ ((j + 1) * ([0, 1, 3, 14, 0] : List Nat).getD 1 0
              * ([0, 1, 3, 14, 0] : List Nat).getD (j + 1) 0
            > j * ([0, 1, 3, 14, 0] : List Nat).getD j 0
              * (([0, 1, 3, 14, 0] : List Nat).getD 1 0
                + 2 * ([0, 1, 3, 14, 0] : List Nat).getD 2 0))) ∧
      StatCollector.CalculateDiscounts
          [⟨[0, 8388608, 8388608, 16777217, 0], 33554433, 33554433⟩]
        = .ok ⟨[33554433], [33554433],
            [⟨[⟨0, 0⟩, ⟨11184810, -25⟩, ⟨0, 0⟩, ⟨12582912, -22⟩]⟩]⟩ ∧
      (2 + 1) * ([0, 8388608, 8388608, 16777217, 0] : List Nat).getD 1 0
            * ([0, 8388608, 8388608, 16777217, 0] : List Nat).getD (2 + 1) 0
          > 2 * ([0, 8388608, 8388608, 16777217, 0] : List Nat).getD 2 0
            * (([0, 8388608, 8388608, 16777217, 0] : List Nat).getD 1 0
              + 2 * ([0, 8388608, 8388608, 16777217, 0] : List Nat).getD 2 0) :=
  ⟨rounding_sample_throws, by decide, rounding_sample_returns, by decide⟩

/-! ## Theorems: positions of the kept records after compaction -/

theorem InPlace_nil (keep : NGram → Bool) : InPlace keep [] [] :=
  ⟨le_refl _, fun i hi => by simp at hi⟩

theorem PlaceInv_start (keep : NGram → Bool) (b : Block) : PlaceInv keep b b 0 :=
  ⟨rfl, rfl, fun _ _ => rfl⟩

theorem getD_of_drop_eq (b orig : Block) (cur : Nat) (h : b.drop cur = orig.drop cur) :
    b.getD cur default = orig.getD cur default := by
  have := congrArg (fun l => l.getD 0 default) h
  simpa [List.getD_eq_getElem?_getD, List.getElem?_drop] using this

theorem PlaceInv_step (kBOS : WordIndex) (thr : List Nat) (order : Nat) (orig b : Block)
    (cur : Nat) (cf : Int) (h : PlaceInv (isKept kBOS thr order) orig b cur) :
    PlaceInv (isKept kBOS thr order) orig
      (if (isDeleted kBOS thr order (b.getD cur default) && decide ((cur : Int) < cf)) = true
        then b.set cur (b.getD cf.toNat default) else b)
      (cur + 1) := by
  obtain ⟨hlen, hdrop, hkeep⟩ := h
  have hcur := getD_of_drop_eq b orig cur hdrop
  have hdrop1 : b.drop (cur + 1) = orig.drop (cur + 1) := by
    have := congrArg (List.drop 1) hdrop
    simpa [List.drop_drop, Nat.add_comm] using this
  by_cases hdel : (isDeleted kBOS thr order (b.getD cur default)
      && decide ((cur : Int) < cf)) = true
  · rw [if_pos hdel]
    refine ⟨by simpa using hlen, by rw [List.drop_set_of_lt _ _ (by omega)]; exact hdrop1, ?_⟩
    intro i hi
    rw [getD_set_eq]
    by_cases hic : cur = i ∧ i < b.length
    · exfalso
      obtain ⟨rfl, _⟩ := hic
      simp only [Bool.and_eq_true] at hdel
      have hd := hdel.1
      rw [isDeleted_eq_not_isKept, hcur, hi] at hd
      simp at hd
    · rw [if_neg hic]
      exact hkeep i hi
  · rw [if_neg hdel]
    exact ⟨hlen, hdrop1, hkeep⟩

theorem PlaceInv_final (keep : NGram → Bool) (orig b : Block) (cur n : Nat)
    (h : PlaceInv keep orig b cur) : InPlace keep (b.take n) orig := by
  obtain ⟨hlen, _, hkeep⟩ := h
  refine ⟨by rw [← hlen]; simp, fun i hi hk => ?_⟩
  rw [← hkeep i hk]
  simp only [List.length_take] at hi
  simp only [List.getD_eq_getElem?_getD, List.getElem?_take]
  rw [if_pos (by omega)]

theorem StartBlock_place (kBOS : WordIndex) (thr : List Nat) (order : Nat) (c0 : Nat)
    (f0 : Int) (pending : List Block) (released : List Block) (b : Block) (done : List Block)
    (hrel : List.Forall₂ (InPlace (isKept kBOS thr order)) released done) :
    CollapsePlaceInv kBOS thr order (done ++ b :: pending)
      (StartBlock kBOS order thr c0 f0 released b pending) := by
  induction pending generalizing released b done with
  | nil =>
    by_cases hb : b.length ≠ 0
    · rw [StartBlock, if_pos hb]
      exact ⟨rfl, rfl, done, b, rfl, hrel, PlaceInv_start _ b, by
        show 0 < b.length
        omega⟩
    · rw [StartBlock, if_neg hb]
      have hb0 : b = [] := List.eq_nil_of_length_eq_zero (by omega)
      subst hb0
      exact ⟨rfl, rfl, rfl, forall2_snoc _ _ _ _ _ hrel (InPlace_nil _)⟩
  | cons p ps ih =>
    by_cases hb : b.length ≠ 0
    · rw [StartBlock, if_pos hb]
      exact ⟨rfl, rfl, done, b, rfl, hrel, PlaceInv_start _ b, by
        show 0 < b.length
        omega⟩
    · rw [StartBlock, if_neg hb]
      have hb0 : b = [] := List.eq_nil_of_length_eq_zero (by omega)
      subst hb0
      have := ih (released ++ [[]]) p (done ++ [[]])
        (forall2_snoc _ _ _ _ _ hrel (InPlace_nil _))
      simpa only [List.append_assoc, List.singleton_append] using this

theorem nextBlock_place (kBOS : WordIndex) (thr : List Nat) (order : Nat) (c0 : Nat)
    (f0 : Int) (pending : List Block) (released : List Block) (out orig : Block)
    (done : List Block)
    (hrel : List.Forall₂ (InPlace (isKept kBOS thr order)) released done)
    (hout : InPlace (isKept kBOS thr order) out orig) :
    CollapsePlaceInv kBOS thr order (done ++ orig :: pending)
      (nextBlock kBOS order thr c0 f0 released out pending) := by
  cases pending with
  | nil =>
    unfold nextBlock
    exact ⟨rfl, rfl, rfl, forall2_snoc _ _ _ _ _ hrel hout⟩
  | cons p ps =>
    unfold nextBlock
    have := StartBlock_place kBOS thr order c0 f0 ps (released ++ [out]) p (done ++ [orig])
      (forall2_snoc _ _ _ _ _ hrel hout)
    simpa only [List.append_assoc, List.singleton_append] using this

theorem init_place (kBOS : WordIndex) (thr : List Nat) (order : Nat) (blocks : List Block) :
    CollapsePlaceInv kBOS thr order blocks (CollapseStream.init kBOS order thr blocks) := by
  cases blocks with
  | nil => exact ⟨rfl, rfl, rfl, List.Forall₂.nil⟩
  | cons b bs =>
    unfold CollapseStream.init
    simpa using StartBlock_place kBOS thr order 0 0 bs [] b [] List.Forall₂.nil

theorem next_place (kBOS : WordIndex) (thr : List Nat) (order : Nat) (blocks : List Block)
    (cs : CollapseStream) (h : CollapsePlaceInv kBOS thr order blocks cs) :
    CollapsePlaceInv kBOS thr order blocks (cs.next kBOS) := by
  obtain ⟨o, t, rel, blk, cur, cf, pend⟩ := cs
  obtain ⟨ho, ht, h⟩ := h
  simp only at ho ht h
  subst ho ht
  cases blk with
  | none => exact ⟨rfl, rfl, h⟩
  | some b =>
    simp only at h
    obtain ⟨done, orig, hblocks, hrel, hinv, hcur⟩ := h
    have hstep := PlaceInv_step kBOS t o orig b cur cf hinv
    simp only [CollapseStream.next]
    cases hdel : (isDeleted kBOS t o (b.getD cur default) && decide ((cur : Int) < cf))
    all_goals
      simp only [hdel, if_true, if_false, Bool.false_eq_true] at hstep ⊢
      by_cases hend : cur + 1 = b.length
      · simp only [hend, if_true]
        rw [hblocks]
        exact nextBlock_place kBOS t o _ _ pend rel _ orig done hrel
          (PlaceInv_final _ _ _ _ _ hstep)
      · simp only [hend, if_false]
        refine ⟨rfl, rfl, done, orig, hblocks, hrel, hstep, ?_⟩
        show cur + 1 < _
        first
          | (simp only [List.length_set]; omega)
          | omega

theorem advance_place (kBOS : WordIndex) (thr : List Nat) (order : Nat) (blocks : List Block)
    (k : Nat) (cs : CollapseStream) (h : CollapsePlaceInv kBOS thr order blocks cs) :
    CollapsePlaceInv kBOS thr order blocks (CollapseStream.advance kBOS k cs) := by
  induction k generalizing cs with
  | zero => exact h
  | succ k ih => exact ih _ (next_place kBOS thr order blocks cs h)

theorem forall2_and {α β : Type} (R S : α → β → Prop) (l1 : List α) (l2 : List β)
    (h1 : List.Forall₂ R l1 l2) (h2 : List.Forall₂ S l1 l2) :
    List.Forall₂ (fun a b => R a b ∧ S a b) l1 l2 := by
  induction h1 with
  | nil => exact List.Forall₂.nil
  | cons hab _ ih =>
    cases h2 with
    | cons hs hrest => exact List.Forall₂.cons ⟨hab, hs⟩ (ih hrest)

theorem InPlace_all_kept (keep : NGram → Bool) (out orig : Block)
    (hperm : List.Perm out (orig.filter keep)) (hin : InPlace keep out orig)
    (hall : ∀ g ∈ orig, keep g = true) : out = orig := by
  have hf : orig.filter keep = orig := List.filter_eq_self.mpr hall
  rw [hf] at hperm
  have hlen := hperm.length_eq
  apply List.ext_getElem hlen
  intro i h1 h2
  have hk : keep (orig.getD i default) = true := by
    rw [List.getD_eq_getElem _ _ h2]
    exact hall _ (List.getElem_mem h2)
  have := hin.2 i h1 hk
  rwa [List.getD_eq_getElem _ _ h1, List.getD_eq_getElem _ _ h2] at this

/-- C17 (amended): once the cursor has been advanced past every record, each block
handed on is no longer than the delivered block, every slot of its valid region that
held a passing record in the delivered block still holds that record (only the slots
of deleted records are refilled), and a delivered block without deleted records is
handed on unchanged. -/
theorem CollapseStream_keeps_positions (kBOS : WordIndex) (counts_threshold_ : List Nat)
    (order : Nat) (blocks : List Block) :
    (CollapseStream.advance kBOS (totalRecords blocks)
        (CollapseStream.init kBOS order counts_threshold_ blocks)).valid = false ∧
    List.Forall₂
      (fun out orig =>
        (out.length ≤ orig.length ∧
          ∀ i, i < out.length →
            isKept kBOS counts_threshold_ order (orig.getD i default) = true →
            out.getD i default = orig.getD i default) ∧
        ((∀ g ∈ orig, isKept kBOS counts_threshold_ order g = true) → out = orig))
      (CollapseStream.advance kBOS (totalRecords blocks)
        (CollapseStream.init kBOS order counts_threshold_ blocks)).released blocks := by
  have hinit := init_inv kBOS counts_threshold_ order blocks
  have hadv := advance_inv kBOS counts_threshold_ order blocks (totalRecords blocks) _
    hinit.1 hinit.2
  have hplace := advance_place kBOS counts_threshold_ order blocks (totalRecords blocks) _
    (init_place kBOS counts_threshold_ order blocks)
  refine ⟨hadv.2, ?_⟩
  obtain ⟨_, _, h⟩ := hadv.1
  obtain ⟨_, _, h2⟩ := hplace
  have hnone : (CollapseStream.advance kBOS (totalRecords blocks)
      (CollapseStream.init kBOS order counts_threshold_ blocks)).block_ = none := by
    have := hadv.2
    simp only [CollapseStream.valid] at this
    cases hb : (CollapseStream.advance kBOS (totalRecords blocks)
      (CollapseStream.init kBOS order counts_threshold_ blocks)).block_ with
    | none => rfl
    | some b => rw [hb] at this; simp at this
  rw [hnone] at h h2
  refine List.Forall₂.imp ?_ (forall2_and _ _ _ _ h.2 h2.2)
  intro out orig hboth
  exact ⟨hboth.2, InPlace_all_kept _ out orig hboth.1 hboth.2⟩

/-- C17 fails as stated: with `kBOS = 1` and no pruning, the block of trigrams
`(1,1,7) (5,6,7) (5,6,9)`, which is in suffix order, is handed on as
`(5,6,9) (5,6,7)`, while the passing records stood in the order `(5,6,7) (5,6,9)` in
the delivered block. -/
theorem CollapseStream_reverses_kept_records :
    (CollapseStream.advance 1 (totalRecords [[⟨[1, 1, 7], 3⟩, ⟨[5, 6, 7], 1⟩, ⟨[5, 6, 9], 2⟩]])
        (CollapseStream.init 1 3 [0, 0, 0]
          [[⟨[1, 1, 7], 3⟩, ⟨[5, 6, 7], 1⟩, ⟨[5, 6, 9], 2⟩]])).released
        = [[⟨[5, 6, 9], 2⟩, ⟨[5, 6, 7], 1⟩]] ∧
      ([⟨[1, 1, 7], 3⟩, ⟨[5, 6, 7], 1⟩, ⟨[5, 6, 9], 2⟩] : Block).filter
        (isKept 1 [0, 0, 0] 3) = [⟨[5, 6, 7], 1⟩, ⟨[5, 6, 9], 2⟩] := by
  decide

/-! ## Theorems: bounds of the cursor of the open records -/

theorem openLoop_spec (kBOS : WordIndex) (full : NGram) (b : Nat) (st : RunState) :
    (openLoop kBOS full b st).1 ≤ b ∧
    ((openLoop kBOS full b st).1 ≠ 0 →
      full.words.getD (openLoop kBOS full b st).1 0 = kBOS) ∧
    (∀ p, (openLoop kBOS full b st).1 < p → p ≤ b → full.words.getD p 0 ≠ kBOS) ∧
    (openLoop kBOS full b st).2.lower_valid
      = st.lower_valid + (b - (openLoop kBOS full b st).1) ∧
    (openLoop kBOS full b st).2.stats = st.stats ∧
    (openLoop kBOS full b st).2.lower_counts = st.lower_counts ∧
    (openLoop kBOS full b st).2.streams.length = st.streams.length ∧
    ∀ i, (openLoop kBOS full b st).2.streams.getD i default =
      if st.lower_valid ≤ i ∧ i < st.lower_valid + (b - (openLoop kBOS full b st).1)
          ∧ i < st.streams.length then
        { st.streams.getD i default with
          cur := ⟨full.words.drop (b - (i - st.lower_valid)), 1⟩ }
      else st.streams.getD i default := by
  induction b generalizing st with
  | zero =>
    refine ⟨le_refl _, fun h => absurd rfl h, fun p h1 h2 => ?_, rfl, rfl, rfl, rfl, fun i => ?_⟩
    · exfalso
      have : (openLoop kBOS full 0 st).1 = 0 := rfl
      omega
    · rw [if_neg (by
        have : (openLoop kBOS full 0 st).1 = 0 := rfl
        omega)]
      rfl
  | succ b ih =>
    by_cases hw : full.words.getD (b + 1) 0 ≠ kBOS
    · have e : openLoop kBOS full (b + 1) st = openLoop kBOS full b (openAt full (b + 1) 1 st) := by
        rw [openLoop, if_pos hw]
      rw [e]
      obtain ⟨h0, h1, h1b, h2, h3, h3b, h4, h5⟩ := ih (openAt full (b + 1) 1 st)
      have hlv : (openAt full (b + 1) 1 st).lower_valid = st.lower_valid + 1 := rfl
      have hlen : (openAt full (b + 1) 1 st).streams.length = st.streams.length := by
        simp [openAt]
      refine ⟨by omega, h1, fun p hp1 hp2 => ?_, by rw [h2, hlv]; omega, by rw [h3]; rfl,
        by rw [h3b]; rfl, by rw [h4, hlen], fun i => ?_⟩
      · by_cases hp : p = b + 1
        · rw [hp]; exact hw
        · exact h1b p hp1 (by omega)
      · rw [h5, hlv, hlen, openAt_stream]
        generalize (openLoop kBOS full b (openAt full (b + 1) 1 st)).1 = r at h0 ⊢
        by_cases hi : st.lower_valid = i ∧ i < st.streams.length
        · obtain ⟨rfl, hl⟩ := hi
          rw [if_neg (by omega), if_pos ⟨rfl, hl⟩, if_pos ⟨le_refl _, by omega, hl⟩]
          simp
        · rw [if_neg hi]
          by_cases hc : st.lower_valid + 1 ≤ i ∧ i < st.lower_valid + 1 + (b - r)
              ∧ i < st.streams.length
          · rw [if_pos hc, if_pos ⟨by omega, by omega, hc.2.2⟩]
            have : b - (i - (st.lower_valid + 1)) = b + 1 - (i - st.lower_valid) := by omega
            rw [this]
          · rw [if_neg hc, if_neg (by omega)]
    · have e : openLoop kBOS full (b + 1) st = (b + 1, st) := by
        rw [openLoop, if_neg hw]
      rw [e]
      refine ⟨le_refl _, fun _ => not_not.mp hw, fun p h1 h2 => ?_, by simp, rfl, rfl, rfl,
        fun i => ?_⟩
      · exfalso
        simp only at h1
        omega
      · rw [if_neg (by
          simp only [Nat.sub_self, Nat.add_zero]
          omega)]

theorem runInit_open (kUNK kBOS : WordIndex) (N : Nat) (hN : 2 ≤ N) :
    OpenInv N (runInit kUNK kBOS N) := by
  refine ⟨runInit_shape kUNK kBOS N, le_refl _, ?_, fun i hi => ?_⟩
  · show 1 ≤ N - 1
    omega
  · have hi0 : i = 0 := by
      have : i < 1 := hi
      omega
    subst hi0
    rw [runInit_stream kUNK kBOS N 0 (by omega)]
    rfl

theorem sameAt_le_open (st : RunState) (g : NGram) (N : Nat) (h : OpenInv N st) :
    sameAt st g ≤ st.lower_valid := by
  obtain ⟨_, h1, _, h3⟩ := h
  rw [sameAt_eq_matchBack]
  have := (matchBack_le g.words.reverse
    (st.streams.getD (st.lower_valid - 1) default).cur.words.reverse).2
  rw [List.length_reverse, h3 (st.lower_valid - 1) (by omega)] at this
  omega

theorem runBody_open (kBOS : WordIndex) (thr : List Nat) (g : NGram) (st : RunState) (N : Nat)
    (h : OpenInv N st) (hg : g.words.length = N) (hN : 2 ≤ N) :
    (afterClose thr g st).lower_valid = sameAt st g ∧
      OpenInv N (runBody kBOS thr g st) := by
  have hm := sameAt_le_open st g N h
  obtain ⟨hsh, h1, h2, h3⟩ := h
  have hshape := runBody_shape kBOS thr g st N hsh
  obtain ⟨hs, _, _, _⟩ := hsh
  have hclv : (afterClose thr g st).lower_valid = sameAt st g := by
    simp only [afterClose, closeLoop_lower_valid, afterIncrement_lower_valid]
    omega
  have hclen : (afterClose thr g st).streams.length = N - 1 := by
    simp only [afterClose, closeLoop_streams_length]
    rw [(afterIncrement_logs _ st).1, hs]
  have hlow : ∀ i, i < sameAt st g →
      ((afterClose thr g st).streams.getD i default).cur.words.length = i + 1 := by
    intro i hi
    have e : (afterClose thr g st).streams.getD i default
        = (afterIncrement (sameAt st g) st).streams.getD i default := by
      simp only [afterClose, closeLoop_stream]
      rw [if_neg (by omega)]
    rw [e, afterIncrement_stream]
    split_ifs
    · exact h3 i (by omega)
    · exact h3 i (by omega)
  refine ⟨hclv, ?_⟩
  rw [runBody_eq, different_toNat, hg] at hshape ⊢
  obtain ⟨o0, _, _, o2, _, _, o4, o5⟩ :=
    openLoop_spec kBOS g (N - 1 - sameAt st g) (afterClose thr g st)
  rw [hclv] at o2
  rw [hclen] at o4
  simp only [hclv, hclen] at o5
  unfold openPhase at hshape ⊢
  generalize openLoop kBOS g (N - 1 - sameAt st g) (afterClose thr g st) = R at *
  obtain ⟨r1, st4⟩ := R
  simp only at o0 o2 o4 o5 hshape ⊢
  have hst4 : ∀ i, i < st4.lower_valid → (st4.streams.getD i default).cur.words.length = i + 1 := by
    intro i hi
    rw [o5]
    by_cases hc : sameAt st g ≤ i ∧ i < sameAt st g + (N - 1 - sameAt st g - r1) ∧ i < N - 1
    · rw [if_pos hc]
      simp only [List.length_drop, hg]
      omega
    · rw [if_neg hc]
      exact hlow i (by omega)
  by_cases hr : r1 ≠ 0
  · rw [if_pos hr] at hshape ⊢
    refine ⟨hshape, ?_, ?_, fun i hi => ?_⟩
    · show 1 ≤ st4.lower_valid + 1
      omega
    · show st4.lower_valid + 1 ≤ N - 1
      omega
    · have hi2 : i < st4.lower_valid + 1 := hi
      rw [openAt_stream]
      by_cases hc : st4.lower_valid = i ∧ i < st4.streams.length
      · rw [if_pos hc]
        simp only [List.length_drop, hg]
        omega
      · rw [if_neg hc]
        exact hst4 i (by omega)
  · rw [if_neg hr] at hshape ⊢
    refine ⟨hshape, ?_, ?_, fun i hi => ?_⟩
    · show 1 ≤ st4.lower_valid
      omega
    · show st4.lower_valid ≤ N - 1
      omega
    · exact hst4 i hi

theorem foldl_runBody_open (kBOS : WordIndex) (thr : List Nat) (l : List NGram)
    (st : RunState) (N : Nat) (h : OpenInv N st) (hl : ∀ g ∈ l, g.words.length = N)
    (hN : 2 ≤ N) : OpenInv N (l.foldl (fun s g => runBody kBOS thr g s) st) := by
  induction l generalizing st with
  | nil => exact h
  | cons g l ih =>
    exact ih _ (runBody_open kBOS thr g st N h (hl g (List.mem_cons_self _ _)) hN).2
      (fun x hx => hl x (List.mem_cons_of_mem _ hx))

theorem valid_of_remaining (cs : CollapseStream) (x : NGram) (xs : List NGram)
    (h : cs.remaining = x :: xs) : cs.valid = true := by
  unfold CollapseStream.valid
  cases hb : cs.block_ with
  | none => simp [CollapseStream.remaining, hb] at h
  | some b => rfl

theorem mainLoop_prefix (kBOS : WordIndex) (thr : List Nat) (pre rest : List NGram)
    (cs : CollapseStream) (st : RunState) (hreg : cs.Regular)
    (hrem : cs.remaining = pre ++ rest) :
    (mainLoop kBOS thr pre.length cs st).1.Regular ∧
      (mainLoop kBOS thr pre.length cs st).1.remaining = rest ∧
      (mainLoop kBOS thr pre.length cs st).2
        = pre.foldl (fun s g => runBody kBOS thr g s) st := by
  induction pre generalizing cs st with
  | nil => exact ⟨hreg, hrem, rfl⟩
  | cons x xs ih =>
    have hv := valid_of_remaining cs x (xs ++ rest) hrem
    obtain ⟨n1, n2⟩ := next_remaining kBOS cs hreg hv
    rw [hrem] at n2
    simp only [List.cons_append, List.cons.injEq] at n2
    have e : mainLoop kBOS thr (x :: xs).length cs st
        = mainLoop kBOS thr xs.length (cs.next kBOS) (runBody kBOS thr cs.deref st) := by
      show mainLoop kBOS thr (xs.length + 1) cs st = _
      rw [mainLoop, if_pos hv]
    rw [e, ← n2.1]
    exact ih _ _ n1 n2.2.symm

theorem mainLoop_succ (kBOS : WordIndex) (thr : List Nat) (k : Nat) (cs : CollapseStream)
    (st : RunState) :
    mainLoop kBOS thr (k + 1) cs st =
      if (mainLoop kBOS thr k cs st).1.valid = true then
        ((mainLoop kBOS thr k cs st).1.next kBOS,
          runBody kBOS thr (mainLoop kBOS thr k cs st).1.deref (mainLoop kBOS thr k cs st).2)
      else mainLoop kBOS thr k cs st := by
  induction k generalizing cs st with
  | zero =>
    by_cases hv : cs.valid = true
    · simp [mainLoop, hv]
    · simp [mainLoop, hv]
  | succ k ih =>
    by_cases hv : cs.valid = true
    · have e1 : mainLoop kBOS thr (k + 1 + 1) cs st
          = mainLoop kBOS thr (k + 1) (cs.next kBOS) (runBody kBOS thr cs.deref st) := by
        rw [mainLoop, if_pos hv]
      have e2 : mainLoop kBOS thr (k + 1) cs st
          = mainLoop kBOS thr k (cs.next kBOS) (runBody kBOS thr cs.deref st) := by
        rw [mainLoop, if_pos hv]
      rw [e1, e2]
      exact ih _ _
    · have e1 : mainLoop kBOS thr (k + 1 + 1) cs st = (cs, st) := by
        rw [mainLoop, if_neg hv]
      have e2 : mainLoop kBOS thr (k + 1) cs st = (cs, st) := by
        rw [mainLoop, if_neg hv]
      rw [e1, e2, if_neg hv]

/-- C19: for `N ≥ 2` and an input whose records all have `N` words, round `k` of the
main loop of `Run` (for every `k` below the number of records) is entered with the
stream valid and `lower_valid` pointing into `streams`; the shared-suffix length `same`
computed from `FindDifference` is at most the order of the record under `lower_valid`,
which is at most `N - 1`, and `different` is not before the first word; `streams[same - 1]`
and `lower_counts[order - 1]` of every open stream are in range; the close-out loop
leaves `lower_valid` at index `same - 1`; and after the opening step `lower_valid` is
at an index in `0 .. N - 2`, so the assertion at the end of the round holds. (The
cursor is stored as index plus one.) -/
theorem Run_cursor_bounds (kUNK kBOS : WordIndex) (counts_threshold_ : List Nat) (N : Nat)
    (blocks : List Block) (k : Nat) (hN : 2 ≤ N)
    (hlen : ∀ g ∈ blocks.flatten, g.words.length = N) (hk : k < totalRecords blocks) :
    let it := mainLoop kBOS counts_threshold_ k
      (CollapseStream.init kBOS N counts_threshold_ blocks) (runInit kUNK kBOS N)
    let full := it.1.deref
    let st := it.2
    let same := sameAt st full
    it.1.valid = true ∧ full = blocks.flatten.getD k default ∧
    (mainLoop kBOS counts_threshold_ (k + 1)
      (CollapseStream.init kBOS N counts_threshold_ blocks) (runInit kUNK kBOS N)).2
        = runBody kBOS counts_threshold_ full st ∧
    1 ≤ st.lower_valid ∧
    (st.streams.getD (st.lower_valid - 1) default).order = st.lower_valid ∧
    same ≤ (st.streams.getD (st.lower_valid - 1) default).order ∧
    (st.streams.getD (st.lower_valid - 1) default).order ≤ N - 1 ∧
    0 ≤ FindDifference full (st.streams.getD (st.lower_valid - 1) default).cur ∧
    (same ≠ 0 → same - 1 < st.streams.length) ∧
    (∀ i, i < st.lower_valid → i < st.streams.length ∧
      1 ≤ (st.streams.getD i default).order ∧
      (st.streams.getD i default).order - 1 < st.lower_counts.length) ∧
    (afterClose counts_threshold_ full st).lower_valid = same ∧
    1 ≤ (runBody kBOS counts_threshold_ full st).lower_valid ∧
    (runBody kBOS counts_threshold_ full st).lower_valid ≤ N - 1 := by
  intro it full st same
  obtain ⟨hreg, hrem⟩ := init_remaining kBOS counts_threshold_ N blocks
  have hk2 : k < blocks.flatten.length := by rw [← totalRecords_eq]; exact hk
  have hdrop : blocks.flatten.drop k = blocks.flatten.getD k default
      :: blocks.flatten.drop (k + 1) := by
    rw [List.getD_eq_getElem _ _ hk2]
    exact List.drop_eq_getElem_cons hk2
  have hpl : (blocks.flatten.take k).length = k := by
    rw [List.length_take]; omega
  obtain ⟨m1, m2, m3⟩ := mainLoop_prefix kBOS counts_threshold_ (blocks.flatten.take k)
    (blocks.flatten.drop k) (CollapseStream.init kBOS N counts_threshold_ blocks)
    (runInit kUNK kBOS N) hreg (by rw [hrem, List.take_append_drop])
  rw [hpl] at m1 m2 m3
  have hv : it.1.valid = true := valid_of_remaining _ _ _ (m2.trans hdrop)
  have hfull : full = blocks.flatten.getD k default := by
    have n2 := (next_remaining kBOS _ m1 hv).2
    rw [m2, hdrop] at n2
    simp only [List.cons.injEq] at n2
    exact n2.1.symm
  have hopen : OpenInv N st := by
    show OpenInv N (mainLoop kBOS counts_threshold_ k _ _).2
    rw [m3]
    exact foldl_runBody_open kBOS counts_threshold_ _ _ N (runInit_open kUNK kBOS N hN)
      (fun g hg => hlen g (List.mem_of_mem_take hg)) hN
  have hgl : full.words.length = N := by
    rw [hfull, List.getD_eq_getElem _ _ hk2]
    exact hlen _ (List.getElem_mem _)
  obtain ⟨c1, c2⟩ := runBody_open kBOS counts_threshold_ full st N hopen hgl hN
  have hm : same ≤ st.lower_valid := sameAt_le_open st full N hopen
  obtain ⟨⟨s1, s2, s3, _⟩, o1, o2, _⟩ := hopen
  have hord : (st.streams.getD (st.lower_valid - 1) default).order = st.lower_valid := by
    rw [s2 _ (by omega)]; omega
  refine ⟨hv, hfull, ?_, o1, hord, by rw [hord]; exact hm, by rw [hord]; exact o2, ?_,
    fun _ => by rw [s1]; omega, fun i hi => ?_, c1, c2.2.1, c2.2.2.1⟩
  · rw [mainLoop_succ, if_pos hv]
  · have hm2 : sameAt st full ≤ st.lower_valid := hm
    rw [sameAt_eq_matchBack] at hm2
    unfold FindDifference
    omega
  · rw [s2 i (by omega), s1, s3]
    omega

set_option maxRecDepth 100000 in
/-- Witness of `Run_cursor_bounds`: round 4 of the run on `sample` with thresholds
`[0, 1, 0]`. -/
theorem Run_cursor_bounds_witness :
    1 ≤ (runBody 1 [0, 1, 0]
        (mainLoop 1 [0, 1, 0] 4 (CollapseStream.init 1 3 [0, 1, 0] sample)
          (runInit 0 1 3)).1.deref
        (mainLoop 1 [0, 1, 0] 4 (CollapseStream.init 1 3 [0, 1, 0] sample)
          (runInit 0 1 3)).2).lower_valid ∧
    (runBody 1 [0, 1, 0]
        (mainLoop 1 [0, 1, 0] 4 (CollapseStream.init 1 3 [0, 1, 0] sample)
          (runInit 0 1 3)).1.deref
        (mainLoop 1 [0, 1, 0] 4 (CollapseStream.init 1 3 [0, 1, 0] sample)
          (runInit 0 1 3)).2).lower_valid ≤ 3 - 1 :=
  (Run_cursor_bounds 0 1 [0, 1, 0] 3 sample 4 (by decide) (by decide)
    (by decide)).2.2.2.2.2.2.2.2.2.2.2

/-! ## Theorems: records with an embedded begin-of-sentence word -/

theorem closeLoop_stats_getD (thr : List Nat) (same lv : Nat) (st : RunState) (j : Nat)
    (hj : lv ≤ j) :
    (closeLoop thr same lv st).stats.getD j OrderStat.zero = st.stats.getD j OrderStat.zero := by
  induction lv generalizing st with
  | zero => rfl
  | succ lv ih =>
    unfold closeLoop
    split_ifs with h
    · rw [ih _ (by omega), closeBody_eq]
      simp only
      rw [Add_getD, if_neg (by omega)]
    · rfl

theorem runBody_bos (kBOS : WordIndex) (thr : List Nat) (g : NGram) (st : RunState)
    (N p : Nat) (h : OpenInv N st) (hg : g.words.length = N) (hN : 2 ≤ N) (hp : 1 ≤ p)
    (hp2 : p + sameAt st g ≤ N - 1) (hbos : g.words.getD p 0 = kBOS)
    (hno : ∀ q, p < q → q + sameAt st g ≤ N - 1 → g.words.getD q 0 ≠ kBOS) :
    (runBody kBOS thr g st).stats.getD (N - 1) OrderStat.zero
        = st.stats.getD (N - 1) OrderStat.zero ∧
      (runBody kBOS thr g st).lower_valid = N - p ∧
      ((runBody kBOS thr g st).streams.getD (N - p - 1) default).cur
        = ⟨g.words.drop p, g.count⟩ := by
  have hm := sameAt_le_open st g N h
  obtain ⟨hsh, h1, h2, h3⟩ := h
  obtain ⟨hs, _, _, _⟩ := hsh
  have hclv : (afterClose thr g st).lower_valid = sameAt st g := by
    simp only [afterClose, closeLoop_lower_valid, afterIncrement_lower_valid]
    omega
  have hclen : (afterClose thr g st).streams.length = N - 1 := by
    simp only [afterClose, closeLoop_streams_length]
    rw [(afterIncrement_logs _ st).1, hs]
  have hcstat : (afterClose thr g st).stats.getD (N - 1) OrderStat.zero
      = st.stats.getD (N - 1) OrderStat.zero := by
    simp only [afterClose]
    rw [closeLoop_stats_getD _ _ _ _ _ (by rw [afterIncrement_lower_valid]; exact h2),
      (afterIncrement_logs _ st).2.2.1]
  rw [runBody_eq, different_toNat, hg]
  obtain ⟨o0, o1, o1b, o2, o3, _, o4, _⟩ :=
    openLoop_spec kBOS g (N - 1 - sameAt st g) (afterClose thr g st)
  rw [hclv] at o2
  rw [hclen] at o4
  unfold openPhase
  generalize openLoop kBOS g (N - 1 - sameAt st g) (afterClose thr g st) = R at *
  obtain ⟨r1, st4⟩ := R
  simp only at o0 o1 o1b o2 o3 o4 ⊢
  have hr : r1 = p := by
    rcases Nat.lt_trichotomy r1 p with hlt | heq | hgt
    · exact absurd hbos (o1b p hlt (by omega))
    · exact heq
    · exact absurd (o1 (by omega)) (hno r1 hgt (by omega))
  subst hr
  have hr0 : r1 ≠ 0 := by omega
  rw [if_pos hr0]
  refine ⟨?_, ?_, ?_⟩
  · show st4.stats.getD (N - 1) OrderStat.zero = _
    rw [o3, hcstat]
  · show st4.lower_valid + 1 = N - r1
    omega
  · rw [openAt_stream, if_pos ⟨by omega, by omega⟩]

theorem runBody_bos_close (kBOS : WordIndex) (thr : List Nat) (g z : NGram) (st : RunState)
    (N p : Nat) (hopen : OpenInv N st) (hp : 1 ≤ p) (hp2 : p + sameAt st g ≤ N - 1)
    (b2 : (runBody kBOS thr g st).lower_valid = N - p)
    (b3 : ((runBody kBOS thr g st).streams.getD (N - p - 1) default).cur
      = ⟨g.words.drop p, g.count⟩)
    (hz : sameAt (runBody kBOS thr g st) z < N - p) :
    ((runBody kBOS thr z (runBody kBOS thr g st)).streams.getD (N - p - 1) default).written =
        ((runBody kBOS thr g st).streams.getD (N - p - 1) default).written ++
          (if N - p = 1 ∨ thr.getD (N - p - 1) 0 = 0 ∨ g.count > thr.getD (N - p - 1) 0
            then [⟨g.words.drop p, g.count⟩] else []) ∧
      ((runBody kBOS thr z (runBody kBOS thr g st)).streams.getD (N - p - 1) default).dropped =
        ((runBody kBOS thr g st).streams.getD (N - p - 1) default).dropped ++
          (if N - p = 1 ∨ thr.getD (N - p - 1) 0 = 0 ∨ g.count > thr.getD (N - p - 1) 0
            then [] else [⟨g.words.drop p, g.count⟩]) := by
  have hsh1 : (runBody kBOS thr g st).Shape N := runBody_shape kBOS thr g st N hopen.1
  obtain ⟨e1, e2, _, _⟩ := runBody_effect kBOS thr g st
  obtain ⟨_, _, _, e4⟩ := runBody_effect kBOS thr z (runBody kBOS thr g st)
  obtain ⟨_, ew, ed⟩ := e4 (N - p - 1)
  have c1 : sameAt (runBody kBOS thr g st) z ≤ N - p - 1
      ∧ N - p - 1 < (runBody kBOS thr g st).lower_valid
      ∧ N - p - 1 < (runBody kBOS thr g st).streams.length := by
    refine ⟨by omega, ?_, ?_⟩
    · rw [b2]; omega
    · rw [hsh1.1]; omega
  rw [if_pos c1] at ew ed
  rw [ew, ed]
  have hord : ((runBody kBOS thr g st).streams.getD (N - p - 1) default).order = N - p := by
    rw [hsh1.2.1 _ (by omega)]; omega
  have hlc : (runBody kBOS thr g st).lower_counts.getD (N - p - 1) 0 = g.count := by
    rw [e2, updateLowerCounts_getD _ _ _ _ _ (by rw [hopen.1.2.2.1]; omega),
      if_pos (by omega)]
  unfold closeStream
  rw [hord, hlc]
  by_cases hc : N - p = 1 ∨ thr.getD (N - p - 1) 0 = 0 ∨ g.count > thr.getD (N - p - 1) 0
  · rw [if_pos hc, if_pos hc, if_pos hc]
    simp only [NGramStream.next, b3, List.append_nil, and_self]
  · rw [if_neg hc, if_neg hc, if_neg hc]
    simp only [NGramStream.abandon, b3, List.append_nil, and_self]

/-- C16 (amended): let `g` be a record of `N` words read after the records `pre`, let
`same` be the number of trailing words it shares with the open record under
`lower_valid`, and let `p ≥ 1` be the position where the opening walk stops: `p` is
at most `N - 1 - same`, word `p` of `g` is `kBOS`, and no word between `p + 1` and
`N - 1 - same` is. Then the round leaves the statistics of the highest order as they
were, and leaves the record made of the words of `g` from `p` on, with the count of
`g`, under the cursor of the stream of order `N - p`, which `lower_valid` points to.
If the next record `z` shares fewer than `N - p` trailing words, that record is
written to the stream exactly when the order is 1, or the threshold of the order is
0, or the count of `g` exceeds the threshold; otherwise it is dropped. -/
theorem bos_record_propagation (kUNK kBOS : WordIndex) (counts_threshold_ : List Nat)
    (N : Nat) (pre : List NGram) (g : NGram) (p : Nat) (hN : 2 ≤ N)
    (hpre : ∀ x ∈ pre, x.words.length = N) (hg : g.words.length = N) (hp : 1 ≤ p)
    (hp2 : p + sameAt (pre.foldl (fun s x => runBody kBOS counts_threshold_ x s)
      (runInit kUNK kBOS N)) g ≤ N - 1)
    (hbos : g.words.getD p 0 = kBOS)
    (hno : ∀ q, p < q →
      q + sameAt (pre.foldl (fun s x => runBody kBOS counts_threshold_ x s)
        (runInit kUNK kBOS N)) g ≤ N - 1 → g.words.getD q 0 ≠ kBOS) :
    let st := pre.foldl (fun s x => runBody kBOS counts_threshold_ x s) (runInit kUNK kBOS N)
    let st1 := runBody kBOS counts_threshold_ g st
    let t := counts_threshold_.getD (N - p - 1) 0
    st1.stats.getD (N - 1) OrderStat.zero = st.stats.getD (N - 1) OrderStat.zero ∧
    st1.lower_valid = N - p ∧
    (st1.streams.getD (N - p - 1) default).cur = ⟨g.words.drop p, g.count⟩ ∧
    ∀ z, sameAt st1 z < N - p →
      ((runBody kBOS counts_threshold_ z st1).streams.getD (N - p - 1) default).written =
        (st1.streams.getD (N - p - 1) default).written ++
          (if N - p = 1 ∨ t = 0 ∨ g.count > t then [⟨g.words.drop p, g.count⟩] else []) ∧
      ((runBody kBOS counts_threshold_ z st1).streams.getD (N - p - 1) default).dropped =
        (st1.streams.getD (N - p - 1) default).dropped ++
          (if N - p = 1 ∨ t = 0 ∨ g.count > t then [] else [⟨g.words.drop p, g.count⟩]) := by
  intro st st1 t
  have hopen : OpenInv N st :=
    foldl_runBody_open kBOS counts_threshold_ pre _ N (runInit_open kUNK kBOS N hN) hpre hN
  obtain ⟨b1, b2, b3⟩ := runBody_bos kBOS counts_threshold_ g st N p hopen hg hN hp hp2 hbos hno
  exact ⟨b1, b2, b3, fun z hz =>
    runBody_bos_close kBOS counts_threshold_ g z st N p hopen hp hp2 b2 b3 hz⟩

/-- Witness of `bos_record_propagation`: the sentence-start trigram `(1, 1, 10)` with
count 2 read first, with `kBOS = 1`: the walk stops at position 1 and the bigram
`(1, 10)` is opened with count 2. -/
theorem bos_record_propagation_witness :
    ((runBody 1 [0, 2, 0] (trig 1 1 10 2)
        (([] : List NGram).foldl (fun s x => runBody 1 [0, 2, 0] x s)
          (runInit 0 1 3))).streams.getD (3 - 1 - 1) default).cur
      = ⟨(trig 1 1 10 2).words.drop 1, (trig 1 1 10 2).count⟩ :=
  (bos_record_propagation 0 1 [0, 2, 0] 3 [] (trig 1 1 10 2) 1 (by decide)
    (fun x hx => absurd hx (List.not_mem_nil x)) (by decide) (by decide) (by decide)
    (by decide)
    (fun q h1 h2 => by
      have hq : q = 2 := by omega
      subst hq
      decide)).2.2.1

set_option maxRecDepth 100000 in
theorem sample3_core :
    (runCore 0 1 [0, 2, 0] 3 sample3).2.stats =
      [⟨[2, 1, 2, 1, 0], 6, 6⟩, ⟨[0, 5, 2, 1, 0], 8, 4⟩, ⟨[0, 4, 3, 3, 0], 10, 10⟩] ∧
    (runCore 0 1 [0, 2, 0] 3 sample3).2.streams.map NGramStream.written = sample3Out.lower ∧
    (runCore 0 1 [0, 2, 0] 3 sample3).1.released = sample3Out.highest := by
  decide

set_option maxRecDepth 1000000 in
theorem sample3_discounts :
    StatCollector.CalculateDiscounts
      [⟨[2, 1, 2, 1, 0], 6, 6⟩, ⟨[0, 5, 2, 1, 0], 8, 4⟩, ⟨[0, 4, 3, 3, 0], 10, 10⟩] =
    .ok ⟨[6, 8, 10], [6, 4, 10], sample3Out.discounts⟩ := by
  rfl

theorem sample3_run : Run 0 1 [0, 2, 0] 3 sample3 = .ok sample3Out := by
  unfold Run
  rw [if_neg (by decide)]
  simp only
  rw [sample3_core.1, sample3_discounts]
  simp only
  rw [sample3_core.2.1, sample3_core.2.2]
  rfl

/-- C16 fails as stated: with `kBOS = 1` and thresholds `[0, 2, 0]`, `Run` completes on
`sample3`, whose first record `(1, 1, 10)` with count 2 has begin-of-sentence at
position 1, but no record with the words `(1, 10)` is in the output of order 2: the
bigram carried the raw count 2, which does not exceed the threshold, and was pruned. -/
theorem bos_record_not_emitted :
    Run 0 1 [0, 2, 0] 3 sample3 = .ok sample3Out ∧
      trig 1 1 10 2 ∈ sample3.flatten ∧ (trig 1 1 10 2).words.getD 1 0 = 1 ∧
      ∀ r ∈ sample3Out.lower.getD (2 - 1) [], r.words ≠ (trig 1 1 10 2).words.drop 1 :=
  ⟨sample3_run, by decide, by decide, by decide⟩

/-! ## Theorems: Interpolate -/

theorem Enter_probs (kUNK kEOS : WordIndex) (log10 : Rat → Rat)
    (MurmurHashNative : List Nat → Nat) (cb : Callback) (o : Nat) (words : List WordIndex)
    (pay : Uninterpolated) :
    (Callback.Enter kUNK kEOS log10 MurmurHashNative cb o words pay).1.probs_
        = cb.probs_.set (o + 1) (cb.interpolated o pay) ∧
      (Callback.Enter kUNK kEOS log10 MurmurHashNative cb o words pay).1.count_thresholds_
        = cb.count_thresholds_ ∧
      (Callback.Enter kUNK kEOS log10 MurmurHashNative cb o words pay).2.prob
        = log10 (cb.interpolated o pay) := by
  unfold Callback.Enter Callback.interpolated
  simp only
  by_cases h : o < cb.backoffs_.length ∧ words.getLastD 0 ≠ kUNK ∧ words.getLastD 0 ≠ kEOS
  · rw [if_pos h]
    cases hb : cb.backoffs_.getD o [] with
    | nil => exact ⟨rfl, rfl, rfl⟩
    | cons e rest =>
      simp only
      split_ifs <;> exact ⟨rfl, rfl, rfl⟩
  · rw [if_neg h]
    exact ⟨rfl, rfl, rfl⟩

theorem enterAll_append (kUNK kEOS : WordIndex) (log10 : Rat → Rat)
    (MurmurHashNative : List Nat → Nat) (a b : List EnterCall) (cb : Callback) :
    Callback.enterAll kUNK kEOS log10 MurmurHashNative (a ++ b) cb =
      ((Callback.enterAll kUNK kEOS log10 MurmurHashNative b
          (Callback.enterAll kUNK kEOS log10 MurmurHashNative a cb).1).1,
        (Callback.enterAll kUNK kEOS log10 MurmurHashNative a cb).2 ++
          (Callback.enterAll kUNK kEOS log10 MurmurHashNative b
            (Callback.enterAll kUNK kEOS log10 MurmurHashNative a cb).1).2) := by
  induction a generalizing cb with
  | nil => rfl
  | cons c cs ih =>
    have e : Callback.enterAll kUNK kEOS log10 MurmurHashNative (c :: (cs ++ b)) cb =
        ((Callback.enterAll kUNK kEOS log10 MurmurHashNative (cs ++ b)
            (Callback.Enter kUNK kEOS log10 MurmurHashNative cb c.order_minus_1 c.words
              c.pay).1).1,
          (Callback.Enter kUNK kEOS log10 MurmurHashNative cb c.order_minus_1 c.words c.pay).2 ::
            (Callback.enterAll kUNK kEOS log10 MurmurHashNative (cs ++ b)
              (Callback.Enter kUNK kEOS log10 MurmurHashNative cb c.order_minus_1 c.words
                c.pay).1).2) := rfl
    rw [List.cons_append, e, ih]
    rfl

theorem enterAll_probs_length (kUNK kEOS : WordIndex) (log10 : Rat → Rat)
    (MurmurHashNative : List Nat → Nat) (l : List EnterCall) (cb : Callback) :
    (Callback.enterAll kUNK kEOS log10 MurmurHashNative l cb).1.probs_.length
      = cb.probs_.length := by
  induction l generalizing cb with
  | nil => rfl
  | cons c cs ih =>
    simp only [Callback.enterAll]
    rw [ih, (Enter_probs kUNK kEOS log10 MurmurHashNative cb _ _ _).1, List.length_set]

theorem enterAll_probs_getD (kUNK kEOS : WordIndex) (log10 : Rat → Rat)
    (MurmurHashNative : List Nat → Nat) (l : List EnterCall) (cb : Callback) (j : Nat)
    (h : ∀ m ∈ l, m.order_minus_1 + 1 ≠ j) :
    (Callback.enterAll kUNK kEOS log10 MurmurHashNative l cb).1.probs_.getD j 0
      = cb.probs_.getD j 0 := by
  induction l generalizing cb with
  | nil => rfl
  | cons c cs ih =>
    simp only [Callback.enterAll]
    rw [ih _ (fun m hm => h m (List.mem_cons_of_mem _ hm)),
      (Enter_probs kUNK kEOS log10 MurmurHashNative cb _ _ _).1, getD_set_eq,
      if_neg (fun hc => h c (List.mem_cons_self _ _) hc.1)]

theorem init_probs (uniform_prob : Rat) (backoffs : List (List HashGamma)) (thr : List Nat) :
    (Callback.init uniform_prob backoffs thr).probs_.length = backoffs.length + 2 ∧
      (Callback.init uniform_prob backoffs thr).probs_.getD 0 0 = uniform_prob := by
  unfold Callback.init
  simp only [List.length_set, List.length_replicate, true_and]
  rw [getD_set_eq, if_pos ⟨rfl, by simp⟩]

theorem uniform_prob_eq (unigram_count : Nat) (backoffs : List (List HashGamma))
    (thr : List Nat) (h1 : 1 ≤ unigram_count) (h2 : unigram_count < 2 ^ 64) :
    (Interpolate.init unigram_count backoffs thr).uniform_prob_
      = 1 / ((unigram_count : Rat) - 1) := by
  unfold Interpolate.init
  simp only
  have e : (unigram_count + 2 ^ 64 - 1) % 2 ^ 64 = unigram_count - 1 := by omega
  rw [e, Nat.cast_sub h1, Nat.cast_one]

/-- C12: in a run started by `Interpolate` with `2 ≤ unigram_count`, after any calls
`pre` of `Enter`, the call for a record of order `k = order_minus_1 + 1 ≤ N` computes
`interpolated = uninterp.prob + uninterp.gamma * p` with `p = probs_[k - 1]`; `p` is
the uniform probability `1 / (unigram_count - 1)` when `k = 1`, and otherwise the
interpolated (linear, not log) value computed by the most recent call at order
`k - 1`; the call stores `interpolated` in slot `k` of `probs_`, leaves every other
slot as it was, and writes `log10 interpolated` as the probability of the record. -/
theorem Enter_interpolation (kUNK kEOS : WordIndex) (log10 : Rat → Rat)
    (MurmurHashNative : List Nat → Nat) (unigram_count : Nat)
    (backoffs : List (List HashGamma)) (count_thresholds : List Nat)
    (pre : List EnterCall) (c : EnterCall)
    (huc : 2 ≤ unigram_count) (huc2 : unigram_count < 2 ^ 64)
    (hc : c.order_minus_1 ≤ backoffs.length) :
    let cb0 := Callback.init
      (Interpolate.init unigram_count backoffs count_thresholds).uniform_prob_ backoffs
      count_thresholds
    let cb := (Callback.enterAll kUNK kEOS log10 MurmurHashNative pre cb0).1
    let r := Callback.Enter kUNK kEOS log10 MurmurHashNative cb c.order_minus_1 c.words c.pay
    let interpolated := c.pay.prob + c.pay.gamma * cb.probs_.getD c.order_minus_1 0
    (c.order_minus_1 = 0 →
      cb.probs_.getD c.order_minus_1 0 = 1 / ((unigram_count : Rat) - 1)) ∧
    (∀ pre1 d mid, pre = pre1 ++ d :: mid → d.order_minus_1 + 1 = c.order_minus_1 →
      (∀ m ∈ mid, m.order_minus_1 ≠ d.order_minus_1) →
      cb.probs_.getD c.order_minus_1 0 =
        d.pay.prob + d.pay.gamma *
          (Callback.enterAll kUNK kEOS log10 MurmurHashNative pre1 cb0).1.probs_.getD
            d.order_minus_1 0) ∧
    r.1.probs_ = cb.probs_.set (c.order_minus_1 + 1) interpolated ∧
    r.1.probs_.getD (c.order_minus_1 + 1) 0 = interpolated ∧
    (∀ j, j ≠ c.order_minus_1 + 1 → r.1.probs_.getD j 0 = cb.probs_.getD j 0) ∧
    r.2.prob = log10 interpolated := by
  intro cb0 cb r interpolated
  have hlen0 : cb0.probs_.length = backoffs.length + 2 := (init_probs _ backoffs _).1
  have hlen : cb.probs_.length = backoffs.length + 2 := by
    rw [← hlen0]
    exact enterAll_probs_length kUNK kEOS log10 MurmurHashNative pre cb0
  obtain ⟨e1, _, e3⟩ := Enter_probs kUNK kEOS log10 MurmurHashNative cb c.order_minus_1
    c.words c.pay
  refine ⟨fun h0 => ?_, fun pre1 d mid hpre hd hmid => ?_, e1, ?_, fun j hj => ?_, e3⟩
  · rw [h0]
    show (Callback.enterAll kUNK kEOS log10 MurmurHashNative pre cb0).1.probs_.getD 0 0 = _
    rw [enterAll_probs_getD _ _ _ _ _ _ _ (fun m _ => Nat.succ_ne_zero _), (init_probs _ _ _).2]
    exact uniform_prob_eq unigram_count backoffs count_thresholds (by omega) huc2
  · show (Callback.enterAll kUNK kEOS log10 MurmurHashNative pre cb0).1.probs_.getD _ 0 = _
    rw [hpre, enterAll_append, ← hd]
    simp only [Callback.enterAll]
    rw [enterAll_probs_getD _ _ _ _ _ _ _ (fun m hm => by
        have := hmid m hm
        omega),
      (Enter_probs kUNK kEOS log10 MurmurHashNative _ _ _ _).1, getD_set_eq, if_pos ⟨rfl, by
        rw [enterAll_probs_length, hlen0]
        omega⟩]
    rfl
  · show r.1.probs_.getD _ 0 = _
    rw [e1, getD_set_eq, if_pos ⟨rfl, by rw [hlen]; omega⟩]
    rfl
  · show r.1.probs_.getD _ 0 = _
    rw [e1, getD_set_eq, if_neg (fun h => hj h.1.symm)]

/-- Witness of `Enter_interpolation`: five unigrams and one bigram stream; after the
unigram `4` with payload `(1/2, 1/2)` the bigram `(3, 4)` with payload `(1/4, 1/2)`
is entered, with `log10` and the hash standing for arbitrary functions. -/
theorem Enter_interpolation_witness :
    ((Callback.Enter 0 2 (fun x => x) (fun _ => 0)
        (Callback.enterAll 0 2 (fun x => x) (fun _ => 0) [⟨0, [4], ⟨1/2, 1/2⟩⟩]
          (Callback.init (Interpolate.init 5 [[]] [0, 0]).uniform_prob_ [[]] [0, 0])).1
        1 [3, 4] ⟨1/4, 1/2⟩).1.probs_.getD (1 + 1) 0
      = 1/4 + 1/2 *
        (Callback.enterAll 0 2 (fun x => x) (fun _ => 0) [⟨0, [4], ⟨1/2, 1/2⟩⟩]
          (Callback.init (Interpolate.init 5 [[]] [0, 0]).uniform_prob_ [[]] [0, 0])).1.probs_.getD
            1 0) :=
  (Enter_interpolation 0 2 (fun x => x) (fun _ => 0) 5 [[]] [0, 0] [⟨0, [4], ⟨1/2, 1/2⟩⟩]
    ⟨1, [3, 4], ⟨1/4, 1/2⟩⟩ (by decide) (by norm_num) (by decide)).2.2.2.1

theorem Enter_backoffs_length (kUNK kEOS : WordIndex) (log10 : Rat → Rat)
    (MurmurHashNative : List Nat → Nat) (cb : Callback) (o : Nat) (words : List WordIndex)
    (pay : Uninterpolated) :
    (Callback.Enter kUNK kEOS log10 MurmurHashNative cb o words pay).1.backoffs_.length
      = cb.backoffs_.length := by
  unfold Callback.Enter
  simp only
  by_cases h : o < cb.backoffs_.length ∧ words.getLastD 0 ≠ kUNK ∧ words.getLastD 0 ≠ kEOS
  · rw [if_pos h]
    cases hb : cb.backoffs_.getD o [] with
    | nil => rfl
    | cons e rest =>
      simp only
      split_ifs
      · exact List.length_set _ _ _
      · rfl
      · exact List.length_set _ _ _
  · rw [if_neg h]

/-- C13: when `Enter` is called for a record that can be a context (its order has a
backoff stream and its last word is neither `kUNK` nor `kEOS`), the threshold of the
next order up is nonzero and the pair `hashed_backoff` is pending in the backoff
stream of the order, the hash computed from the record is compared with
`hashed_backoff.hash_value`: if they are equal the backoff is
`log10 hashed_backoff.gamma` and the stream of the order has moved on by exactly that
pair, every other stream being as before; if they differ the backoff is 0 and all
backoff streams are exactly as before, so the pair is still pending. -/
theorem Enter_hashed_backoff (kUNK kEOS : WordIndex) (log10 : Rat → Rat)
    (MurmurHashNative : List Nat → Nat) (cb : Callback) (order_minus_1 : Nat)
    (words : List WordIndex) (pay : Uninterpolated) (hashed_backoff : HashGamma)
    (rest : List HashGamma) (ho : order_minus_1 < cb.backoffs_.length)
    (hunk : words.getLastD 0 ≠ kUNK) (heos : words.getLastD 0 ≠ kEOS)
    (hthr : cb.count_thresholds_.getD (order_minus_1 + 1) 0 ≠ 0)
    (hpend : cb.backoffs_.getD order_minus_1 [] = hashed_backoff :: rest) :
    (MurmurHashNative (hashedBytes words) = hashed_backoff.hash_value →
      (Callback.Enter kUNK kEOS log10 MurmurHashNative cb order_minus_1 words pay).2.backoff
        = log10 hashed_backoff.gamma ∧
      (Callback.Enter kUNK kEOS log10 MurmurHashNative cb order_minus_1 words
        pay).1.backoffs_.getD order_minus_1 [] = rest ∧
      ∀ i, i ≠ order_minus_1 →
        (Callback.Enter kUNK kEOS log10 MurmurHashNative cb order_minus_1 words
          pay).1.backoffs_.getD i [] = cb.backoffs_.getD i []) ∧
    (MurmurHashNative (hashedBytes words) ≠ hashed_backoff.hash_value →
      (Callback.Enter kUNK kEOS log10 MurmurHashNative cb order_minus_1 words pay).2.backoff
        = 0 ∧
      (Callback.Enter kUNK kEOS log10 MurmurHashNative cb order_minus_1 words
        pay).1.backoffs_ = cb.backoffs_) := by
  have c1 : order_minus_1 < cb.backoffs_.length ∧ words.getLastD 0 ≠ kUNK
      ∧ words.getLastD 0 ≠ kEOS := ⟨ho, hunk, heos⟩
  have c2 : cb.count_thresholds_.getD (order_minus_1 + 1) 0 > 0 := Nat.pos_of_ne_zero hthr
  unfold Callback.Enter
  simp only
  rw [if_pos c1, hpend]
  simp only
  rw [if_pos c2]
  constructor
  · intro heq
    rw [if_pos heq]
    refine ⟨rfl, ?_, fun i hi => ?_⟩
    · show (cb.backoffs_.set order_minus_1 rest).getD order_minus_1 [] = rest
      rw [getD_set_eq, if_pos ⟨rfl, ho⟩]
    · show (cb.backoffs_.set order_minus_1 rest).getD i [] = _
      rw [getD_set_eq, if_neg (fun h => hi h.1.symm)]
  · intro hne
    rw [if_neg hne]
    exact ⟨rfl, rfl⟩

/-- Witness of `Enter_hashed_backoff`: the unigram `4` is entered while the pair
`(7, 1/2)` is pending in the stream of order 1 and bigrams are pruned; the hash of the
record is 7, so the pair is consumed. -/
theorem Enter_hashed_backoff_witness :
    (Callback.Enter 0 2 (fun x => x) (fun _ => 7) ⟨[[⟨7, 1/2⟩, ⟨9, 1/3⟩]], [1/4, 0, 0], [0, 1]⟩
        0 [4] ⟨1/2, 1/2⟩).1.backoffs_.getD 0 [] = [⟨9, 1/3⟩] :=
  ((Enter_hashed_backoff 0 2 (fun x => x) (fun _ => 7)
    ⟨[[⟨7, 1/2⟩, ⟨9, 1/3⟩]], [1/4, 0, 0], [0, 1]⟩ 0 [4] ⟨1/2, 1/2⟩ ⟨7, 1/2⟩ [⟨9, 1/3⟩]
    (by decide) (by decide) (by decide) (by decide) rfl).1 rfl).2.1

/-- C15: when `Enter` is called for a record whose last word is `kUNK` or `kEOS`, or
whose order has no backoff stream (`order_minus_1` is at least `backoffs_.size()`, as
for the highest order `N`), the backoff written is 0 and every backoff stream is left
exactly as it was. -/
theorem Enter_not_a_context (kUNK kEOS : WordIndex) (log10 : Rat → Rat)
    (MurmurHashNative : List Nat → Nat) (cb : Callback) (order_minus_1 : Nat)
    (words : List WordIndex) (pay : Uninterpolated)
    (h : words.getLastD 0 = kUNK ∨ words.getLastD 0 = kEOS
      ∨ cb.backoffs_.length ≤ order_minus_1) :
    (Callback.Enter kUNK kEOS log10 MurmurHashNative cb order_minus_1 words pay).2.backoff
        = 0 ∧
      (Callback.Enter kUNK kEOS log10 MurmurHashNative cb order_minus_1 words
        pay).1.backoffs_ = cb.backoffs_ := by
  have c1 : ¬ (order_minus_1 < cb.backoffs_.length ∧ words.getLastD 0 ≠ kUNK
      ∧ words.getLastD 0 ≠ kEOS) := by
    rintro ⟨h1, h2, h3⟩
    rcases h with h | h | h
    · exact h2 h
    · exact h3 h
    · omega
  unfold Callback.Enter
  simp only
  rw [if_neg c1]
  exact ⟨rfl, rfl⟩

/-- Witness of `Enter_not_a_context`: the bigram `(3, 4)` of the highest order 2 is
entered while a pair is pending in the stream of order 1. -/
theorem Enter_not_a_context_witness :
    (Callback.Enter 0 2 (fun x => x) (fun _ => 7) ⟨[[⟨7, 1/2⟩]], [1/4, 1/2, 0], [0, 1]⟩
        1 [3, 4] ⟨1/4, 1/2⟩).1.backoffs_ = [[⟨7, 1/2⟩]] :=
  (Enter_not_a_context 0 2 (fun x => x) (fun _ => 7) ⟨[[⟨7, 1/2⟩]], [1/4, 1/2, 0], [0, 1]⟩
    1 [3, 4] ⟨1/4, 1/2⟩ (Or.inr (Or.inr (by decide)))).2

theorem enterAll_backoffs_length (kUNK kEOS : WordIndex) (log10 : Rat → Rat)
    (MurmurHashNative : List Nat → Nat) (l : List EnterCall) (cb : Callback) :
    (Callback.enterAll kUNK kEOS log10 MurmurHashNative l cb).1.backoffs_.length
      = cb.backoffs_.length := by
  induction l generalizing cb with
  | nil => rfl
  | cons c cs ih =>
    simp only [Callback.enterAll]
    rw [ih, Enter_backoffs_length]

theorem firstPending_none (k : Nat) (l : List (List HashGamma)) :
    firstPending k l = none ↔ ∀ i, i < l.length → l.getD i [] = [] := by
  induction l generalizing k with
  | nil => simp [firstPending]
  | cons s rest ih =>
    unfold firstPending
    by_cases hs : s ≠ []
    · rw [if_pos hs]
      simp only [reduceCtorEq, false_iff, not_forall]
      exact ⟨0, by simp, by simpa using hs⟩
    · rw [if_neg hs, ih]
      have hs2 : s = [] := not_not.mp hs
      constructor
      · intro h i hi
        cases i with
        | zero => simpa using hs2
        | succ i =>
          simp only [List.length_cons] at hi
          simpa using h i (by omega)
      · intro h i hi
        have := h (i + 1) (by simp only [List.length_cons]; omega)
        simpa using this

theorem firstPending_some (k : Nat) (l : List (List HashGamma)) (i : Nat)
    (h : firstPending k l = some i) :
    k ≤ i ∧ i - k < l.length ∧ l.getD (i - k) [] ≠ [] ∧ ∀ j, j < i - k → l.getD j [] = [] := by
  induction l generalizing k with
  | nil => simp [firstPending] at h
  | cons s rest ih =>
    unfold firstPending at h
    by_cases hs : s ≠ []
    · rw [if_pos hs] at h
      simp only [Option.some.injEq] at h
      subst h
      refine ⟨le_refl _, by simp, by simpa using hs, fun j hj => by omega⟩
    · rw [if_neg hs] at h
      obtain ⟨h1, h2, h3, h4⟩ := ih (k + 1) h
      have hs2 : s = [] := not_not.mp hs
      have e : i - k = (i - (k + 1)) + 1 := by omega
      refine ⟨by omega, by rw [e]; simp only [List.length_cons]; omega, ?_, fun j hj => ?_⟩
      · rw [e]
        simpa using h3
      · cases j with
        | zero => simpa using hs2
        | succ j =>
          have := h4 j (by omega)
          simpa using this

/-- C14: when `Run` is given as many positions as there are backoff streams plus one,
it fails with the abort of the end-of-run check exactly when, after all calls of
`Enter`, some backoff stream still has an entry; the order reported is that of the
first such stream; and when every backoff stream is used up `Run` completes with the
payloads written by the calls. -/
theorem Run_fails_iff_backoff_left (kUNK kEOS : WordIndex) (log10 : Rat → Rat)
    (MurmurHashNative : List Nat → Nat) (self : Interpolate) (positions : Nat)
    (calls : List EnterCall) (hpos : positions = self.backoffs_.length + 1) :
    let r := Callback.enterAll kUNK kEOS log10 MurmurHashNative calls
      (Callback.init self.uniform_prob_ self.backoffs_ self.count_thresholds_)
    ((∃ e, Interpolate.Run kUNK kEOS log10 MurmurHashNative self positions calls = .error e) ↔
      ∃ i, i < self.backoffs_.length ∧ r.1.backoffs_.getD i [] ≠ []) ∧
    ((∀ i, i < self.backoffs_.length → r.1.backoffs_.getD i [] = []) →
      Interpolate.Run kUNK kEOS log10 MurmurHashNative self positions calls = .ok r.2) ∧
    (∀ e, Interpolate.Run kUNK kEOS log10 MurmurHashNative self positions calls = .error e →
      ∃ i, e = .backoffsDoNotMatch (i + 1) ∧ i < self.backoffs_.length ∧
        r.1.backoffs_.getD i [] ≠ [] ∧ ∀ j, j < i → r.1.backoffs_.getD j [] = []) := by
  intro r
  have hlen : r.1.backoffs_.length = self.backoffs_.length :=
    enterAll_backoffs_length kUNK kEOS log10 MurmurHashNative calls _
  have hrun : Interpolate.Run kUNK kEOS log10 MurmurHashNative self positions calls =
      match firstPending 0 r.1.backoffs_ with
      | some i => .error (.backoffsDoNotMatch (i + 1))
      | none => .ok r.2 := by
    unfold Interpolate.Run
    rw [if_neg (by omega)]
  have hsome : ∀ e, Interpolate.Run kUNK kEOS log10 MurmurHashNative self positions calls
      = .error e →
      ∃ i, e = .backoffsDoNotMatch (i + 1) ∧ i < self.backoffs_.length ∧
        r.1.backoffs_.getD i [] ≠ [] ∧ ∀ j, j < i → r.1.backoffs_.getD j [] = [] := by
    intro e he
    rw [hrun] at he
    cases hf : firstPending 0 r.1.backoffs_ with
    | none => rw [hf] at he; simp at he
    | some i =>
      rw [hf] at he
      simp only [Except.error.injEq] at he
      obtain ⟨_, h2, h3, h4⟩ := firstPending_some 0 _ i hf
      rw [Nat.sub_zero] at h2 h3 h4
      exact ⟨i, he.symm, by omega, h3, h4⟩
  have hnone : (∀ i, i < self.backoffs_.length → r.1.backoffs_.getD i [] = []) →
      Interpolate.Run kUNK kEOS log10 MurmurHashNative self positions calls = .ok r.2 := by
    intro h
    rw [hrun, (firstPending_none 0 r.1.backoffs_).mpr (by rw [hlen]; exact h)]
  refine ⟨⟨fun ⟨e, he⟩ => ?_, fun ⟨i, hi, hne⟩ => ?_⟩, hnone, hsome⟩
  · obtain ⟨i, _, h2, h3, _⟩ := hsome e he
    exact ⟨i, h2, h3⟩
  · cases hf : firstPending 0 r.1.backoffs_ with
    | none =>
      exact absurd ((firstPending_none 0 _).mp hf i (by omega)) hne
    | some k =>
      exact ⟨.backoffsDoNotMatch (k + 1), by rw [hrun, hf]⟩

/-- Witness of `Run_fails_iff_backoff_left`: two orders, no pruning, one weight in the
backoff stream of order 1; the traversal enters the unigram `4`, which consumes it, and
`Run` completes. -/
theorem Run_fails_iff_backoff_left_witness :
    Interpolate.Run 0 2 (fun x => x) (fun _ => 7) ⟨1/4, [[⟨0, 1/2⟩]], [0, 0]⟩ 2
        [⟨0, [4], ⟨1/2, 1/2⟩⟩] =
      .ok (Callback.enterAll 0 2 (fun x => x) (fun _ => 7) [⟨0, [4], ⟨1/2, 1/2⟩⟩]
        (Callback.init (1/4) [[⟨0, 1/2⟩]] [0, 0])).2 :=
  (Run_fails_iff_backoff_left 0 2 (fun x => x) (fun _ => 7) ⟨1/4, [[⟨0, 1/2⟩]], [0, 0]⟩ 2
    [⟨0, [4], ⟨1/2, 1/2⟩⟩] rfl).2.1
    (fun i hi => by
      have hi0 : i = 0 := by
        have : i < 1 := hi
        omega
      subst hi0
      rfl)

theorem wordBytes_flatten_length (ws : List WordIndex) :
    ((ws.map wordBytes).flatten).length = 4 * ws.length := by
  induction ws with
  | nil => rfl
  | cons w ws ih =>
    simp only [List.map_cons, List.flatten_cons, List.length_append, ih, List.length_cons]
    simp only [wordBytes, List.length_cons, List.length_nil]
    omega

theorem hashedBytes_snoc (v : WordIndex) (ws : List WordIndex) (w : WordIndex) :
    hashedBytes (v :: (ws ++ [w])) = (((v :: ws).map wordBytes).flatten).take (ws.length + 2) := by
  unfold hashedBytes
  have e : ((v :: (ws ++ [w])).map wordBytes).flatten
      = ((v :: ws).map wordBytes).flatten ++ wordBytes w := by
    rw [← List.cons_append, List.map_append, List.flatten_append]
    simp
  have hl : (v :: (ws ++ [w])).length = ws.length + 2 := by simp
  rw [e, hl, List.take_append_of_le_length]
  rw [wordBytes_flatten_length]
  simp only [List.length_cons]
  omega

/-- C18 does not hold for the code: the byte range handed to the hash function starts
at the first word and is `order` bytes long, not `order * 4`. So for every record of
two or more words the hashed bytes, and with them the value of any hash function, do
not depend on the last word; the range holds as many bytes as the record has words;
and in hashed mode `Enter` for the bigram `(5, 7)` consumes a pending pair that
carries the hash of the bigram `(5, 9)`. -/
theorem context_hash_ignores_last_word (MurmurHashNative : List Nat → Nat) (v : WordIndex)
    (ws : List WordIndex) (w w1 : WordIndex) (log10 : Rat → Rat) (pay : Uninterpolated)
    (gamma : Rat) :
    MurmurHashNative (hashedBytes (v :: (ws ++ [w])))
        = MurmurHashNative (hashedBytes (v :: (ws ++ [w1]))) ∧
      (hashedBytes (v :: (ws ++ [w]))).length = (v :: (ws ++ [w])).length ∧
      (Callback.Enter 0 2 log10 MurmurHashNative
          ⟨[[], [⟨MurmurHashNative (hashedBytes [5, 9]), gamma⟩]], [1/4, 0, 0, 0], [0, 0, 1]⟩
          1 [5, 7] pay).2.backoff = log10 gamma ∧
      (Callback.Enter 0 2 log10 MurmurHashNative
          ⟨[[], [⟨MurmurHashNative (hashedBytes [5, 9]), gamma⟩]], [1/4, 0, 0, 0], [0, 0, 1]⟩
          1 [5, 7] pay).1.backoffs_ = [[], []] := by
  refine ⟨by rw [hashedBytes_snoc, hashedBytes_snoc], ?_, ?_⟩
  · rw [hashedBytes_snoc, List.length_take, wordBytes_flatten_length]
    simp only [List.length_cons, List.length_append, List.length_nil]
    omega
  · have e : hashedBytes [5, 7] = hashedBytes [5, 9] := by decide
    have c1 : (1 : Nat) < ([[], [⟨MurmurHashNative (hashedBytes [5, 9]), gamma⟩]] :
        List (List HashGamma)).length ∧ ([5, 7] : List WordIndex).getLastD 0 ≠ 0
        ∧ ([5, 7] : List WordIndex).getLastD 0 ≠ 2 := ⟨by simp, by decide, by decide⟩
    have c2 : (1 : Nat) > 0 := by decide
    unfold Callback.Enter
    simp only
    rw [if_pos c1]
    simp only [List.getD_cons_succ, List.getD_cons_zero]
    rw [if_pos c2, e, if_pos rfl]
    exact ⟨rfl, rfl⟩

end lm.builder
